import Mathlib

/-!
Shallow embedding of the core of `mikado_lib/loci_objects`
(`clique_methods.py`, `abstractlocus.py`, `transcript.py`).

Conventions of the embedding:
* Python machine integers are embedded as `Int` (arbitrary precision, as in Python 3).
* Methods that can raise are embedded as functions into `Except PyErr _`;
  each Python `raise`/`assert` site is mapped to the corresponding error value.
* Python lists are Lean lists; `sorted` with a key is an explicit stable
  insertion sort (`pySorted`) on a strict Bool-valued comparison.
* Python `dict` (insertion ordered, assignment replaces in place) and `set`
  (iteration order unspecified; modelled here as insertion order with
  duplicate suppression) are embedded as association lists / dedup lists.
-/

namespace Mikado

/-- Errors raised by the embedded code.  Each constructor corresponds to an
exception class used in the Python sources (`mikado_lib.exceptions` is not part
of `src/`; only the distinct identities of the exception classes matter here). -/
inductive PyErr where
  | invalidTranscript
  | invalidCDS
  | modificationError
  | notInLocus
  | assertionFailure
  | indexError
  | networkXError
  | keyError
  | valueError
  deriving Repr, DecidableEq

/-- Transcript strand; Python uses the strings "+" and "-" (with `None` for
an undetermined strand, embedded as `Option Strand`). -/
inductive Strand where
  | plus
  | minus
  deriving Repr, DecidableEq

/-- Stable insertion of `x` into `l`: `x` is placed before the first element
that is not strictly less than it, matching the stability of Python `sorted`. -/
def pyInsert {α : Type} (lt : α → α → Bool) (x : α) : List α → List α
  | [] => [x]
  | y :: ys => if lt y x then y :: pyInsert lt x ys else x :: y :: ys

/-- Stable sort on a strict comparison; embeds Python `sorted(l, key=...)`. -/
def pySorted {α : Type} (lt : α → α → Bool) : List α → List α
  | [] => []
  | x :: xs => pyInsert lt x (pySorted lt xs)

/-- Lexicographic strict comparison on integer pairs; embeds sorting with
`key=operator.itemgetter(0, 1)`. -/
def pairLt (a b : Int × Int) : Bool :=
  a.1 < b.1 || (a.1 == b.1 && a.2 < b.2)

/-- Sum of inclusive 1-based interval lengths, `sum(e[1] - e[0] + 1 for e in l)`. -/
def sumLens (l : List (Int × Int)) : Int :=
  (l.map (fun p => p.2 - p.1 + 1)).sum

/-- Python `sorted` of a 2-element tuple of ints. -/
def sortPair (p : Int × Int) : Int × Int :=
  if p.1 ≤ p.2 then p else (p.2, p.1)

/-- `clique_methods.overlap` (also `Abstractlocus.overlap`, which is the
character-identical static method): the signed overlap of two inclusive
intervals, `min(end) - max(start)` after flanking.  Values `<= 0` indicate
"no overlap" per the function's docstring. -/
def overlap (first_interval second_interval : Int × Int) (flank : Int) : Int :=
  let f := sortPair first_interval
  let s := sortPair second_interval
  let left_boundary := max (f.1 - flank) (s.1 - flank)
  let right_boundary := min (f.2 + flank) (s.2 + flank)
  right_boundary - left_boundary

/-- `Transcript.overlap` (classmethod, no sorting and no flank):
`min(first[1], second[1]) - max(first[0], second[0])`. -/
def tOverlap (first second : Int × Int) : Int :=
  let lend := max first.1 second.1
  let rend := min first.2 second.2
  rend - lend

/-- Membership of a genomic position in a 1-based inclusive interval. -/
def memInterval (i : Int × Int) (x : Int) : Prop :=
  i.1 ≤ x ∧ x ≤ i.2

instance (i : Int × Int) (x : Int) : Decidable (memInterval i x) := by
  unfold memInterval; infer_instance



/-- A serialised BED12 ORF record, as consumed by `Transcript.load_orfs` and
`Transcript.split_by_cds`.  The BED12 parser itself
(`mikado_lib.parsers.bed12`) is not part of `src/`; the fields below are
modelled from the spec's CandidateOrf contract (`thickStart`, `thickEnd`,
`strand`, length, start/stop-codon flags, CDS length) plus the fields the
embedded methods read or write (`start`, `end`, `fasta_length`, `invalid`).
`name` keys the record in `find_overlapping_cds`; Python uses strings, here an
injectively renamed `Nat`.  `invalid` is modelled as stored data.  `len(orf)`
is modelled as the inclusive span `end - start + 1` (`orfLen`). -/
structure BED12 where
  name : Nat
  strand : Strand
  thickStart : Int
  thickEnd : Int
  cds_len : Int
  has_start_codon : Bool
  has_stop_codon : Bool
  invalid : Bool
  start : Int
  end_ : Int
  fasta_length : Int
  blockSizes : List Int
  deriving Repr, DecidableEq

/-- `len(orf)` for a BED12 record (see `BED12`). -/
def orfLen (o : BED12) : Int :=
  o.end_ - o.start + 1

/-- One HSP of a BLAST hit, with the fields read by `split_by_cds`:
`hsp_evalue`, `query_hsp_start`, `query_hsp_end`.  E-values are embedded as
rationals. -/
structure Hsp where
  hsp_evalue : ℚ
  query_hsp_start : Int
  query_hsp_end : Int
  deriving Repr, DecidableEq

/-- One BLAST hit dictionary, with the fields read by `split_by_cds`:
`target` (a name; Python a string, here an injectively renamed `Nat`) and
`hsps`. -/
structure Hit where
  target : Nat
  hsps : List Hsp
  deriving Repr, DecidableEq

/-- Kind tag of an internal-ORF segment.  Python uses the strings
"CDS" < "UTR" < "exon" (this is their lexicographic string order, used by the
segment sort `key=operator.itemgetter(1, 2, 0)`); `segRank` reproduces it. -/
inductive SegKind where
  | cds
  | utr
  | exon
  deriving Repr, DecidableEq

def segRank : SegKind → Nat
  | .cds => 0
  | .utr => 1
  | .exon => 2

/-- An internal-ORF segment `(kind, start, end)`. -/
structure Segment where
  kind : SegKind
  start : Int
  end_ : Int
  deriving Repr, DecidableEq

/-- Strict comparison embedding the segment sort `key=operator.itemgetter(1, 2, 0)`
(start, end, then kind string). -/
def segLt (a b : Segment) : Bool :=
  a.start < b.start ||
    (a.start == b.start && (a.end_ < b.end_ ||
      (a.end_ == b.end_ && segRank a.kind < segRank b.kind)))

/-- Strict comparison embedding the internal-ORF sort `key=operator.itemgetter(1, 2)`. -/
def segLt12 (a b : Segment) : Bool :=
  a.start < b.start || (a.start == b.start && a.end_ < b.end_)

/-- The `Transcript` state: the attributes of the Python class that the
embedded methods (`add_exon`, `finalize`, `load_orfs`, `split_by_cds`) read or
write.  Scoring/metric attributes, logger, and database session state are
omitted: they do not affect these methods. -/
structure Transcript where
  id : String
  chrom : Option String
  strand : Option Strand
  start : Int
  end_ : Int
  exons : List (Int × Int)
  combined_cds : List (Int × Int)
  combined_utr : List (Int × Int)
  internal_orfs : List (List Segment)
  selected_internal_orf_index : Option Nat
  finalized : Bool
  has_start_codon : Bool
  has_stop_codon : Bool
  introns : List (Int × Int)
  splices : List Int
  loaded_bed12 : List BED12
  blast_hits : List Hit
  feature : String
  deriving Repr, DecidableEq

namespace Transcript

/-- `Transcript.cdna_length`: total exonic length. -/
def cdna_length (t : Transcript) : Int :=
  sumLens t.exons

/-- `Transcript.combined_cds_length`. -/
def combined_cds_length (t : Transcript) : Int :=
  sumLens t.combined_cds

/-- `Transcript.combined_utr_length`. -/
def combined_utr_length (t : Transcript) : Int :=
  sumLens t.combined_utr

/-- `Transcript.number_internal_orfs`. -/
def number_internal_orfs (t : Transcript) : Nat :=
  t.internal_orfs.length

/-- `Transcript.monoexonic`. -/
def monoexonic (t : Transcript) : Bool :=
  t.exons.length == 1

/-- `Transcript.selected_internal_orf`: `internal_orfs[selected_internal_orf_index]`
when a CDS exists, else the empty tuple.  In every state produced by the
embedded operations the stored index is valid; an out-of-range read returns
`[]` here where Python would raise. -/
def selected_internal_orf (t : Transcript) : List Segment :=
  if t.combined_cds.isEmpty then []
  else t.internal_orfs.getD (t.selected_internal_orf_index.getD 0) []

/-- `Transcript.selected_cds`: the CDS duples of the selected internal ORF. -/
def selected_cds (t : Transcript) : List (Int × Int) :=
  if t.combined_cds.isEmpty then []
  else (t.selected_internal_orf.filter (fun s => s.kind == SegKind.cds)).map
    (fun s => (s.start, s.end_))

/-- `Transcript.selected_cds_length`: summed CDS length of the selected ORF. -/
def selected_cds_length (t : Transcript) : Int :=
  if t.combined_cds.isEmpty then 0
  else ((t.selected_internal_orf.filter (fun s => s.kind == SegKind.cds)).map
    (fun s => s.end_ - s.start + 1)).sum

end Transcript


/-- Substring test on the character lists of strings (Python `pat in s`);
implemented directly so that it reduces in the kernel. -/
def listInfix (p : List Char) : List Char → Bool
  | [] => p.isPrefixOf []
  | c :: cs => p.isPrefixOf (c :: cs) || listInfix p cs

def strContains (s pat : String) : Bool := listInfix pat.data s.data

/-- Python `s.endswith(pat)`. -/
def strEndsWith (s pat : String) : Bool := pat.data.isSuffixOf s.data

/-- Python `s.upper()`. -/
def strUpper (s : String) : String := ⟨s.data.map Char.toUpper⟩

/-- An annotation line (GFF/GTF), with the fields read by `Transcript.add_exon`. -/
structure GffLine where
  id : String
  parent : List String
  feature : String
  start : Int
  end_ : Int
  is_exon : Bool
  deriving Repr, DecidableEq

namespace Transcript

/-- `Transcript.add_exon` (transcript.py lines 458-491): appends an
exon/CDS/UTR feature, or records a start/stop codon; refuses to touch a
finalized transcript (`ModificationError`), a feature whose parents do not
include the transcript id (`InvalidTranscript`), a non-exon line (assertion),
or an unknown feature kind (`InvalidTranscript`). -/
def add_exon (t : Transcript) (gffline : GffLine) : Except PyErr Transcript :=
  if t.finalized then .error .modificationError
  else if ¬ (t.id ∈ gffline.parent) then .error .invalidTranscript
  else if gffline.is_exon = false then .error .assertionFailure
  else
    let p := sortPair (gffline.start, gffline.end_)
    if strEndsWith (strUpper gffline.feature) "CDS" then
      .ok { t with combined_cds := t.combined_cds ++ [p] }
    else if strContains gffline.feature "combined_utr" ||
            strContains (strUpper gffline.feature) "UTR" then
      .ok { t with combined_utr := t.combined_utr ++ [p] }
    else if strEndsWith gffline.feature "exon" then
      .ok { t with exons := t.exons ++ [p] }
    else if gffline.feature == "start_codon" then
      .ok { t with has_start_codon := true }
    else if gffline.feature == "stop_codon" then
      .ok { t with has_stop_codon := true }
    else .error .invalidTranscript

/-- The UTR-inference loop body of `finalize` (transcript.py lines 914-930);
`scds` is the sorted combined CDS, `c0`/`clast` its first/last interval. -/
def inferUtrFold (scds : List (Int × Int)) (c0 clast : Int × Int)
    (utr : List (Int × Int)) (exon : Int × Int) : Except PyErr (List (Int × Int)) :=
  if scds.contains exon then .ok utr
  else if exon.2 < c0.1 || exon.1 > clast.2 then .ok (utr ++ [exon])
  else if exon.1 < c0.1 && exon.2 == c0.2 then .ok (utr ++ [(exon.1, c0.1 - 1)])
  else if exon.2 > clast.2 && exon.1 == clast.1 then .ok (utr ++ [(clast.2 + 1, exon.2)])
  else if scds.length == 1 then
    .ok (utr ++ [(exon.1, c0.1 - 1), (clast.2 + 1, exon.2)])
  else .error .invalidCDS

/-- The UTR-inference stage of `finalize` (lines 911-936): runs only when
`cdna_length > combined_utr_length + combined_cds_length`; when the transcript
has CDS but no UTR it sorts the CDS, infers the UTR intervals from the exons,
and enforces the length identity (`InvalidCDS` otherwise).  In every other
case it leaves `(combined_cds, combined_utr)` untouched (the `pass` branch). -/
def inferUtr (exs cds utr : List (Int × Int)) :
    Except PyErr (List (Int × Int) × List (Int × Int)) :=
  if sumLens exs > sumLens utr + sumLens cds then
    if utr.isEmpty && !cds.isEmpty then
      match pySorted pairLt cds with
      | [] => .error .indexError
      | c0 :: crest => do
          let scds := c0 :: crest
          let clast := scds.getLastD c0
          let utr' ← exs.foldlM (inferUtrFold scds c0 clast) utr
          if !((sumLens scds == 0 && sumLens utr' == 0) ||
               sumLens exs == sumLens utr' + sumLens scds) then
            .error .invalidCDS
          else .ok (scds, utr')
    else .ok (cds, utr)
  else .ok (cds, utr)

/-- Intron/splice computation of `finalize` (lines 942-949): gaps between
consecutive sorted exons, raising `InvalidTranscript` when two consecutive
exons overlap. -/
def computeIntrons : List (Int × Int) → Except PyErr (List (Int × Int) × List Int)
  | a :: b :: rest =>
      if a.2 ≥ b.1 then .error .invalidTranscript
      else do
        let (ins, sps) ← computeIntrons (b :: rest)
        .ok ((a.2 + 1, b.1 - 1) :: ins, (a.2 + 1) :: (b.1 - 1) :: sps)
  | _ => .ok ([], [])

/-- Start/stop-codon flag inference of `finalize` (lines 953-962), strand-aware;
reading `combined_cds[0]` with an empty CDS would raise in Python
(`IndexError`), kept as an error here. -/
def codonFlags (strand : Option Strand) (utr cds : List (Int × Int))
    (hasStart hasStop : Bool) : Except PyErr (Bool × Bool) :=
  match utr with
  | [] => .ok (hasStart, hasStop)
  | u0 :: urest =>
    match cds with
    | [] => .error .indexError
    | c0 :: crest =>
      let ulast := (u0 :: urest).getLastD u0
      let clast := (c0 :: crest).getLastD c0
      let h1 : Bool × Bool :=
        if u0.1 < c0.1 then
          match strand with
          | some .plus => (true, hasStop)
          | some .minus => (hasStart, true)
          | none => (hasStart, hasStop)
        else (hasStart, hasStop)
      let h2 : Bool × Bool :=
        if ulast.2 > clast.2 then
          match strand with
          | some .plus => (h1.1, true)
          | some .minus => (true, h1.2)
          | none => h1
        else h1
      .ok h2

/-- The boundary-reconciliation block of `finalize` (lines 981-1001): when the
outer exon bounds disagree with the declared `start`/`end`, a one-base
correction is attempted only when a selected-CDS interval exactly meets the
transcript boundary; any remaining disagreement (or an `IndexError` inside the
block, converted by the surrounding `try`) is `InvalidTranscript`. -/
def boundaryFix (t : Transcript) : Except PyErr Transcript :=
  match t.exons with
  | [] => .error .invalidTranscript
  | e0 :: erest =>
    let elast := (e0 :: erest).getLastD e0
    if e0.1 == t.start && elast.2 == t.end_ then .ok t
    else do
      let t1 ←
        if e0.1 > t.start then
          match (selected_cds t).head? with
          | none => .error .invalidTranscript
          | some c =>
            if c.1 == t.start then
              .ok { t with exons := (t.start, e0.1) :: erest }
            else .ok t
        else .ok t
      let t2 ←
        match t1.exons with
        | [] => .error .invalidTranscript
        | f0 :: frest =>
          let flast := (f0 :: frest).getLastD f0
          if flast.2 < t1.end_ then
            match (selected_cds t1).getLast? with
            | none => .error .invalidTranscript
            | some c =>
              if c.2 == t1.end_ then
                .ok { t1 with exons := (f0 :: frest).dropLast ++ [(flast.1, t1.end_)] }
              else .ok t1
          else .ok t1
      match t2.exons with
      | [] => .error .invalidTranscript
      | g0 :: grest =>
        let glast := (g0 :: grest).getLastD g0
        if g0.1 != t2.start || glast.2 != t2.end_ then .error .invalidTranscript
        else .ok t2

/-- `Transcript.finalize` (transcript.py lines 889-1004). -/
def finalize (t : Transcript) : Except PyErr Transcript :=
  if t.finalized then .ok t
  else if t.exons.isEmpty then .error .invalidTranscript
  else if t.exons.length > 1 && t.strand.isNone then .error .invalidTranscript
  else if !t.combined_utr.isEmpty && t.combined_cds.isEmpty then .error .invalidTranscript
  else do
    let exs := pySorted pairLt t.exons
    let (cds1, utr1) ← inferUtr exs t.combined_cds t.combined_utr
    let (ins, sps) ← computeIntrons exs
    let cds2 := pySorted pairLt cds1
    let utr2 := pySorted pairLt utr1
    let flags ← codonFlags t.strand utr2 cds2 t.has_start_codon t.has_stop_codon
    let segments := pySorted segLt
      ((exs.map fun e => Segment.mk .exon e.1 e.2) ++
       (cds2.map fun c => Segment.mk .cds c.1 c.2) ++
       (utr2.map fun u => Segment.mk .utr u.1 u.2))
    let idx1 := if sumLens cds2 > 0 then some 0 else t.selected_internal_orf_index
    -- line 976: `_ = self.selected_internal_orf`; for a CDS-less transcript the
    -- property assigns index 0 as a side effect, otherwise it reads
    -- `internal_orfs[idx1]` (an invalid stored index would raise in Python).
    let idx2 ← if cds2.isEmpty then pure (some 0)
               else match idx1 with
                    | none => Except.error PyErr.indexError
                    | some i => if i < 1 then pure (some i) else Except.error PyErr.indexError
    let feat := if !cds2.isEmpty then "mRNA" else t.feature
    let t1 : Transcript :=
      { t with exons := exs, combined_cds := cds2, combined_utr := utr2,
               internal_orfs := [segments], selected_internal_orf_index := idx2,
               introns := ins, splices := sps,
               has_start_codon := flags.1, has_stop_codon := flags.2, feature := feat }
    let t2 ← boundaryFix t1
    .ok { t2 with finalized := true }

end Transcript


/-- The concrete transcript of the spec's finalize scenario: exons
`[(1,100),(201,300),(401,500)]`, strand `+`, a single CDS `(250,280)`,
no UTR annotation, declared bounds 1-500. -/
def scenarioTranscript : Transcript :=
  { id := "t1", chrom := some "Chr1", strand := some Strand.plus, start := 1, end_ := 500,
    exons := [(1, 100), (201, 300), (401, 500)], combined_cds := [(250, 280)],
    combined_utr := [], internal_orfs := [], selected_internal_orf_index := none,
    finalized := false, has_start_codon := false, has_stop_codon := false,
    introns := [], splices := [], loaded_bed12 := [], blast_hits := [],
    feature := "transcript" }

/-- An undirected graph as built by `define_graph`: the node list in networkx
insertion order plus an undirected edge list. -/
structure Graph (α : Type) where
  nodes : List α
  edges : List (α × α)

namespace Graph

/-- Adjacency test (`v in G[u]`), direction-insensitive. -/
def adjb {α : Type} [BEq α] (G : Graph α) (u v : α) : Bool :=
  G.edges.any (fun e => (e.1 == u && e.2 == v) || (e.1 == v && e.2 == u))

end Graph

/-- Append `x` unless an `eqb`-equal element is already present; embeds adding
to a Python set, whose unspecified iteration order is modelled as insertion
order. -/
def pyAddBy {α : Type} (eqb : α → α → Bool) (l : List α) (x : α) : List α :=
  if l.any (eqb x) then l else l ++ [x]

/-- Set equality of two element lists; embeds `frozenset` equality for the
duplicate-free clique lists handled by the clustering code. -/
def beqSet {α : Type} [BEq α] (a b : List α) : Bool :=
  a.all (b.contains ·) && b.all (a.contains ·)

/-- `d[k] = v` on an insertion-ordered association list with `eqb`-keyed
lookup; an existing key keeps its position (Python 3.7+ dict semantics). -/
def dictSetBy {κ ν : Type} (eqb : κ → κ → Bool) (d : List (κ × ν)) (k : κ) (v : ν) :
    List (κ × ν) :=
  if d.any (fun e => eqb e.1 k) then d.map (fun e => if eqb e.1 k then (k, v) else e)
  else d ++ [(k, v)]

/-- `d.get(k)` on an association list. -/
def dictGetBy {κ ν : Type} (eqb : κ → κ → Bool) (d : List (κ × ν)) (k : κ) : Option ν :=
  (d.find? (fun e => eqb e.1 k)).map (fun e => e.2)

/-- `k in d` on an association list. -/
def dictHasBy {κ ν : Type} (eqb : κ → κ → Bool) (d : List (κ × ν)) (k : κ) : Bool :=
  d.any (fun e => eqb e.1 k)

/-- Effectful map over a list in the `Except` monad (used to embed loops that
can raise), elementwise and in order. -/
def pyMapM {α β : Type} (f : α → Except PyErr β) : List α → Except PyErr (List β)
  | [] => .ok []
  | a :: as => do
      let b ← f a
      let bs ← pyMapM f as
      .ok (b :: bs)

/-- `Abstractlocus.define_graph` (abstractlocus.py lines 405-443; the
module-level `clique_methods.define_graph` is identical): one node per key of
`objects` (a dict, embedded as a key-unique association list), and an
undirected edge for every ordered pair of distinct keys whose objects satisfy
`inters`; `add_edge(*tuple(sorted(pair)))` orients each stored edge by the
key order `lt` and re-adding an existing edge is a no-op. -/
def define_graph {α β : Type} [BEq α] (lt : α → α → Bool)
    (objects : List (α × β)) (inters : β → β → Bool) : Graph α :=
  { nodes := objects.map Prod.fst,
    edges := objects.foldl (fun es kv =>
      (objects.filter (fun kv2 => !(kv2.1 == kv.1))).foldl (fun es2 kv2 =>
        if inters kv.2 kv2.2 then
          pyAddBy (fun a b => a == b) es2
            (if lt kv.1 kv2.1 then (kv.1, kv2.1) else (kv2.1, kv.1))
        else es2) es) [] }

/-- `c` is a clique of `G`: each element is a node and every two distinct
elements are adjacent. -/
def isCliqueb {α : Type} [BEq α] (G : Graph α) (c : List α) : Bool :=
  c.all (G.nodes.contains ·) &&
  c.all (fun u => c.all (fun v => u == v || G.adjb u v))

/-- `c` is a maximal clique of `G`: a clique that no further node extends. -/
def isMaximalCliqueb {α : Type} [BEq α] (G : Graph α) (c : List α) : Bool :=
  isCliqueb G c &&
  G.nodes.all (fun v => c.contains v || !(c.all (fun u => G.adjb u v)))

/-- Modelled from the spec: `networkx.find_cliques_recursive` is an external
library routine (networkx is not part of this repository); per §4.2 of the
spec the default exact recursive algorithm (a Bron-Kerbosch variant)
"produces all maximal cliques of a graph".  It is modelled as the enumeration
of every duplicate-free maximal clique, each listed as a sublist of the node
list (hence in node order), in the canonical sublist order. -/
def find_cliques_recursive {α : Type} [BEq α] (G : Graph α) : List (List α) :=
  G.nodes.sublists.filter (fun c => !c.isEmpty && isMaximalCliqueb G c)

/-- First-occurrence position of an element in a list (used for the `index`
dict of `enumerate_all_cliques`: `index[u] = len(index)` at insertion time). -/
def posIn {α : Type} [BEq α] : List α → α → Nat
  | [], _ => 0
  | x :: xs, u => if x == u then 0 else posIn xs u + 1

/-- Position of a node in the iteration order of `G` (the `index` dict of
`enumerate_all_cliques`). -/
def nodeIdx {α : Type} [BEq α] (G : Graph α) (u : α) : Nat :=
  posIn G.nodes u

/-- `nbrs[u]` of `enumerate_all_cliques`: the neighbours of `u` that appear
after `u` in the iteration order of `G`.  The initial queue sorts them by
index, which coincides with node order, so they are materialised directly in
node order. -/
def laterNbrs {α : Type} [BEq α] (G : Graph α) (u : α) : List α :=
  G.nodes.filter (fun v => G.adjb u v && decide (nodeIdx G u < nodeIdx G v))

/-- Membership in `nbrs[u]` (the `filter(nbrs[u].__contains__, ...)` test of
`enumerate_all_cliques`), for candidates drawn from the node list. -/
def inNbrs {α : Type} [BEq α] (G : Graph α) (u v : α) : Bool :=
  G.adjb u v && decide (nodeIdx G u < nodeIdx G v)

/-- One expansion step of `enumerate_all_cliques` (lines 80-83): from the
popped entry `(base, cnbrs)`, the `i`-th element `u` of `cnbrs` enqueues
`(base + [u], [v for v in cnbrs[i+1:] if v in nbrs[u]])`. -/
def zhangExpand {α : Type} [BEq α] (G : Graph α) (base : List α) :
    List α → List (List α × List α)
  | [] => []
  | u :: rest => (base ++ [u], rest.filter (inNbrs G u)) :: zhangExpand G base rest

/-- Weight of the queue of `enumerate_all_cliques`; justifies termination of
the breadth-first loop. -/
def queueMeasure {α : Type} (q : List (List α × List α)) : Nat :=
  (q.map (fun e => 2 ^ e.2.length)).sum

/-- The `while queue` loop of `enumerate_all_cliques` (lines 77-83): pop the
head entry (FIFO `deque.popleft`), yield its base, enqueue its expansions.
The loop is driven by structural fuel so that it computes in the kernel;
`queueMeasure` strictly decreases at every step (see `queueMeasure_step`), so
with initial fuel `queueMeasure q` the cut-off branch is never reached. -/
def zhangRun {α : Type} [BEq α] (G : Graph α) : Nat → List (List α × List α) → List (List α)
  | _, [] => []
  | 0, _ :: _ => []
  | fuel + 1, (base, cnbrs) :: rest =>
      base :: zhangRun G fuel (rest ++ zhangExpand G base cnbrs)

/-- `enumerate_all_cliques` (abstractlocus.py lines 20-83): the iterative
Zhang et al. algorithm, "adapted to output all cliques discovered" (its own
docstring: it returns cliques of every cardinality, not only maximal ones).
The FIFO queue is seeded with `([u], later-neighbours of u)` for every node. -/
def enumerate_all_cliques {α : Type} [BEq α] (G : Graph α) : List (List α) :=
  zhangRun G (queueMeasure (G.nodes.map (fun u => ([u], laterNbrs G u))))
    (G.nodes.map (fun u => ([u], laterNbrs G u)))

/-- `nodes_to_clique_dict`: a `defaultdict(set)` mapping each node to the set
of (length-filtered) cliques containing it. -/
abbrev NodeDict (α : Type) : Type := List (α × List (List α))

/-- `nodes_to_clique_dict[node]` (a `defaultdict`, so absent keys read as the
empty set). -/
def nodeDictGet {α : Type} [BEq α] (d : NodeDict α) (node : α) : List (List α) :=
  (dictGetBy (fun a b => a == b) d node).getD []

/-- Building `nodes_to_clique_dict` (abstractlocus.py lines 110-112). -/
def buildNodeDict {α : Type} [BEq α] (cliques : List (List α)) : NodeDict α :=
  cliques.foldl (fun d c =>
    c.foldl (fun d2 node =>
      dictSetBy (fun a b => a == b) d2 node (pyAddBy beqSet (nodeDictGet d2 node) c)) d) []

/-- Total number of clique occurrences indexed by the dict (termination
weight of the frontier search). -/
def dictOcc {α : Type} (d : NodeDict α) : Nat :=
  (d.map (fun e => e.2.length)).sum

/-- A clique is still indexed somewhere in the dict. -/
def dictHasClique {α : Type} [BEq α] (d : NodeDict α) (c : List α) : Bool :=
  d.any (fun e => e.2.any (beqSet c))

/-- `_get_unvisited_neighbours` (abstractlocus.py lines 156-171): the union of
the dict entries of the nodes of `current`, minus `current` itself. -/
def get_unvisited_neighbours {α : Type} [BEq α] (current : List α) (d : NodeDict α) :
    List (List α) :=
  current.foldl (fun acc node =>
    ((nodeDictGet d node).filter (fun c => !beqSet c current)).foldl (pyAddBy beqSet) acc) []

/-- `for node in neighbour: nodes_to_clique_dict[node].remove(neighbour)`
(line 140-141): a clique is indexed under exactly its own nodes, so removing
it from every entry is the same operation. -/
def removeClique {α : Type} [BEq α] (d : NodeDict α) (c : List α) : NodeDict α :=
  d.map (fun e => (e.1, e.2.filter (fun c2 => !beqSet c c2)))

/-- `len(frozenset.intersection(current, neighbour))` for duplicate-free
clique lists. -/
def interLen {α : Type} [BEq α] (a b : List α) : Nat :=
  (a.filter (b.contains ·)).length

/-- In-flight state of the percolation search: the assignment
`cliques_to_components_dict`, the shrinking node index, and the frontier
(a Python set; popped here from the head). -/
structure RdhState (α : Type) where
  assign : List (List α × Nat)
  dict : NodeDict α
  frontier : List (List α)

/-- Processing of the materialised neighbour set of one popped frontier clique
(abstractlocus.py lines 136-141): each neighbour sharing at least `k-1` nodes
is assigned the current component, pushed on the frontier and removed from the
node index.  `_get_unvisited_neighbours` only returns cliques still present in
the index, so the `dictHasClique` conjunct is vacuous in every reachable
state; it makes the decrease of the termination weight purely syntactic. -/
def rdhVisit {α : Type} [BEq α] (k : Nat) (comp : Nat) (current : List α) :
    RdhState α → List (List α) → RdhState α
  | st, [] => st
  | st, nb :: nbs =>
      if interLen current nb ≥ k - 1 && dictHasClique st.dict nb then
        rdhVisit k comp current
          { assign := dictSetBy beqSet st.assign nb comp,
            dict := removeClique st.dict nb,
            frontier := pyAddBy beqSet st.frontier nb } nbs
      else rdhVisit k comp current st nbs

/-- The `while len(frontier) > 0` loop of `reid_daid_hurley` (abstractlocus.py
lines 132-143): pop a frontier clique, materialise its unvisited neighbours,
process them.  Driven by structural fuel so that it computes in the kernel;
`2 * dictOcc + |frontier|` strictly decreases at every step (each guarded
visit removes an indexed clique occurrence and pushes at most one frontier
entry), so with that initial fuel the cut-off branch is never reached. -/
def rdhBFS {α : Type} [BEq α] (k : Nat) (comp : Nat) : Nat → RdhState α → RdhState α
  | 0, st => st
  | fuel + 1, st =>
      match st.frontier with
      | [] => st
      | current :: rest =>
          rdhBFS k comp fuel
            (rdhVisit k comp current { st with frontier := rest }
              (get_unvisited_neighbours current st.dict))

/-- The outer loop of `reid_daid_hurley` (abstractlocus.py lines 123-143):
each still-unassigned clique seeds a fresh component number and is flooded
through the frontier search. -/
def rdhOuter {α : Type} [BEq α] (k : Nat) :
    List (List α) → RdhState α → Nat → List (List α × Nat)
  | [], st, _ => st.assign
  | clique :: rest, st, counter =>
      if dictHasBy beqSet st.assign clique then rdhOuter k rest st counter
      else
        let comp := counter + 1
        let st2 := rdhBFS k comp (2 * dictOcc st.dict + 1)
          { assign := dictSetBy beqSet st.assign clique comp,
            dict := st.dict, frontier := [clique] }
        rdhOuter k rest { st2 with frontier := [] } comp

/-- Final collection of `reid_daid_hurley` (lines 146-153): group the assigned
cliques by component number and union their node sets; both dict iteration
orders are insertion orders. -/
def rdhCollect {α : Type} [BEq α] (assign : List (List α × Nat)) : List (List α) :=
  (assign.foldl (fun acc e =>
    dictSetBy (fun a b : Nat => a == b) acc e.2
      (e.1.foldl (pyAddBy (fun a b : α => a == b))
        ((dictGetBy (fun a b : Nat => a == b) acc e.2).getD []))) []).map Prod.snd

/-- `reid_daid_hurley` (abstractlocus.py lines 85-153; `clique_methods.py`
lines 154-230 carry the same algorithm): clique percolation by frontier
search over the cliques of size `>= k`; fails (`networkx.NetworkXError`) for
`k < 2`.  The `graph` argument is only consulted when no clique list is
passed; every call in this code supplies the cliques. -/
def reid_daid_hurley {α : Type} [BEq α] (graph : Graph α) (k : Nat)
    (cliques : List (List α)) : Except PyErr (List (List α)) :=
  if k < 2 then .error .networkXError
  else
    let cliquesF := cliques.filter (fun c => k ≤ c.length)
    let assign := rdhOuter k cliquesF
      { assign := [], dict := buildNodeDict cliquesF, frontier := [] } 0
    .ok (rdhCollect assign)

/-- `Abstractlocus.find_communities` (abstractlocus.py lines 445-520): cliques
through the 200-node switch (`networkx.find_cliques_recursive` for at most 200
nodes, `enumerate_all_cliques` above), then communities = the singleton
cliques plus the Reid-Daid-Hurley percolation communities with `k = 2`.
Returns `(cliques, communities)`. -/
def find_communities {α : Type} [BEq α] (G : Graph α) :
    Except PyErr (List (List α) × List (List α)) := do
  let cliques := if 200 < G.nodes.length then enumerate_all_cliques G
                 else find_cliques_recursive G
  let comms0 := (cliques.filter (fun c => c.length == 1)).foldl (pyAddBy beqSet) []
  let rdh ← reid_daid_hurley G 2 cliques
  .ok (cliques, rdh.foldl (pyAddBy beqSet) comms0)

/-- Strict node-position order of `G`. -/
def idxLt {α : Type} [BEq α] (G : Graph α) (u v : α) : Prop :=
  nodeIdx G u < nodeIdx G v

/-- A list in strictly ascending node-position order: the canonical clique
form produced by both clique enumerators. -/
def AscList {α : Type} [BEq α] (G : Graph α) (c : List α) : Prop :=
  List.Pairwise (idxLt G) c

/-- Candidate for extending a partial clique `base` of `enumerate_all_cliques`:
a node adjacent to every element of `base` and positioned after all of them
(for an ascending base this is "after the last element"). -/
def ZCand {α : Type} [BEq α] (G : Graph α) (base : List α) (v : α) : Prop :=
  v ∈ G.nodes ∧ ∀ u ∈ base, G.adjb u v = true ∧ nodeIdx G u < nodeIdx G v

/-- The loop invariant of `enumerate_all_cliques` for one queue entry
`(base, cnbrs)`: the base is a nonempty ascending clique and `cnbrs` is
exactly its ascending candidate list. -/
def ZEntryInv {α : Type} [BEq α] (G : Graph α) (e : List α × List α) : Prop :=
  e.1 ≠ [] ∧ AscList G e.1 ∧ isCliqueb G e.1 = true ∧ AscList G e.2 ∧
    ∀ v, v ∈ e.2 ↔ ZCand G e.1 v

/-- A two-node single-edge graph, and a 5-node sample graph (triangle 0-1-2,
edge 2-3, isolated node 4) used to instantiate the clique theorems. -/
def twoNodeGraph : Graph Nat := { nodes := [0, 1], edges := [(0, 1)] }

def sampleGraph : Graph Nat :=
  { nodes := [0, 1, 2, 3, 4], edges := [(0, 1), (0, 2), (1, 2), (2, 3)] }

namespace Transcript

/-- `Transcript.overlap` alias used by the predicates below is `tOverlap`.
`Transcript.is_overlapping_cds` (transcript.py lines 1461-1472): two ORF
records overlap when they are distinct objects and their
`(thickStart, thickEnd)` intervals overlap positively.  Python's `==` on
BED12 objects is identity; distinct dict keys hold distinct objects, so in
the keyed context where this predicate runs, identity is name equality. -/
def is_overlapping_cds (first second : BED12) : Bool :=
  if first.name == second.name ||
      tOverlap (first.thickStart, first.thickEnd)
        (second.thickStart, second.thickEnd) ≤ 0 then false
  else true

/-- `Transcript.is_intersecting` (lines 1474-1491) on exon/CDS duples:
intersecting unless equal or overlap strictly negative. -/
def is_intersecting (first second : Int × Int) : Bool :=
  if first == second || tOverlap first second < 0 then false else true

/-- `Transcript.find_overlapping_cds` (lines 1439-1459): index the candidate
ORFs by name, build the overlap graph, take the communities and map the name
communities back to object sets (kept in community order). -/
def find_overlapping_cds (candidates : List BED12) :
    Except PyErr (List (List BED12)) := do
  let d := candidates.foldl
    (fun acc x => dictSetBy (fun a b : Nat => a == b) acc x.name x) []
  let res ← find_communities (define_graph (fun a b : Nat => decide (a < b)) d
    (fun o1 o2 => is_overlapping_cds o1 o2))
  .ok (res.2.map (fun comm =>
    comm.filterMap (fun x => dictGetBy (fun a b : Nat => a == b) d x)))

/-- `Transcript.find_communities` (lines 1510-1524): the wrapper over the
`Abstractlocus` classmethod for interval duples, discarding the cliques. -/
def find_communities (objects : List (Int × Int)) :
    Except PyErr (List (List (Int × Int))) := do
  let d := objects.foldl
    (fun acc x => dictSetBy (fun a b : Int × Int => a == b) acc x x) []
  let res ← Mikado.find_communities (define_graph pairLt d
    (fun a b => is_intersecting a b))
  .ok res.2

/-- The + strand exon walk of `load_orfs` (lines 1284-1301): project the ORF
window `[thickStart, thickEnd]` (cDNA coordinates) onto each exon, emitting
the exon plus its UTR/CDS sub-segments.  `total` is the cDNA length consumed
so far (`current_start`/`current_end` of the Python loop are `total + 1` and
`total + elength`). -/
def orfWalkPlus (orf : BED12) : List (Int × Int) → Int → List Segment
  | [], _ => []
  | exon :: rest, total =>
      let current_start := total + 1
      let current_end := total + (exon.2 - exon.1 + 1)
      let body :=
        if current_end < orf.thickStart || current_start > orf.thickEnd then
          [Segment.mk .utr exon.1 exon.2]
        else
          let c_start := exon.1 + max 0 (orf.thickStart - current_start)
          let c_end := exon.2 - max 0 (current_end - orf.thickEnd)
          (if c_start > exon.1 then [Segment.mk .utr exon.1 (c_start - 1)] else []) ++
          (if c_start ≤ c_end then [Segment.mk .cds c_start c_end] else []) ++
          (if c_end < exon.2 then [Segment.mk .utr (c_end + 1) exon.2] else [])
      Segment.mk .exon exon.1 exon.2 :: (body ++ orfWalkPlus orf rest current_end)

/-- The - strand exon walk of `load_orfs` (lines 1303-1318), over the exons in
reversed genomic order; note the CDS segment is emitted unconditionally in
this branch. -/
def orfWalkMinus (orf : BED12) : List (Int × Int) → Int → List Segment
  | [], _ => []
  | exon :: rest, total =>
      let current_start := total + 1
      let current_end := total + (exon.2 - exon.1 + 1)
      let body :=
        if current_end < orf.thickStart || current_start > orf.thickEnd then
          [Segment.mk .utr exon.1 exon.2]
        else
          let c_end := exon.2 - max 0 (orf.thickStart - current_start)
          let c_start := exon.1 + max 0 (current_end - orf.thickEnd)
          (if c_end < exon.2 then [Segment.mk .utr (c_end + 1) exon.2] else []) ++
          [Segment.mk .cds c_start c_end] ++
          (if c_start > exon.1 then [Segment.mk .utr exon.1 (c_start - 1)] else [])
      Segment.mk .exon exon.1 exon.2 :: (body ++ orfWalkMinus orf rest current_end)

/-- One iteration of the ORF-loading loop of `load_orfs` (lines 1263-1320):
set the codon flags from the first (primary) ORF, skip ORFs with coordinates
outside the cDNA (warning only), adopt the ORF's strand when none is set,
record the BED object and append its projected segment list. -/
def loadOrfStep (t : Transcript) (primary : Bool) (orf : BED12) : Transcript × Bool :=
  let t1 := if primary then
      { t with has_start_codon := orf.has_start_codon,
               has_stop_codon := orf.has_stop_codon } else t
  if !(orf.thickStart ≥ 1 && orf.thickEnd ≤ cdna_length t1) ||
      !(orfLen orf == cdna_length t1) then (t1, false)
  else
    let t2 := if t1.strand.isNone then { t1 with strand := some orf.strand } else t1
    let t3 := { t2 with loaded_bed12 := t2.loaded_bed12 ++ [orf] }
    let cds_exons :=
      match t3.strand with
      | some Strand.plus => orfWalkPlus orf (pySorted pairLt t3.exons) 0
      | some Strand.minus =>
          orfWalkMinus orf (pySorted (fun a b => pairLt b a) t3.exons) 0
      | none => []
    ({ t3 with internal_orfs := t3.internal_orfs ++ [pySorted segLt12 cds_exons] },
     false)

/-- Ascending list of the distinct integers covered by `a..b` (used for the
position-set arithmetic of the multi-ORF branch). -/
def intRange (a b : Int) : List Int :=
  (List.range (b + 1 - a).toNat).map (fun i => a + i)

/-- `sorted(set(...))` of all positions covered by a list of intervals. -/
def coveredSorted (l : List (Int × Int)) : List Int :=
  pySorted (fun a b : Int => decide (a < b))
    (l.foldl (fun acc p => (intRange p.1 p.2).foldl
      (pyAddBy (fun a b : Int => a == b)) acc) [])

/-- Position membership test against a list of intervals. -/
def coveredBy (l : List (Int × Int)) (x : Int) : Bool :=
  l.any (fun p => p.1 ≤ x && x ≤ p.2)

/-- The run-collapsing loop of the multi-ORF branch (lines 1361-1372):
turn the ascending UTR position list into maximal contiguous segments. -/
def collapseRuns : List Int → Option (Int × Int) → List (Int × Int)
  | [], none => []
  | [], some cur => [cur]
  | p :: rest, none => collapseRuns rest (some (p, p))
  | p :: rest, some cur =>
      if p == cur.2 + 1 then collapseRuns rest (some (cur.1, p))
      else cur :: collapseRuns rest (some (p, p))

/-- The per-community representative selection of `load_orfs` (line 1234):
`sorted(clique, reverse=True, key=operator.attrgetter("cds_len"))[0]` — the
member with the greatest `cds_len` (first in iteration order among ties). -/
def cliqueRep (clique : List BED12) : Except PyErr BED12 :=
  match pySorted (fun a b : BED12 => decide (b.cds_len < a.cds_len)) clique with
  | [] => Except.error PyErr.indexError
  | x :: _ => Except.ok x

/-- The survivor filter of `load_orfs` (lines 1236-1243): the first
representative (`new_orfs[0]`) is kept unconditionally; each later one is
kept only when its CDS length exceeds `minimal_secondary_orf_length` and it
is not invalid. -/
def survivorFilter (minimal : Int) (new_orfs : List BED12) : List BED12 :=
  match new_orfs with
  | [] => []
  | o0 :: orest =>
      o0 :: (orest.filter (fun x => minimal < x.cds_len)).filter
        (fun orf => !orf.invalid)

/-- `Transcript.load_orfs` (transcript.py lines 1194-1382).
`minimal_secondary_orf_length` is the configuration value
`json_dict["orf_loading"]["minimal_secondary_orf_length"]` (0 when no
configuration is loaded). -/
def load_orfs (t0 : Transcript) (minimal_secondary_orf_length : Int)
    (candidate_orfs0 : List BED12) : Except PyErr Transcript := do
  let t ← finalize t0
  let candidate_cliques ← find_overlapping_cds candidate_orfs0
  let new_orfs ← pyMapM cliqueRep candidate_cliques
  let candidate_orfs1 := survivorFilter minimal_secondary_orf_length new_orfs
  if candidate_orfs1.isEmpty then .ok t
  else do
    let t1 := { t with
        combined_utr := [], combined_cds := [],
        internal_orfs := [], finalized := false, loaded_bed12 := [] }
    let candidate_orfs2 ←
      if !(monoexonic t1 && t1.strand.isNone) then
        pure (candidate_orfs1.filter (fun co => co.strand == Strand.plus))
      else
        match candidate_orfs1 with
        | [] => Except.error PyErr.indexError
        | c0 :: _ => pure (candidate_orfs1.filter (fun co => co.strand == c0.strand))
    let sorted_orfs :=
      pySorted (fun a b : BED12 => decide (b.cds_len < a.cds_len)) candidate_orfs2
    let t2 := (sorted_orfs.foldl (fun (st : Transcript × Bool) orf =>
        loadOrfStep st.1 st.2 orf) (t1, true)).1
    let t3 ←
      if t2.internal_orfs.length == 1 then
        match t2.internal_orfs with
        | [o] =>
            pure { t2 with
              combined_cds := pySorted pairLt
                ((o.filter (fun s => s.kind == SegKind.cds)).map
                  (fun s => (s.start, s.end_))),
              combined_utr := pySorted pairLt
                ((o.filter (fun s => s.kind == SegKind.utr)).map
                  (fun s => (s.start, s.end_))) }
        | _ => Except.error PyErr.indexError
      else if 1 < t2.internal_orfs.length then do
        let candidates := t2.internal_orfs.foldl (fun acc io =>
            acc ++ (io.filter (fun s => s.kind == SegKind.cds)).map
              (fun s => (s.start, s.end_))) []
        let comms ← Transcript.find_communities candidates
        let cds_spans ← pyMapM (fun mc =>
            match mc with
            | [] => Except.error PyErr.valueError
            | m0 :: _ => Except.ok
                ((mc.map Prod.fst).foldl min m0.1, (mc.map Prod.snd).foldl max m0.2))
            comms
        let ccds := pySorted pairLt cds_spans
        let utr_pos := (coveredSorted t2.exons).filter (fun x => !coveredBy ccds x)
        let cutr := collapseRuns utr_pos none
        if cdna_length t2 == sumLens ccds + sumLens cutr then
          pure { t2 with combined_cds := ccds, combined_utr := cutr }
        else Except.error PyErr.assertionFailure
      else pure t2
    if t3.internal_orfs.isEmpty then finalize t3
    else .ok { t3 with feature := "mRNA", finalized := true }

end Transcript

/-- The chimera-split leniency policy (`json_dict["chimera_split"]["blast_params"]["leniency"]`). -/
inductive Leniency where
  | stringent
  | lenient
  | permissive
  deriving Repr, DecidableEq

/-- The configuration keys read by `split_by_cds` from
`json_dict["chimera_split"]`. -/
structure ChimeraConfig where
  blast_check : Bool
  minimal_hsp_overlap : ℚ
  hsp_evalue : ℚ
  leniency : Leniency
  deriving Repr, DecidableEq

namespace Transcript

/-- Building `cds_hit_dict` (transcript.py lines 526-540): for each CDS
boundary, the set of hit-target names having an HSP under the e-value
threshold whose query segment overlaps the boundary by at least
`minimal_hsp_overlap` times the boundary length. -/
def cdsHitDict (cfg : ChimeraConfig) (minimal_overlap : ℚ) (blast_hits : List Hit)
    (keys : List (Int × Int)) : List ((Int × Int) × List Nat) :=
  let d0 := keys.map (fun k => (k, ([] : List Nat)))
  blast_hits.foldl (fun d hit =>
    (hit.hsps.filter (fun hsp => hsp.hsp_evalue ≤ cfg.hsp_evalue)).foldl (fun d2 hsp =>
      keys.foldl (fun d3 cds_run =>
        if ((overlap cds_run (hsp.query_hsp_start, hsp.query_hsp_end) 0 : Int) : ℚ) ≥
            minimal_overlap * ((cds_run.2 + 1 - cds_run.1 : Int) : ℚ) then
          dictSetBy (fun a b : Int × Int => a == b) d3 cds_run
            (pyAddBy (fun a b : Nat => a == b)
              ((dictGetBy (fun a b : Int × Int => a == b) d3 cds_run).getD [])
              hit.target)
        else d3) d2) d) d0

/-- One step of the boundary-grouping loop of `split_by_cds` (lines 542-568):
decide, per leniency policy, whether the next CDS boundary is merged into the
last group or starts a new group. -/
def groupStep (leniency : Leniency) (hitOf : Int × Int → List Nat)
    (new_boundaries : List (List (Int × Int))) (b : Int × Int) :
    List (List (Int × Int)) :=
  match new_boundaries.getLast? with
  | none => [[b]]
  | some last =>
      let old_boundary := last.getLastD b
      let cds_hits := hitOf b
      let old_hits := hitOf old_boundary
      let merge := new_boundaries.dropLast ++ [last ++ [b]]
      let split := new_boundaries ++ [[b]]
      if cds_hits.isEmpty && old_hits.isEmpty then
        if leniency == Leniency.stringent then merge else split
      else if cds_hits.isEmpty || old_hits.isEmpty then
        if leniency == Leniency.permissive then split else merge
      else
        if cds_hits.all (fun x => !old_hits.contains x) then split else merge

/-- The boundary-grouping loop of `split_by_cds` (lines 542-568). -/
def groupBoundaries (leniency : Leniency) (hitOf : Int × Int → List Nat)
    (keys : List (Int × Int)) : List (List (Int × Int)) :=
  keys.foldl (groupStep leniency hitOf) []

/-- Merging of grouped boundaries into `final_boundaries` (lines 570-582). -/
def finalBoundaries (cds_boundaries : List ((Int × Int) × List BED12))
    (groups : List (List (Int × Int))) : List ((Int × Int) × List BED12) :=
  groups.foldl (fun fb boundary =>
    match boundary with
    | [] => fb
    | [b] => dictSetBy (fun a b2 : Int × Int => a == b2) fb b
        ((dictGetBy (fun a b2 : Int × Int => a == b2) cds_boundaries b).getD [])
    | b0 :: _ :: _ =>
        let nb := (b0.1, (boundary.getLastD b0).2)
        dictSetBy (fun a b2 : Int × Int => a == b2) fb nb
          (boundary.foldl (fun acc boun =>
            acc ++ (dictGetBy (fun a b2 : Int × Int => a == b2) cds_boundaries boun).getD [])
            [])) []

/-- State of the per-child exon walk of `split_by_cds` (lines 612-766). -/
structure SplitExonState where
  my_exons : List (Int × Int)
  discarded : List (Int × Int)
  tlength : Int
  tstart : Option Int
  tend : Option Int
  deriving Repr, DecidableEq

def optMin (o : Option Int) (x : Int) : Option Int :=
  match o with
  | none => some x
  | some y => some (min y x)

def optMax (o : Option Int) (x : Int) : Option Int :=
  match o with
  | none => some x
  | some y => some (max y x)

/-- One exon of the per-child walk of `split_by_cds` (lines 627-766): the exon
is kept, discarded, trimmed to a monobase stub, or cut at the boundary, in
transcript coordinates `texon`; `tstart`/`tend` track the kept transcript
span (they start as infinities, embedded as `none`). -/
def splitExonStep (strand : Option Strand) (left right : Bool)
    (boundary : Int × Int) (st : SplitExonState) (exon : Int × Int) :
    SplitExonState :=
  let elength := exon.2 - exon.1 + 1
  let texon : Int × Int := (st.tlength + 1, st.tlength + elength)
  let tlength := st.tlength + elength
  if boundary.1 ≤ texon.1 && texon.1 < texon.2 && texon.2 ≤ boundary.2 then
    { st with my_exons := st.my_exons ++ [exon], tlength := tlength,
              tstart := optMin st.tstart texon.1, tend := optMax st.tend texon.2 }
  else if texon.2 < boundary.1 then
    if left = false then
      { st with my_exons := st.my_exons ++ [exon], tlength := tlength,
                tstart := optMin st.tstart texon.1, tend := optMax st.tend texon.2 }
    else
      { st with discarded := st.discarded ++ [exon], tlength := tlength }
  else if texon.1 > boundary.2 then
    if right = false then
      { st with my_exons := st.my_exons ++ [exon], tlength := tlength,
                tstart := optMin st.tstart texon.1, tend := optMax st.tend texon.2 }
    else
      { st with discarded := st.discarded ++ [exon], tlength := tlength }
  else
    let res : (Int × Int) × (Int × Int) × List (Int × Int) :=
      if texon.2 == boundary.1 then
        if left = false then (exon, texon, [])
        else if strand == some Strand.plus then
          ((exon.2 - 1, exon.2), (texon.2 - 1, texon.2), [(exon.1, exon.2 - 1)])
        else
          ((exon.1, exon.1 + 1), (texon.2 - 1, texon.2), [(exon.1 + 1, exon.2)])
      else if texon.1 == boundary.2 then
        if right = false then (exon, texon, [])
        else if strand == some Strand.plus then
          ((exon.1, exon.1 + 1), (texon.1, texon.1 + 1), [(exon.1 + 1, exon.2)])
        else
          ((exon.2 - 1, exon.2), (texon.2 - 1, texon.2), [(exon.1, exon.2 - 1)])
      else if texon.1 ≤ boundary.1 && boundary.1 ≤ boundary.2 && boundary.2 ≤ texon.2 then
        let ne1 :=
          if strand == some Strand.minus then
            (if left then (exon.1, exon.1 + (texon.2 - boundary.1)) else exon)
          else
            (if left then (exon.2 - (texon.2 - boundary.1), exon.2) else exon)
        let ne2 :=
          if strand == some Strand.minus then
            (if right then (exon.2 - (boundary.2 - texon.1), ne1.2) else ne1)
          else
            (if right then (ne1.1, exon.1 + (boundary.2 - texon.1)) else ne1)
        let tx1 := if left then (boundary.1, texon.2) else texon
        let tx2 := if right then (tx1.1, boundary.2) else tx1
        (ne2, tx2, [])
      else if texon.1 ≤ boundary.1 && boundary.1 ≤ texon.2 && texon.2 ≤ boundary.2 then
        if left then
          if strand == some Strand.minus then
            ((exon.1, exon.1 + (texon.2 - boundary.1)), (boundary.1, texon.2), [])
          else
            ((exon.2 - (texon.2 - boundary.1), exon.2), (boundary.1, texon.2), [])
        else (exon, texon, [])
      else if texon.2 ≥ boundary.2 && boundary.2 ≥ texon.1 && texon.1 ≥ boundary.1 then
        if right then
          if strand == some Strand.minus then
            ((exon.2 - (boundary.2 - texon.1), exon.2), (texon.1, boundary.2), [])
          else
            ((exon.1, exon.1 + (boundary.2 - texon.1)), (texon.1, boundary.2), [])
        else (exon, texon, [])
      else (exon, texon, [])
    { st with my_exons := st.my_exons ++ [sortPair res.1],
              discarded := st.discarded ++ res.2.2,
              tlength := tlength,
              tstart := optMin st.tstart res.2.1.1,
              tend := optMax st.tend res.2.1.2 }

end Transcript

/-- The configuration surface of `split_by_cds` and the nested `load_orfs`
call on each child (`self.json_dict`); `none` embeds `json_dict is None`. -/
structure JsonConf where
  chimera_split : ChimeraConfig
  minimal_secondary_orf_length : Int
  deriving Repr, DecidableEq

namespace Transcript

/-- Sort key `operator.itemgetter(0)` on exon duples (line 627). -/
def fstLt (a b : Int × Int) : Bool :=
  a.1 < b.1

/-- One child construction of `split_by_cds` (lines 594-806): walk the exons
against the boundary, build the child transcript, shift its BED12 objects to
the child's transcript coordinates, finalize, reload the ORFs, and reject a
child with no CDS (`InvalidTranscript`); a child with no exons fails the
`assert len(my_exons) > 0`. -/
def splitChild (t : Transcript) (msec : Int) (counter : Nat) (total : Nat)
    (boundary : Int × Int) (bed12_objects : List BED12) :
    Except PyErr Transcript := do
  let left := !(counter == 0)
  let right := !(counter + 1 == total)
  let reversal := t.strand == some Strand.minus
  let exon_list := if reversal then pySorted (fun a b => fstLt b a) t.exons
                   else pySorted fstLt t.exons
  let st := exon_list.foldl (splitExonStep t.strand left right boundary)
      { my_exons := [], discarded := [], tlength := 0, tstart := none, tend := none }
  if st.my_exons.isEmpty then Except.error PyErr.assertionFailure
  else
    match st.tstart, st.tend with
    | some tstart, some tend => do
        let nstart ← match st.my_exons.map Prod.fst with
                     | [] => Except.error PyErr.valueError
                     | x :: xs => pure (xs.foldl min x)
        let nend ← match st.my_exons.map Prod.snd with
                   | [] => Except.error PyErr.valueError
                   | x :: xs => pure (xs.foldl max x)
        let new_bed12s ← pyMapM (fun obj => do
            let e := min obj.end_ tend - tstart + 1
            let nb : BED12 := { obj with
                start := 1, end_ := e, fasta_length := e,
                thickStart := min obj.thickStart tend - tstart + 1,
                thickEnd := min obj.thickEnd tend - tstart + 1,
                blockSizes := [e] }
            if nb.invalid then Except.error PyErr.assertionFailure else pure nb)
          bed12_objects
        let child0 : Transcript :=
          { id := t.id ++ ".split" ++ toString (counter + 1),
            chrom := t.chrom, strand := t.strand,
            start := nstart, end_ := nend, exons := st.my_exons,
            combined_cds := [], combined_utr := [], internal_orfs := [],
            selected_internal_orf_index := none, finalized := false,
            has_start_codon := false, has_stop_codon := false,
            introns := [], splices := [], loaded_bed12 := [], blast_hits := [],
            feature := "mRNA" }
        let child1 ← finalize child0
        let child2 := if monoexonic child1 then { child1 with strand := none }
                      else child1
        let child3 ← load_orfs child2 msec new_bed12s
        if selected_cds_length child3 ≤ 0 then Except.error PyErr.invalidTranscript
        else pure child3
    | _, _ => Except.error PyErr.assertionFailure

/-- The child loop of `split_by_cds` (lines 594-825), checking each new
child's genomic span for positive overlap against all previous spans
(`InvalidTranscript` on overlap). -/
def splitChildren (t : Transcript) (msec : Int) (total : Nat) :
    Nat → List (Int × Int) → List ((Int × Int) × List BED12) →
    Except PyErr (List Transcript)
  | _, _, [] => .ok []
  | counter, spans, (boundary, beds) :: rest => do
      let child ← splitChild t msec counter total boundary beds
      if spans.any (fun span => 0 < overlap span (child.start, child.end_) 0) then
        Except.error PyErr.invalidTranscript
      else do
        let others ← splitChildren t msec total (counter + 1)
            (spans ++ [(child.start, child.end_)]) rest
        .ok (child :: others)

/-- `Transcript.split_by_cds` (transcript.py lines 494-831). -/
def split_by_cds (json_dict : Option JsonConf) (t0 : Transcript) :
    Except PyErr (List Transcript) := do
  let t ← finalize t0
  let minimal_overlap : ℚ := match json_dict with
    | none => 0
    | some j => j.chimera_split.minimal_hsp_overlap
  if number_internal_orfs t < 2 then .ok [t]
  else do
    let sorted_bed := pySorted (fun a b : BED12 =>
        a.thickStart < b.thickStart ||
        (a.thickStart == b.thickStart && a.thickEnd < b.thickEnd)) t.loaded_bed12
    let cds_b0 : List ((Int × Int) × List BED12) := sorted_bed.foldl (fun acc orf =>
        dictSetBy (fun a b : Int × Int => a == b) acc
          (orf.thickStart, orf.thickEnd) [orf]) []
    let cds_boundaries :=
      match json_dict with
      | some j =>
          if j.chimera_split.blast_check then
            let keys := cds_b0.map Prod.fst
            let hitdict := cdsHitDict j.chimera_split minimal_overlap t.blast_hits keys
            finalBoundaries cds_b0 (groupBoundaries j.chimera_split.leniency
              (fun k => (dictGetBy (fun a b : Int × Int => a == b) hitdict k).getD [])
              keys)
          else cds_b0
      | none => cds_b0
    if cds_boundaries.length == 1 then .ok [t]
    else do
      let items := pySorted (fun a b : (Int × Int) × List BED12 => pairLt a.1 b.1)
        cds_boundaries
      let msec : Int := match json_dict with
        | none => 0
        | some j => j.minimal_secondary_orf_length
      let children ← splitChildren t msec items.length 0 [] items
      if children.isEmpty then Except.error PyErr.assertionFailure
      else .ok children

end Transcript

/-- A monoexonic transcript spanning 101-200 with no annotation, used as the
base of the ORF-loading and chimera-splitting scenarios. -/
def monoTranscript : Transcript :=
  { id := "m1", chrom := some "c", strand := none, start := 101, end_ := 200,
    exons := [(101, 200)], combined_cds := [], combined_utr := [],
    internal_orfs := [], selected_internal_orf_index := none, finalized := false,
    has_start_codon := false, has_stop_codon := false, introns := [], splices := [],
    loaded_bed12 := [], blast_hits := [], feature := "transcript" }

/-- Candidate ORF on cDNA window 10-50 of a 100-base transcript. -/
def orfOne : BED12 :=
  { name := 1, strand := Strand.plus, thickStart := 10, thickEnd := 50, cds_len := 41,
    has_start_codon := true, has_stop_codon := true, invalid := false,
    start := 1, end_ := 100, fasta_length := 100, blockSizes := [100] }

/-- Candidate ORF on cDNA window 60-90, disjoint from `orfOne`. -/
def orfTwo : BED12 :=
  { name := 2, strand := Strand.plus, thickStart := 60, thickEnd := 90, cds_len := 31,
    has_start_codon := true, has_stop_codon := true, invalid := false,
    start := 1, end_ := 100, fasta_length := 100, blockSizes := [100] }

/-- A configuration with BLAST checking enabled under the STRINGENT leniency. -/
def stringentConf : JsonConf :=
  { chimera_split :=
      { blast_check := true, minimal_hsp_overlap := 0, hsp_evalue := 10,
        leniency := Leniency.stringent },
    minimal_secondary_orf_length := 0 }

/-- The two-ORF parent of the chimera-splitting scenario: `monoTranscript`
after loading `orfOne` and `orfTwo` (no minimal secondary ORF length). -/
def splitParent : Transcript :=
  match Transcript.load_orfs monoTranscript 0 [orfOne, orfTwo] with
  | Except.ok t => t
  | Except.error _ => monoTranscript

/-- `sys.maxsize` on a 64-bit platform, the initial `start` sentinel of an
`Abstractlocus` (`self.start, self.end = maxsize, -maxsize`).  The
`float("Inf")`/`float("-Inf")` sentinels written by
`remove_transcript_from_locus` when the last transcript is removed behave
identically for every transcript coordinate below `maxsize` and are embedded
by the same value. -/
def maxsize : Int := 9223372036854775807

/-- The state of an `Abstractlocus` touched by `add_transcript_to_locus` and
`remove_transcript_from_locus` (abstractlocus.py lines 186-205, 578-718).
`transcripts` is the insertion-ordered id-keyed dict.  The
`combined_cds_introns`/`selected_cds_introns` accumulators are omitted: they
read transcript attributes outside the embedded `Transcript`, and their only
control-flow effect is the assert
`len(transcript.combined_cds_introns) <= len(self.combined_cds_introns)`,
which compares a set with a union containing it and cannot fail. -/
structure Locus where
  transcripts : List (String × Transcript)
  start : Int
  end_ : Int
  strand : Option Strand
  chrom : Option String
  stranded : Bool
  initialized : Bool
  monoexonic : Bool
  introns : List (Int × Int)
  exons : List (Int × Int)
  splices : List Int
  deriving Repr, DecidableEq

/-- The freshly constructed (abstract) locus state of `__init__`
(lines 186-205). -/
def initialLocus : Locus :=
  { transcripts := [], start := maxsize, end_ := -maxsize, strand := none,
    chrom := none, stranded := true, initialized := false, monoexonic := true,
    introns := [], exons := [], splices := [] }

/-- `Abstractlocus.in_locus` (lines 372-403): chromosome equality, strand
compatibility, and positive overlap of the boundary pairs. -/
def in_locus (l : Locus) (t0 : Transcript) (flank : Int) :
    Except PyErr Bool := do
  let t ← Transcript.finalize t0
  if l.chrom == t.chrom then
    if l.stranded = false || l.strand == t.strand then
      if overlap (l.start, l.end_) (t.start, t.end_) flank > 0 then pure true
      else pure false
    else pure false
  else pure false

/-- `Abstractlocus.add_transcript_to_locus` (lines 578-641): finalize the
transcript, check membership (unless suppressed or not yet initialized),
extend the boundaries with `min`/`max`, store the transcript under its id
(overwriting any previous entry with the same id), and extend the
splice/intron/exon sets.  `self.source = transcript.source` is omitted
(`source` is outside the embedded state). -/
def add_transcript_to_locus (l : Locus) (t0 : Transcript)
    (check_in_locus : Bool) : Except PyErr Locus := do
  let t ← Transcript.finalize t0
  let l1 := { l with monoexonic := l.monoexonic && Transcript.monoexonic t }
  let l2 ←
    if l1.initialized then
      if check_in_locus = false then pure l1
      else do
        let inl ← in_locus l1 t 0
        if !inl then Except.error PyErr.notInLocus else pure l1
    else pure { l1 with strand := t.strand, chrom := t.chrom }
  let l3 := { l2 with start := min l2.start t.start, end_ := max l2.end_ t.end_ }
  let l4 := { l3 with
    transcripts := dictSetBy (fun a b : String => a == b) l3.transcripts t.id t,
    splices := t.splices.foldl (pyAddBy (fun a b : Int => a == b)) l3.splices,
    introns := t.introns.foldl (pyAddBy (fun a b : Int × Int => a == b)) l3.introns }
  if Transcript.monoexonic t = false && l4.introns.isEmpty then
    Except.error PyErr.assertionFailure
  else
    let l5 := { l4 with
      exons := t.exons.foldl (pyAddBy (fun a b : Int × Int => a == b)) l4.exons }
    let l6 := if l5.initialized = false then { l5 with initialized := true } else l5
    pure l6

/-- `Abstractlocus.remove_transcript_from_locus` (lines 643-718): `KeyError`
for an absent id; a full reset when the last transcript is removed; otherwise
the bounds are recomputed from the survivors and the exon/intron/splice sets
are purged of elements carried only by the removed transcript.  The trailing
`parent` reassignment loop is omitted (outside the embedded state). -/
def remove_transcript_from_locus (l : Locus) (tid : String) :
    Except PyErr Locus :=
  if !(dictHasBy (fun a b : String => a == b) l.transcripts tid) then
    Except.error PyErr.keyError
  else if l.transcripts.length == 1 then
    Except.ok { l with
      transcripts := [], introns := [], exons := [],
      splices := [], start := maxsize, end_ := -maxsize, strand := none,
      stranded := true, initialized := false }
  else do
    let survivors := l.transcripts.filter (fun p => !(p.1 == tid))
    let nend ← match survivors.map (fun p => p.2.end_) with
               | [] => Except.error PyErr.valueError
               | e :: es => pure (es.foldl max e)
    let nstart ← match survivors.map (fun p => p.2.start) with
                 | [] => Except.error PyErr.valueError
                 | s :: ss => pure (ss.foldl min s)
    let removed ← match dictGetBy (fun a b : String => a == b) l.transcripts tid with
                  | none => Except.error PyErr.keyError
                  | some tr => pure tr
    let other_exons := survivors.foldl (fun acc p =>
      p.2.exons.foldl (pyAddBy (fun a b : Int × Int => a == b)) acc) []
    let exons2 := l.exons.filter (fun e =>
      !(removed.exons.any (fun x => x == e) && !(other_exons.any (fun x => x == e))))
    let other_introns := survivors.foldl (fun acc p =>
      p.2.introns.foldl (pyAddBy (fun a b : Int × Int => a == b)) acc) []
    let introns2 := l.introns.filter (fun e =>
      !(removed.introns.any (fun x => x == e) && !(other_introns.any (fun x => x == e))))
    let other_splices := survivors.foldl (fun acc p =>
      p.2.splices.foldl (pyAddBy (fun a b : Int => a == b)) acc) []
    let splices2 := l.splices.filter (fun e =>
      !(removed.splices.any (fun x => x == e) && !(other_splices.any (fun x => x == e))))
    Except.ok { l with
      transcripts := survivors, start := nstart, end_ := nend,
      exons := exons2, introns := introns2, splices := splices2 }

/-- A single locus operation of the C8 trace language. -/
inductive LocusOp where
  | add (t : Transcript) (check_in_locus : Bool)
  | remove (tid : String)
  deriving Repr

/-- Apply one locus operation. -/
def applyOp (l : Locus) : LocusOp → Except PyErr Locus
  | LocusOp.add t ck => add_transcript_to_locus l t ck
  | LocusOp.remove tid => remove_transcript_from_locus l tid

/-- Apply a sequence of locus operations from left to right. -/
def applyOps : Locus → List LocusOp → Except PyErr Locus
  | l, [] => Except.ok l
  | l, op :: rest => do
      let l1 ← applyOp l op
      applyOps l1 rest

/-- The boundary invariant of the spec: when the locus holds at least one
transcript, `start` is the minimum of the stored transcripts' starts and
`end` the maximum of their ends; an empty locus carries the sentinels. -/
def LocusBounds (l : Locus) : Prop :=
  (∀ s ss, l.transcripts.map (fun p => p.2.start) = s :: ss →
    l.start = ss.foldl min s) ∧
  (∀ e es, l.transcripts.map (fun p => p.2.end_) = e :: es →
    l.end_ = es.foldl max e) ∧
  (l.transcripts = [] → l.start = maxsize ∧ l.end_ = -maxsize)

/-- The first duplicate-id transcript: `"x"` spanning 1-10. -/
def locusT1 : Transcript :=
  { id := "x", chrom := some "c", strand := some Strand.plus, start := 1, end_ := 10,
    exons := [(1, 10)], combined_cds := [], combined_utr := [],
    internal_orfs := [], selected_internal_orf_index := none, finalized := false,
    has_start_codon := false, has_stop_codon := false, introns := [], splices := [],
    loaded_bed12 := [], blast_hits := [], feature := "transcript" }

/-- The second duplicate-id transcript: `"x"` again, now spanning 5-6. -/
def locusT2 : Transcript :=
  { locusT1 with start := 5, end_ := 6, exons := [(5, 6)] }

/-- A fresh-id variant of `locusT2` (`"y"`, spanning 5-6). -/
def locusT3 : Transcript :=
  { locusT2 with id := "y" }

/-- The locus state after adding `locusT1` and then `locusT3`. -/
def locusW : Locus :=
  match applyOps initialLocus [LocusOp.add locusT1 true, LocusOp.add locusT3 true] with
  | Except.ok l => l
  | Except.error _ => initialLocus


/-- A finalizable transcript carrying a pre-supplied but incomplete UTR
annotation next to its CDS: exon 1-100, CDS 10-20, UTR 1-9 only. -/
def c1Bad : Transcript :=
  { id := "bad", chrom := some "c", strand := some Strand.plus, start := 1, end_ := 100,
    exons := [(1, 100)], combined_cds := [(10, 20)], combined_utr := [(1, 9)],
    internal_orfs := [], selected_internal_orf_index := none, finalized := false,
    has_start_codon := false, has_stop_codon := false, introns := [], splices := [],
    loaded_bed12 := [], blast_hits := [], feature := "transcript" }

/-- A transcript whose declared CDS is longer than its whole cDNA: exon 1-10
but CDS 1-20 and no UTR.  `cdna_length > combined_utr_length +
combined_cds_length` fails, so the inference-and-check block of `finalize` is
skipped and the inconsistency survives. -/
def c1Bad2 : Transcript :=
  { id := "bad2", chrom := some "c", strand := some Strand.plus, start := 1, end_ := 10,
    exons := [(1, 10)], combined_cds := [(1, 20)], combined_utr := [],
    internal_orfs := [], selected_internal_orf_index := none, finalized := false,
    has_start_codon := false, has_stop_codon := false, introns := [], splices := [],
    loaded_bed12 := [], blast_hits := [], feature := "transcript" }

/-- The finalized form of the spec's concrete scenario transcript. -/
def c1FinW : Transcript :=
  match Transcript.finalize scenarioTranscript with
  | Except.ok t => t
  | Except.error _ => scenarioTranscript

/-- Reachability along graph adjacency (reflexive-transitive closure). -/
def Reach {α : Type} [BEq α] (G : Graph α) (u v : α) : Prop :=
  Relation.ReflTransGen (fun a b => G.adjb a b = true) u v

/-- A 201-node graph with a single edge between nodes 0 and 1, triggering the
fallback clique enumerator of `find_communities`. -/
def G201 : Graph Nat := { nodes := List.range 201, edges := [(0, 1)] }

/-- All cliques stored as values of the node index come from the list
`cliques` (the length-filtered clique list the index was built from). -/
def DictFrom {α : Type} (cliques : List (List α)) (d : NodeDict α) : Prop :=
  ∀ e ∈ d, ∀ c ∈ e.2, c ∈ cliques

/-- Every clique recorded in the component assignment is a clique of `G`. -/
def AssignCliques {α : Type} [BEq α] (G : Graph α) (assign : List (List α × Nat)) : Prop :=
  ∀ p ∈ assign, isCliqueb G p.1 = true

/-- Any two cliques assigned the same component number are mutually reachable,
node by node: the key connectivity invariant of the percolation search. -/
def AssignConn {α : Type} [BEq α] (G : Graph α) (assign : List (List α × Nat)) : Prop :=
  ∀ p ∈ assign, ∀ q ∈ assign, p.2 = q.2 → ∀ u ∈ p.1, ∀ v ∈ q.1, Reach G u v

/-- All component numbers handed out so far are bounded by the counter, so the
next seed number is fresh. -/
def CompBound {α : Type} (n : Nat) (assign : List (List α × Nat)) : Prop :=
  ∀ p ∈ assign, p.2 ≤ n

/-- Every frontier clique is recorded in the assignment under the component
currently being flooded. -/
def FrontierLinked {α : Type} [BEq α] (comp : Nat) (assign : List (List α × Nat))
    (frontier : List (List α)) : Prop :=
  ∀ c ∈ frontier, ∃ p ∈ assign, p.2 = comp ∧ beqSet c p.1 = true

-- ========================= Theorems =========================

theorem pyInsert_perm {α : Type} (lt : α → α → Bool) (x : α) (l : List α) :
    List.Perm (pyInsert lt x l) (x :: l) := by
  induction l with
  | nil => simp [pyInsert]
  | cons y ys ih =>
      simp only [pyInsert]
      by_cases h : lt y x = true
      · simp only [h, if_pos]
        exact List.Perm.trans (List.Perm.cons y ih) (List.Perm.swap x y ys)
      · simp [h]

theorem pySorted_perm {α : Type} (lt : α → α → Bool) (l : List α) :
    List.Perm (pySorted lt l) l := by
  induction l with
  | nil => simp [pySorted]
  | cons x xs ih =>
      exact List.Perm.trans (pyInsert_perm lt x (pySorted lt xs)) (List.Perm.cons x ih)

theorem sumLens_perm {l l' : List (Int × Int)} (h : List.Perm l l') :
    sumLens l = sumLens l' := by
  unfold sumLens
  exact (h.map _).sum_eq

theorem sumLens_pySorted (lt : Int × Int → Int × Int → Bool) (l : List (Int × Int)) :
    sumLens (pySorted lt l) = sumLens l :=
  sumLens_perm (pySorted_perm lt l)

/-- C5 counterexample: the intervals `(1,5)` and `(5,10)` share exactly one
base (position 5), yet `overlap` returns `0`, not a positive value — refuting
"positive exactly when the intervals share at least one base". -/
theorem overlap_one_base_not_positive :
    memInterval (1, 5) 5 ∧ memInterval (5, 10) 5 ∧ overlap (1, 5) (5, 10) 0 = 0 := by
  refine ⟨by decide, by decide, by decide⟩

/-- C5 (amended): with `start ≤ end` intervals and flank 0, `overlap a b`
is positive exactly when the two intervals share at least two bases;
equivalently it is `≤ 0` exactly when they share at most one base (sharing a
single base yields exactly 0). -/
theorem overlap_pos_iff_two_shared (a b : Int × Int)
    (ha : a.1 ≤ a.2) (hb : b.1 ≤ b.2) :
    (0 < overlap a b 0 ↔
      ∃ x y : Int, x < y ∧ memInterval a x ∧ memInterval b x ∧
        memInterval a y ∧ memInterval b y) ∧
    (overlap a b 0 = 0 ↔
      (∃ x : Int, memInterval a x ∧ memInterval b x) ∧
      ¬ ∃ x y : Int, x < y ∧ memInterval a x ∧ memInterval b x ∧
        memInterval a y ∧ memInterval b y) := by
  unfold overlap sortPair memInterval
  simp only [if_pos ha, if_pos hb]
  constructor
  · constructor
    · intro h
      refine ⟨max a.1 b.1, max a.1 b.1 + 1, by omega, ?_, ?_, ?_, ?_⟩ <;>
        simp only [sup_le_iff, le_max_iff] at * <;> omega
    · rintro ⟨x, y, hxy, hax, hbx, hay, hby⟩
      omega
  · constructor
    · intro h
      refine ⟨⟨max a.1 b.1, ?_, ?_⟩, ?_⟩
      · omega
      · omega
      · rintro ⟨x, y, hxy, hax, hbx, hay, hby⟩
        omega
    · rintro ⟨⟨x, hax, hbx⟩, hno⟩
      by_contra hne
      rcases lt_or_gt_of_ne hne with hlt | hgt
      · omega
      · exact hno ⟨max a.1 b.1, max a.1 b.1 + 1, by omega, by omega, by omega, by omega, by omega⟩

/-- C5 witness: the amended theorem applied to the concrete intervals
`(1,3)` and `(2,5)`, which share the two bases 2 and 3. -/
theorem overlap_pos_iff_two_shared_witness :
    (0 < overlap (1, 3) (2, 5) 0 ↔
      ∃ x y : Int, x < y ∧ memInterval (1, 3) x ∧ memInterval (2, 5) x ∧
        memInterval (1, 3) y ∧ memInterval (2, 5) y) ∧
    (overlap (1, 3) (2, 5) 0 = 0 ↔
      (∃ x : Int, memInterval (1, 3) x ∧ memInterval (2, 5) x) ∧
      ¬ ∃ x y : Int, x < y ∧ memInterval (1, 3) x ∧ memInterval (2, 5) x ∧
        memInterval (1, 3) y ∧ memInterval (2, 5) y) :=
  overlap_pos_iff_two_shared (1, 3) (2, 5) (by decide) (by decide)

/-- C9: `finalize()` on the transcript with exons `[(1,100),(201,300),(401,500)]`,
strand `+` and CDS `(250,280)` succeeds and yields introns
`{(101,200),(301,400)}`, combined UTR `[(1,100),(201,249),(281,300),(401,500)]`
and a combined CDS length of 31. -/
theorem finalize_scenario :
    (Transcript.finalize scenarioTranscript).map
      (fun t => (t.introns, t.combined_utr, t.combined_cds_length)) =
    Except.ok ([(101, 200), (301, 400)],
               [(1, 100), (201, 249), (281, 300), (401, 500)], 31) := by
  rfl

/-- C10: calling `add_exon` with any annotation line on a transcript that has
already been finalized fails with `ModificationError`; the guard precedes
every other check and mutation, so the embedded call returns the bare error
and the exon/CDS/UTR stores of the input are untouched. -/
theorem add_exon_finalized_errors (t : Transcript) (line : GffLine)
    (h : t.finalized = true) :
    Transcript.add_exon t line = Except.error PyErr.modificationError := by
  unfold Transcript.add_exon
  simp [h]

/-- C10 witness: `add_exon` on a concrete finalized transcript. -/
theorem add_exon_finalized_errors_witness :
    ({ scenarioTranscript with finalized := true } : Transcript).finalized = true ∧
    Transcript.add_exon { scenarioTranscript with finalized := true }
      { id := "e1", parent := ["t1"], feature := "exon", start := 1, end_ := 100,
        is_exon := true } = Except.error PyErr.modificationError :=
  ⟨rfl, add_exon_finalized_errors _ _ rfl⟩


theorem isCliqueb_iff {α : Type} [BEq α] [LawfulBEq α] (G : Graph α) (c : List α) :
    isCliqueb G c = true ↔
      (∀ u ∈ c, u ∈ G.nodes) ∧ ∀ u ∈ c, ∀ v ∈ c, u = v ∨ G.adjb u v = true := by
  simp [isCliqueb, List.all_eq_true, List.elem_iff]

theorem adjb_comm {α : Type} [BEq α] (G : Graph α) (u v : α) :
    G.adjb u v = G.adjb v u := by
  simp only [Graph.adjb]
  congr 1
  funext e
  exact Bool.or_comm _ _

theorem zhangExpand_mem {α : Type} [BEq α] (G : Graph α) (base : List α)
    (l : List α) (e : List α × List α) :
    e ∈ zhangExpand G base l ↔
      ∃ pre u post, l = pre ++ u :: post ∧
        e = (base ++ [u], post.filter (inNbrs G u)) := by
  induction l with
  | nil => simp [zhangExpand]
  | cons u rest ih =>
      simp only [zhangExpand, List.mem_cons, ih]
      constructor
      · rintro (rfl | ⟨pre, w, post, rfl, rfl⟩)
        · exact ⟨[], u, rest, rfl, rfl⟩
        · exact ⟨u :: pre, w, post, rfl, rfl⟩
      · rintro ⟨pre, w, post, hsplit, rfl⟩
        cases pre with
        | nil =>
            simp only [List.nil_append, List.cons.injEq] at hsplit
            obtain ⟨rfl, rfl⟩ := hsplit
            left; rfl
        | cons p ps =>
            simp only [List.cons_append, List.cons.injEq] at hsplit
            obtain ⟨rfl, hrest⟩ := hsplit
            right; exact ⟨ps, w, post, hrest, rfl⟩

theorem ZEntryInv_expand {α : Type} [BEq α] [LawfulBEq α] (G : Graph α)
    (base cnbrs : List α) (hinv : ZEntryInv G (base, cnbrs)) :
    ∀ e ∈ zhangExpand G base cnbrs, ZEntryInv G e := by
  obtain ⟨hne, hascb, hclq, hascc, hexact⟩ := hinv
  dsimp only at hne hascb hclq hascc hexact
  intro e he
  rw [zhangExpand_mem] at he
  obtain ⟨pre, u, post, hsplit, rfl⟩ := he
  have hu_mem : u ∈ cnbrs := by rw [hsplit]; simp
  have hu_cand : ZCand G base u := (hexact u).mp hu_mem
  obtain ⟨hu_node, hu_base⟩ := hu_cand
  subst hsplit
  rw [AscList, List.pairwise_append] at hascc
  obtain ⟨hpre_pw, hupost_pw, hcross⟩ := hascc
  rw [List.pairwise_cons] at hupost_pw
  obtain ⟨hu_post, hpost_pw⟩ := hupost_pw
  refine ⟨by simp, ?_, ?_, ?_, ?_⟩
  · -- AscList (base ++ [u])
    rw [AscList, List.pairwise_append]
    refine ⟨hascb, List.pairwise_singleton _ _, ?_⟩
    intro x hx y hy
    simp only [List.mem_singleton] at hy
    subst hy
    exact (hu_base x hx).2
  · -- isCliqueb (base ++ [u])
    rw [isCliqueb_iff]
    rw [isCliqueb_iff] at hclq
    obtain ⟨hnodes, hpairs⟩ := hclq
    constructor
    · intro x hx
      rcases List.mem_append.mp hx with h | h
      · exact hnodes x h
      · simp only [List.mem_singleton] at h; subst h; exact hu_node
    · intro x hx y hy
      rcases List.mem_append.mp hx with hx' | hx' <;>
        rcases List.mem_append.mp hy with hy' | hy'
      · exact hpairs x hx' y hy'
      · simp only [List.mem_singleton] at hy'; subst hy'
        exact Or.inr (hu_base x hx').1
      · simp only [List.mem_singleton] at hx'; subst hx'
        rw [adjb_comm]
        exact Or.inr (hu_base y hy').1
      · simp only [List.mem_singleton] at hx' hy'; subst hx'; subst hy'
        exact Or.inl rfl
  · -- AscList of the filtered candidates
    exact List.Pairwise.sublist (List.filter_sublist post) hpost_pw
  · -- exactness
    intro v
    rw [List.mem_filter]
    constructor
    · rintro ⟨hv_post, hv_nbrs⟩
      have hv_c : v ∈ pre ++ u :: post := by simp [hv_post]
      have hv_cand : ZCand G base v := (hexact v).mp hv_c
      obtain ⟨hv_node, hv_base⟩ := hv_cand
      simp only [inNbrs, Bool.and_eq_true, decide_eq_true_eq] at hv_nbrs
      refine ⟨hv_node, ?_⟩
      intro w hw
      rcases List.mem_append.mp hw with hw' | hw'
      · exact hv_base w hw'
      · simp only [List.mem_singleton] at hw'; subst hw'
        exact ⟨hv_nbrs.1, hv_nbrs.2⟩
    · rintro ⟨hv_node, hv_all⟩
      have hv_u := hv_all u (by simp)
      have hv_base : ZCand G base v :=
        ⟨hv_node, fun w hw => hv_all w (List.mem_append.mpr (Or.inl hw))⟩
      have hv_c : v ∈ pre ++ u :: post := (hexact v).mpr hv_base
      have hv_post : v ∈ post := by
        rcases List.mem_append.mp hv_c with h | h
        · exfalso
          have h2 := hcross v h u (List.mem_cons_self u post)
          simp only [idxLt] at h2
          have h3 := hv_u.2
          omega
        · rcases List.mem_cons.mp h with h' | h'
          · exfalso
            subst h'
            have h3 := hv_u.2
            omega
          · exact h'
      refine ⟨hv_post, ?_⟩
      simp [inNbrs, hv_u.1, hv_u.2]

theorem posIn_pairwise {α : Type} [BEq α] [LawfulBEq α] (l : List α) (h : l.Nodup) :
    List.Pairwise (fun a b => posIn l a < posIn l b) l := by
  induction l with
  | nil => simp
  | cons x xs ih =>
      rw [List.nodup_cons] at h
      obtain ⟨hx, hxs⟩ := h
      rw [List.pairwise_cons]
      constructor
      · intro b hb
        have hne : (x == b) = false := by
          rw [beq_eq_false_iff_ne]; rintro rfl; exact hx hb
        simp [posIn, hne]
      · refine (ih hxs).imp_of_mem ?_
        intro a b ha hb hab
        have hna : (x == a) = false := by
          rw [beq_eq_false_iff_ne]; rintro rfl; exact hx ha
        have hnb : (x == b) = false := by
          rw [beq_eq_false_iff_ne]; rintro rfl; exact hx hb
        simp only [posIn, hna, hnb, if_false, Bool.false_eq_true]
        omega

theorem nodes_ascList {α : Type} [BEq α] [LawfulBEq α] (G : Graph α)
    (h : G.nodes.Nodup) : AscList G G.nodes :=
  posIn_pairwise G.nodes h

theorem ZEntryInv_init {α : Type} [BEq α] [LawfulBEq α] (G : Graph α)
    (hnodup : G.nodes.Nodup) (u : α) (hu : u ∈ G.nodes) :
    ZEntryInv G ([u], laterNbrs G u) := by
  refine ⟨by simp, List.pairwise_singleton _ _, ?_, ?_, ?_⟩
  · rw [isCliqueb_iff]
    refine ⟨fun x hx => ?_, fun x hx y hy => ?_⟩
    · simp only [List.mem_singleton] at hx; subst hx; exact hu
    · simp only [List.mem_singleton] at hx hy; subst hx; subst hy; exact Or.inl rfl
  · exact List.Pairwise.sublist (List.filter_sublist _) (nodes_ascList G hnodup)
  · intro v
    simp only [laterNbrs, List.mem_filter, Bool.and_eq_true, decide_eq_true_eq, ZCand]
    constructor
    · rintro ⟨hv, hadj, hlt⟩
      refine ⟨hv, fun w hw => ?_⟩
      simp only [List.mem_singleton] at hw; subst hw; exact ⟨hadj, hlt⟩
    · rintro ⟨hv, hall⟩
      have h1 := hall u (List.mem_singleton_self u)
      exact ⟨hv, h1.1, h1.2⟩

theorem zhangExpand_measure {α : Type} [BEq α] (G : Graph α) (b : List α) (l : List α) :
    queueMeasure (zhangExpand G b l) + 1 ≤ 2 ^ l.length := by
  induction l generalizing b with
  | nil => simp [zhangExpand, queueMeasure]
  | cons u rest ih =>
      have hfl : (rest.filter (inNbrs G u)).length ≤ rest.length :=
        List.length_filter_le _ _
      have h1 : (2 : Nat) ^ (rest.filter (inNbrs G u)).length ≤ 2 ^ rest.length :=
        Nat.pow_le_pow_right (by norm_num) hfl
      have h2 := ih b
      have h3 : (2 : Nat) ^ (rest.length + 1) = 2 ^ rest.length * 2 :=
        pow_succ 2 rest.length
      simp only [zhangExpand, queueMeasure, List.map_cons, List.sum_cons,
        List.length_cons] at *
      omega

theorem queueMeasure_step {α : Type} [BEq α] (G : Graph α)
    (base cnbrs : List α) (rest : List (List α × List α)) :
    queueMeasure (rest ++ zhangExpand G base cnbrs) <
      queueMeasure ((base, cnbrs) :: rest) := by
  have hk := zhangExpand_measure G base cnbrs
  simp only [queueMeasure, List.map_append, List.sum_append, List.map_cons,
    List.sum_cons] at *
  omega

theorem zhangRun_sound {α : Type} [BEq α] [LawfulBEq α] (G : Graph α) :
    ∀ (n : Nat) (q : List (List α × List α)), queueMeasure q ≤ n →
      (∀ e ∈ q, ZEntryInv G e) →
      ∀ c ∈ zhangRun G n q, c ≠ [] ∧ AscList G c ∧ isCliqueb G c = true := by
  intro n
  induction n with
  | zero =>
      intro q hm hq c hc
      cases q with
      | nil => simp [zhangRun] at hc
      | cons e rest => simp [zhangRun] at hc
  | succ m ih =>
      intro q hm hq c hc
      cases q with
      | nil => simp [zhangRun] at hc
      | cons e rest =>
          obtain ⟨base, cnbrs⟩ := e
          have hlt := queueMeasure_step G base cnbrs rest
          simp only [zhangRun, List.mem_cons] at hc
          rcases hc with rfl | hc
          · have h0 := hq (c, cnbrs) (List.mem_cons_self _ _)
            exact ⟨h0.1, h0.2.1, h0.2.2.1⟩
          · refine ih (rest ++ zhangExpand G base cnbrs) (by omega) ?_ c hc
            intro e' he'
            rcases List.mem_append.mp he' with h | h
            · exact hq e' (List.mem_cons_of_mem _ h)
            · exact ZEntryInv_expand G base cnbrs (hq _ (List.mem_cons_self _ _)) e' h

theorem zhangRun_yields {α : Type} [BEq α] (G : Graph α) :
    ∀ (n : Nat) (q : List (List α × List α)), queueMeasure q ≤ n →
      ∀ e ∈ q, e.1 ∈ zhangRun G n q := by
  intro n
  induction n with
  | zero =>
      intro q hm e he
      cases q with
      | nil => simp at he
      | cons e2 rest =>
          exfalso
          have : 1 ≤ 2 ^ e2.2.length := Nat.one_le_two_pow
          simp only [queueMeasure, List.map_cons, List.sum_cons] at hm
          omega
  | succ m ih =>
      intro q hm e he
      cases q with
      | nil => simp at he
      | cons e2 rest =>
          obtain ⟨base, cnbrs⟩ := e2
          simp only [zhangRun, List.mem_cons]
          rcases List.mem_cons.mp he with rfl | hin
          · exact Or.inl rfl
          · have hlt := queueMeasure_step G base cnbrs rest
            exact Or.inr (ih (rest ++ zhangExpand G base cnbrs) (by omega) e
              (List.mem_append.mpr (Or.inl hin)))

theorem zhangRun_complete {α : Type} [BEq α] [LawfulBEq α] (G : Graph α) :
    ∀ (n : Nat) (q : List (List α × List α)), queueMeasure q ≤ n →
      (∀ e ∈ q, ZEntryInv G e) →
      ∀ base cnbrs, (base, cnbrs) ∈ q →
      ∀ S, (∀ v ∈ S, v ∈ cnbrs) → AscList G S →
        (∀ u ∈ S, ∀ v ∈ S, u = v ∨ G.adjb u v = true) →
        base ++ S ∈ zhangRun G n q := by
  intro n
  induction n with
  | zero =>
      intro q hm hq base cnbrs he
      cases q with
      | nil => simp at he
      | cons e2 rest =>
          exfalso
          have : 1 ≤ 2 ^ e2.2.length := Nat.one_le_two_pow
          simp only [queueMeasure, List.map_cons, List.sum_cons] at hm
          omega
  | succ m ih =>
      intro q hm hq base cnbrs he S hsub hasc hclq
      cases q with
      | nil => simp at he
      | cons e2 rest =>
          obtain ⟨b0, c0⟩ := e2
          have hlt := queueMeasure_step G b0 c0 rest
          have hq' : ∀ e ∈ rest ++ zhangExpand G b0 c0, ZEntryInv G e := by
            intro e' he'
            rcases List.mem_append.mp he' with h | h
            · exact hq e' (List.mem_cons_of_mem _ h)
            · exact ZEntryInv_expand G b0 c0 (hq _ (List.mem_cons_self _ _)) e' h
          simp only [zhangRun, List.mem_cons]
          rcases List.mem_cons.mp he with hhead | hin
          · -- our entry is the popped head
            obtain ⟨rfl, rfl⟩ := Prod.mk.injEq .. ▸ And.intro (congrArg Prod.fst hhead) (congrArg Prod.snd hhead)
            cases S with
            | nil => left; simp
            | cons u S2 =>
                right
                have hu_c : u ∈ cnbrs := hsub u (List.mem_cons_self _ _)
                obtain ⟨pre, post, hsplit⟩ := List.append_of_mem hu_c
                have hchild : (base ++ [u], post.filter (inNbrs G u)) ∈
                    zhangExpand G base cnbrs := by
                  rw [zhangExpand_mem]
                  exact ⟨pre, u, post, hsplit, rfl⟩
                have hchild_inv : ZEntryInv G (base ++ [u], post.filter (inNbrs G u)) :=
                  ZEntryInv_expand G base cnbrs (hq _ (List.mem_cons_self _ _)) _ hchild
                have hasc2 := List.pairwise_cons.mp hasc
                have hS2 : ∀ v ∈ S2, v ∈ post.filter (inNbrs G u) := by
                  intro v hv
                  refine (hchild_inv.2.2.2.2 v).mpr ?_
                  have hv_c : v ∈ cnbrs := hsub v (List.mem_cons_of_mem _ hv)
                  have hv_cand : ZCand G base v :=
                    ((hq _ (List.mem_cons_self _ _)).2.2.2.2 v).mp hv_c
                  refine ⟨hv_cand.1, ?_⟩
                  intro w hw
                  rcases List.mem_append.mp hw with hw' | hw'
                  · exact hv_cand.2 w hw'
                  · simp only [List.mem_singleton] at hw'; subst hw'
                    have hidx : nodeIdx G w < nodeIdx G v := hasc2.1 v hv
                    have hadj : G.adjb w v = true := by
                      rcases hclq w (List.mem_cons_self _ _) v (List.mem_cons_of_mem _ hv)
                        with heq | hadj
                      · exfalso; subst heq; simp only [idxLt] at hidx; omega
                      · exact hadj
                    exact ⟨hadj, hidx⟩
                have := ih (rest ++ zhangExpand G base cnbrs) (by omega) hq'
                  (base ++ [u]) (post.filter (inNbrs G u))
                  (List.mem_append.mpr (Or.inr hchild)) S2 hS2 hasc2.2
                  (fun a ha b hb => hclq a (List.mem_cons_of_mem _ ha) b
                    (List.mem_cons_of_mem _ hb))
                simpa using this
          · right
            exact ih (rest ++ zhangExpand G b0 c0) (by omega) hq' base cnbrs
              (List.mem_append.mpr (Or.inl hin)) S hsub hasc hclq

theorem enumerate_all_cliques_iff {α : Type} [BEq α] [LawfulBEq α] (G : Graph α)
    (hnodup : G.nodes.Nodup) (c : List α) :
    c ∈ enumerate_all_cliques G ↔ (c ≠ [] ∧ AscList G c ∧ isCliqueb G c = true) := by
  have hq0 : ∀ e ∈ G.nodes.map (fun u => ([u], laterNbrs G u)), ZEntryInv G e := by
    intro e he
    obtain ⟨u, hu, rfl⟩ := List.mem_map.mp he
    exact ZEntryInv_init G hnodup u hu
  constructor
  · intro hc
    exact zhangRun_sound G (queueMeasure _) _ le_rfl hq0 c hc
  · rintro ⟨hne, hasc, hclq⟩
    cases c with
    | nil => exact absurd rfl hne
    | cons u S =>
        have hciff := isCliqueb_iff G (u :: S)
        have hu : u ∈ G.nodes := (hciff.mp hclq).1 u (List.mem_cons_self _ _)
        have hentry : ([u], laterNbrs G u) ∈ G.nodes.map (fun w => ([w], laterNbrs G w)) :=
          List.mem_map_of_mem _ hu
        have hasc2 := List.pairwise_cons.mp hasc
        have hsub : ∀ v ∈ S, v ∈ laterNbrs G u := by
          intro v hv
          rw [laterNbrs, List.mem_filter]
          have hvnode : v ∈ G.nodes :=
            (hciff.mp hclq).1 v (List.mem_cons_of_mem _ hv)
          have hidx : nodeIdx G u < nodeIdx G v := hasc2.1 v hv
          have hadj : G.adjb u v = true := by
            rcases (hciff.mp hclq).2 u (List.mem_cons_self _ _) v
              (List.mem_cons_of_mem _ hv) with heq | h
            · exfalso; subst heq; omega
            · exact h
          refine ⟨hvnode, ?_⟩
          simp [hadj, hidx]
        have hout := zhangRun_complete G (queueMeasure _) _ le_rfl hq0 [u]
          (laterNbrs G u) hentry S hsub hasc2.2
          (fun a ha b hb => (hciff.mp hclq).2 a (List.mem_cons_of_mem _ ha) b
            (List.mem_cons_of_mem _ hb))
        simpa [enumerate_all_cliques] using hout

theorem find_cliques_recursive_iff {α : Type} [BEq α] (G : Graph α) (c : List α) :
    c ∈ find_cliques_recursive G ↔
      (c.Sublist G.nodes ∧ c ≠ [] ∧ isMaximalCliqueb G c = true) := by
  simp [find_cliques_recursive, List.mem_filter, List.mem_sublists, and_assoc]

/-- C2 (amended): for every duplicate-free graph, the exact recursive
algorithm (modelled from the spec, `networkx.find_cliques_recursive` not being
repository code) returns exactly the maximal cliques, while the fallback
`enumerate_all_cliques` used above 200 nodes returns every clique of the graph
(in ascending node order): its output contains the whole output of the exact
algorithm but also every non-maximal clique, in particular one singleton per
node.  The two outputs therefore agree as sets only on edgeless graphs, not on
every graph. -/
theorem cliques_exact_vs_fallback {α : Type} [BEq α] [LawfulBEq α] (G : Graph α)
    (hnodup : G.nodes.Nodup) :
    (∀ c, c ∈ find_cliques_recursive G ↔
        (c.Sublist G.nodes ∧ c ≠ [] ∧ isMaximalCliqueb G c = true)) ∧
    (∀ c, c ∈ enumerate_all_cliques G ↔
        (c ≠ [] ∧ AscList G c ∧ isCliqueb G c = true)) ∧
    (∀ c ∈ find_cliques_recursive G, c ∈ enumerate_all_cliques G) ∧
    (∀ u ∈ G.nodes, [u] ∈ enumerate_all_cliques G) := by
  refine ⟨fun c => find_cliques_recursive_iff G c,
          fun c => enumerate_all_cliques_iff G hnodup c, ?_, ?_⟩
  · intro c hc
    rw [find_cliques_recursive_iff] at hc
    obtain ⟨hsub, hne, hmax⟩ := hc
    rw [enumerate_all_cliques_iff G hnodup]
    refine ⟨hne, List.Pairwise.sublist hsub (nodes_ascList G hnodup), ?_⟩
    rw [isMaximalCliqueb, Bool.and_eq_true] at hmax
    exact hmax.1
  · intro u hu
    rw [enumerate_all_cliques_iff G hnodup]
    refine ⟨by simp, List.pairwise_singleton _ _, ?_⟩
    rw [isCliqueb_iff]
    refine ⟨fun x hx => ?_, fun x hx y hy => ?_⟩
    · simp only [List.mem_singleton] at hx; subst hx; exact hu
    · simp only [List.mem_singleton] at hx hy; subst hx; subst hy; exact Or.inl rfl

/-- C2 counterexample: on the two-node single-edge graph the exact algorithm
returns only the maximal clique `{0,1}` while the fallback also yields the
non-maximal singleton `{0}`; the two clique sets differ, and the fallback's
output is not restricted to maximal cliques. -/
theorem cliques_fallback_differs :
    [0] ∈ enumerate_all_cliques twoNodeGraph ∧
    isMaximalCliqueb twoNodeGraph [0] = false ∧
    (∀ c ∈ find_cliques_recursive twoNodeGraph, beqSet c [0] = false) := by
  decide

/-- C2 witness: the amended theorem instantiated on the concrete 5-node
sample graph. -/
theorem cliques_exact_vs_fallback_witness :
    (∀ c ∈ find_cliques_recursive sampleGraph, c ∈ enumerate_all_cliques sampleGraph) ∧
    (∀ u ∈ sampleGraph.nodes, [u] ∈ enumerate_all_cliques sampleGraph) :=
  ⟨(cliques_exact_vs_fallback sampleGraph (by decide)).2.2.1,
   (cliques_exact_vs_fallback sampleGraph (by decide)).2.2.2⟩

open Transcript in
set_option maxRecDepth 8000 in
/-- C4 counterexample: on a transcript with two disjoint-CDS ORFs, no BLAST
hits at all, and BLAST checking enabled under STRINGENT leniency, the two
adjacent evidence-free CDS boundaries are merged into a single boundary group
(so no split happens and a single transcript is returned), while the claim
demands that they be split into separate groups. -/
theorem stringent_merges_without_evidence :
    monoTranscript.blast_hits = [] ∧
    ((load_orfs monoTranscript 0 [orfOne, orfTwo]).bind
      (fun t => split_by_cds (some stringentConf) t)).map
        (fun cs => cs.length) = Except.ok 1 ∧
    (load_orfs monoTranscript 0 [orfOne, orfTwo]).map
      (fun t => t.loaded_bed12.length) = Except.ok 2 := by
  refine ⟨rfl, ?_, ?_⟩ <;> rfl

open Transcript in
/-- C4 (amended): under the STRINGENT leniency policy, two adjacent CDS
boundaries are split into separate groups only when both have hit evidence
and they share no target; in every other situation — including the case where
both adjacent CDSs lack any hit evidence, or only one of them has evidence —
they are merged into the same boundary group. -/
theorem groupStep_stringent (hitOf : Int × Int → List Nat)
    (nb : List (List (Int × Int))) (last : List (Int × Int)) (b : Int × Int)
    (h : nb.getLast? = some last) :
    groupStep Leniency.stringent hitOf nb b =
      (if hitOf b ≠ [] ∧ hitOf (last.getLastD b) ≠ [] ∧
          ∀ x ∈ hitOf b, x ∉ hitOf (last.getLastD b)
       then nb ++ [[b]]
       else nb.dropLast ++ [last ++ [b]]) := by
  unfold Transcript.groupStep
  rw [h]
  simp only []
  generalize last.getLastD b = old
  generalize hitOf b = B
  generalize hitOf old = O
  by_cases h1 : B = []
  · subst h1
    simp [List.isEmpty_iff]
  · by_cases h2 : O = []
    · subst h2
      simp [List.isEmpty_iff, h1]
    · by_cases h3 : ∀ x ∈ B, x ∉ O
      · have hall : B.all (fun x => !O.contains x) = true := by
          rw [List.all_eq_true]
          intro x hx
          simpa [List.elem_iff] using h3 x hx
        simp [List.isEmpty_iff, h1, h2, hall, h3]
      · have hall : B.all (fun x => !O.contains x) = false := by
          cases hB : B.all (fun x => !O.contains x)
          · rfl
          · exfalso
            apply h3
            intro x hx
            have h4 := List.all_eq_true.mp hB x hx
            simpa [List.elem_iff] using h4
        simp [List.isEmpty_iff, h1, h2, hall, h3]

/-- C4 witness: the amended characterisation applied to a concrete state with
two evidence-free boundaries: the step merges them into one group. -/
theorem groupStep_stringent_witness :
    ([[((10 : Int), (50 : Int))]] : List (List (Int × Int))).getLast? =
      some [((10 : Int), (50 : Int))] ∧
    Transcript.groupStep Leniency.stringent (fun _ => []) [[((10 : Int), (50 : Int))]]
        ((60 : Int), (90 : Int)) = [[(10, 50), (60, 90)]] := by
  refine ⟨rfl, ?_⟩
  rw [groupStep_stringent (fun _ => []) [[((10 : Int), (50 : Int))]]
      [((10 : Int), (50 : Int))] ((60 : Int), (90 : Int)) rfl]
  simp

theorem pySorted_desc_head {α : Type} (f : α → Int) (l : List α) (h : α) (rest : List α)
    (hs : pySorted (fun a b => decide (f b < f a)) l = h :: rest) :
    h ∈ l ∧ ∀ x ∈ l, f x ≤ f h := by
  induction l generalizing h rest with
  | nil => simp [pySorted] at hs
  | cons x xs ih =>
      simp only [pySorted] at hs
      cases hxs : pySorted (fun a b => decide (f b < f a)) xs with
      | nil =>
          rw [hxs] at hs
          simp only [pyInsert, List.cons.injEq] at hs
          obtain ⟨rfl, _⟩ := hs
          have hempty : xs = [] := by
            have hperm := pySorted_perm (fun a b => decide (f b < f a)) xs
            rw [hxs] at hperm
            exact (List.Perm.nil_eq hperm).symm
          subst hempty
          refine ⟨List.mem_singleton_self _, ?_⟩
          intro y hy
          simp only [List.mem_singleton] at hy
          subst hy
          exact le_refl _
      | cons h2 rest2 =>
          rw [hxs] at hs
          obtain ⟨hmem2, hmax2⟩ := ih h2 rest2 hxs
          simp only [pyInsert] at hs
          by_cases hcmp : (decide (f x < f h2) : Bool) = true
          · rw [if_pos hcmp] at hs
            simp only [List.cons.injEq] at hs
            obtain ⟨rfl, _⟩ := hs
            refine ⟨List.mem_cons_of_mem _ hmem2, ?_⟩
            intro y hy
            rcases List.mem_cons.mp hy with rfl | hy2
            · exact le_of_lt (of_decide_eq_true hcmp)
            · exact hmax2 y hy2
          · rw [if_neg hcmp] at hs
            simp only [List.cons.injEq] at hs
            obtain ⟨rfl, _⟩ := hs
            have hge : f h2 ≤ f x := by
              by_contra hlt
              exact hcmp (decide_eq_true (by omega))
            refine ⟨List.mem_cons_self _ _, ?_⟩
            intro y hy
            rcases List.mem_cons.mp hy with rfl | hy2
            · exact le_refl _
            · exact le_trans (hmax2 y hy2) hge

theorem cliqueRep_spec (cl : List BED12) (rep : BED12)
    (h : Transcript.cliqueRep cl = Except.ok rep) :
    rep ∈ cl ∧ ∀ x ∈ cl, x.cds_len ≤ rep.cds_len := by
  unfold Transcript.cliqueRep at h
  cases hs : pySorted (fun a b : BED12 => decide (b.cds_len < a.cds_len)) cl with
  | nil => rw [hs] at h; exact absurd h (by simp)
  | cons y ys =>
      rw [hs] at h
      simp only [Except.ok.injEq] at h
      subst h
      exact pySorted_desc_head (fun o => o.cds_len) cl y ys hs

theorem pyMapM_ok_forall2 {α β : Type} (f : α → Except PyErr β)
    (P : β → α → Prop) (hf : ∀ a b, f a = Except.ok b → P b a) :
    ∀ (l : List α) (l' : List β), pyMapM f l = Except.ok l' → List.Forall₂ P l' l := by
  intro l
  induction l with
  | nil =>
      intro l' h
      simp only [pyMapM, Except.ok.injEq] at h
      subst h
      exact List.Forall₂.nil
  | cons a as ih =>
      intro l' h
      simp only [pyMapM] at h
      cases hfa : f a with
      | error e => rw [hfa] at h; simp [Bind.bind, Except.bind] at h
      | ok b =>
          rw [hfa] at h
          cases hrest : pyMapM f as with
          | error e =>
              rw [hrest] at h
              simp [Bind.bind, Except.bind] at h
          | ok bs =>
              rw [hrest] at h
              simp only [Bind.bind, Except.bind, Except.ok.injEq] at h
              subst h
              exact List.Forall₂.cons (hf a b hfa) (ih bs hrest)

open Transcript in
/-- C6 (amended): in `load_orfs`, each overlap cluster contributes exactly its
representative — a member of the cluster whose CDS length is maximal in it —
and the survivor filter always retains the representative of the
first-enumerated cluster regardless of the minimal secondary ORF length,
while every later representative is retained only when its CDS length exceeds
that threshold (and it is valid).  When the first-enumerated cluster's
representative is not the overall longest, the longest can therefore be
discarded by the threshold. -/
theorem load_orfs_cluster_longest (msec : Int) (cands : List BED12)
    (cliques : List (List BED12)) (new_orfs : List BED12)
    (h1 : Transcript.find_overlapping_cds cands = Except.ok cliques)
    (h2 : pyMapM Transcript.cliqueRep cliques = Except.ok new_orfs) :
    List.Forall₂ (fun (rep : BED12) (cl : List BED12) =>
      rep ∈ cl ∧ ∀ x ∈ cl, x.cds_len ≤ rep.cds_len) new_orfs cliques ∧
    ∀ o0 orest, new_orfs = o0 :: orest →
      Transcript.survivorFilter msec new_orfs =
        o0 :: (orest.filter (fun x => msec < x.cds_len)).filter
          (fun orf => !orf.invalid) := by
  constructor
  · exact pyMapM_ok_forall2 Transcript.cliqueRep _ cliqueRep_spec cliques new_orfs h2
  · intro o0 orest hno
    subst hno
    rfl

open Transcript in
set_option maxRecDepth 8000 in
/-- C6 counterexample: with candidate list `[orfTwo, orfOne]` (the shorter ORF
first) and minimal secondary ORF length 50, `load_orfs` keeps only `orfTwo`
(CDS length 31, exempt from the threshold as the first cluster's
representative) and discards `orfOne` (CDS length 41, the longest survivor),
refuting "the longest one is never discarded, whatever the threshold". -/
theorem load_orfs_drops_longest :
    orfTwo.cds_len < orfOne.cds_len ∧
    (load_orfs monoTranscript 50 [orfTwo, orfOne]).map
      (fun t => t.loaded_bed12.map (fun o : BED12 => o.name)) =
      Except.ok [orfTwo.name] := by
  exact ⟨by decide, by rfl⟩

open Transcript in
/-- C6 witness: the amended theorem instantiated on the concrete two-ORF
candidate list. -/
theorem load_orfs_cluster_longest_witness :
    (Transcript.find_overlapping_cds [orfTwo, orfOne] =
      Except.ok [[orfTwo], [orfOne]]) ∧
    (pyMapM Transcript.cliqueRep [[orfTwo], [orfOne]] = Except.ok [orfTwo, orfOne]) ∧
    (List.Forall₂ (fun (rep : BED12) (cl : List BED12) =>
        rep ∈ cl ∧ ∀ x ∈ cl, x.cds_len ≤ rep.cds_len) [orfTwo, orfOne]
        [[orfTwo], [orfOne]] ∧
     ∀ o0 orest, ([orfTwo, orfOne] : List BED12) = o0 :: orest →
      Transcript.survivorFilter 50 [orfTwo, orfOne] =
        o0 :: (orest.filter (fun x => (50 : Int) < x.cds_len)).filter
          (fun orf => !orf.invalid)) :=
  ⟨rfl, rfl, load_orfs_cluster_longest 50 [orfTwo, orfOne] [[orfTwo], [orfOne]]
    [orfTwo, orfOne] rfl rfl⟩


/-- Inversion for a successful `Except` bind. -/
theorem bind_ok {ε α β : Type} {e : Except ε α} {k : α → Except ε β} {b : β}
    (h : e >>= k = Except.ok b) : ∃ a, e = Except.ok a ∧ k a = Except.ok b := by
  cases e with
  | error err => simp [Bind.bind, Except.bind] at h
  | ok a => exact ⟨a, rfl, by simpa [Bind.bind, Except.bind] using h⟩

/-- Inversion for a successful conditional `Except` value. -/
theorem ite_ok {ε α : Type} {c : Prop} [Decidable c] {a b : Except ε α} {r : α}
    (h : (if c then a else b) = Except.ok r) :
    (c ∧ a = Except.ok r) ∨ (¬c ∧ b = Except.ok r) := by
  by_cases hc : c
  · exact Or.inl ⟨hc, by simpa [hc] using h⟩
  · exact Or.inr ⟨hc, by simpa [hc] using h⟩

/-- `pure` on `Except` is `Except.ok`. -/
theorem pure_eq_ok {ε α : Type} (x : α) : (pure x : Except ε α) = Except.ok x := rfl

/-- Setting a key absent from an association dict appends the binding. -/
theorem dictSetBy_fresh {x y : Type} (eqb : x → x → Bool) (d : List (x × y))
    (k : x) (v : y) (h : dictHasBy eqb d k = false) :
    dictSetBy eqb d k v = d ++ [(k, v)] := by
  unfold dictSetBy
  unfold dictHasBy at h
  rw [h]
  simp

/-- `boundaryFix` never changes the declared bounds or the id. -/
theorem boundaryFix_ok_bounds (t t' : Transcript)
    (h : Transcript.boundaryFix t = Except.ok t') :
    t'.start = t.start ∧ t'.end_ = t.end_ ∧ t'.id = t.id := by
  unfold Transcript.boundaryFix at h
  cases hex : t.exons with
  | nil => rw [hex] at h; exact Except.noConfusion h
  | cons e0 erest =>
      rw [hex] at h
      dsimp only at h
      simp only [Bind.bind, Except.bind, pure_eq_ok] at h
      repeat' (first | split at h | dsimp only at h)
      all_goals try exact Except.noConfusion h
      all_goals
        (injection h with h2
         subst h2
         exact ⟨rfl, rfl, rfl⟩)

/-- `finalize` never changes the declared bounds or the id. -/
theorem finalize_ok_bounds (t t' : Transcript)
    (h : Transcript.finalize t = Except.ok t') :
    t'.start = t.start ∧ t'.end_ = t.end_ ∧ t'.id = t.id := by
  unfold Transcript.finalize at h
  rcases ite_ok h with ⟨_, h⟩ | ⟨_, h⟩
  · injection h with h2
    subst h2
    exact ⟨rfl, rfl, rfl⟩
  · simp only [Bind.bind, Except.bind, pure_eq_ok] at h
    repeat' (first | split at h | dsimp only at h)
    all_goals try exact Except.noConfusion h
    all_goals
      (injection h with h2
       subst h2
       have hb := boundaryFix_ok_bounds _ _ (by assumption)
       exact ⟨hb.1, hb.2.1, hb.2.2⟩)

/-- Appending a fresh transcript to the dict moves the bound trackers from
`lstart`/`lend` to `min lstart t.start`/`max lend t.end`. -/
theorem bounds_after_add (d : List (String × Transcript)) (lstart lend : Int)
    (t1 : Transcript)
    (hfresh : dictHasBy (fun a b : String => a == b) d t1.id = false)
    (hstart : ∀ s ss, d.map (fun p => p.2.start) = s :: ss →
      lstart = ss.foldl min s)
    (hend : ∀ e es, d.map (fun p => p.2.end_) = e :: es →
      lend = es.foldl max e)
    (hempty : d = [] → lstart = maxsize ∧ lend = -maxsize)
    (hc1 : t1.start ≤ maxsize) (hc2 : -maxsize ≤ t1.end_) :
    (∀ s ss, (dictSetBy (fun a b : String => a == b) d t1.id t1).map
        (fun p => p.2.start) = s :: ss → min lstart t1.start = ss.foldl min s) ∧
    (∀ e es, (dictSetBy (fun a b : String => a == b) d t1.id t1).map
        (fun p => p.2.end_) = e :: es → max lend t1.end_ = es.foldl max e) ∧
    (dictSetBy (fun a b : String => a == b) d t1.id t1 = [] →
      min lstart t1.start = maxsize ∧ max lend t1.end_ = -maxsize) := by
  rw [dictSetBy_fresh _ _ _ _ hfresh]
  cases d with
  | nil =>
      obtain ⟨h1, h2⟩ := hempty rfl
      subst h1
      subst h2
      refine ⟨?_, ?_, ?_⟩
      · intro s ss hmap
        simp only [List.nil_append, List.map_cons, List.map_nil] at hmap
        injection hmap with ha hb
        subst ha
        subst hb
        simp only [List.foldl_nil]
        omega
      · intro e es hmap
        simp only [List.nil_append, List.map_cons, List.map_nil] at hmap
        injection hmap with ha hb
        subst ha
        subst hb
        simp only [List.foldl_nil]
        omega
      · intro hemp
        simp at hemp
  | cons p ds =>
      refine ⟨?_, ?_, ?_⟩
      · intro s ss hmap
        simp only [List.map_append, List.map_cons, List.map_nil,
          List.cons_append] at hmap
        injection hmap with ha hb
        subst ha
        subst hb
        rw [List.foldl_append]
        simp only [List.foldl_cons, List.foldl_nil]
        rw [← hstart p.2.start (ds.map (fun p => p.2.start)) (by simp)]
      · intro e es hmap
        simp only [List.map_append, List.map_cons, List.map_nil,
          List.cons_append] at hmap
        injection hmap with ha hb
        subst ha
        subst hb
        rw [List.foldl_append]
        simp only [List.foldl_cons, List.foldl_nil]
        rw [← hend p.2.end_ (ds.map (fun p => p.2.end_)) (by simp)]
      · intro hemp
        simp at hemp

/-- One `add_transcript_to_locus` step preserves the boundary invariant when
the transcript id is fresh and its coordinates are below the sentinels. -/
theorem add_bounds (l l' : Locus) (t : Transcript) (ck : Bool)
    (h : add_transcript_to_locus l t ck = Except.ok l')
    (hinv : LocusBounds l)
    (hfresh : dictHasBy (fun a b : String => a == b) l.transcripts t.id = false)
    (hc1 : t.start ≤ maxsize) (hc2 : -maxsize ≤ t.end_) :
    LocusBounds l' := by
  unfold add_transcript_to_locus at h
  obtain ⟨t1, hf, h⟩ := bind_ok h
  obtain ⟨hs, he, hid⟩ := finalize_ok_bounds _ _ hf
  have hfr : dictHasBy (fun a b : String => a == b) l.transcripts t1.id = false := by
    rw [hid]; exact hfresh
  have hc1a : t1.start ≤ maxsize := by rw [hs]; exact hc1
  have hc2a : -maxsize ≤ t1.end_ := by rw [he]; exact hc2
  simp only [Bind.bind, Except.bind, pure_eq_ok] at h
  repeat' (first | split at h | dsimp only at h)
  all_goals try exact Except.noConfusion h
  all_goals
    (injection h with h2
     subst h2
     exact bounds_after_add l.transcripts l.start l.end_ t1 hfr hinv.1
       hinv.2.1 hinv.2.2 hc1a hc2a)

/-- One `remove_transcript_from_locus` step preserves the boundary
invariant. -/
theorem remove_bounds (l l' : Locus) (tid : String)
    (h : remove_transcript_from_locus l tid = Except.ok l')
    (hinv : LocusBounds l) : LocusBounds l' := by
  unfold remove_transcript_from_locus at h
  rcases ite_ok h with ⟨_, h⟩ | ⟨_, h⟩
  · exact Except.noConfusion h
  rcases ite_ok h with ⟨_, h⟩ | ⟨_, h⟩
  · injection h with h2
    subst h2
    refine ⟨?_, ?_, ?_⟩
    · intro s ss hmap
      simp at hmap
    · intro e es hmap
      simp at hmap
    · intro _
      exact ⟨rfl, rfl⟩
  · simp only [Bind.bind, Except.bind, pure_eq_ok] at h
    cases hme : (l.transcripts.filter (fun p => !(p.1 == tid))).map
        (fun p => p.2.end_) with
    | nil =>
        rw [hme] at h
        exact Except.noConfusion h
    | cons e es =>
        rw [hme] at h
        dsimp only at h
        cases hms : (l.transcripts.filter (fun p => !(p.1 == tid))).map
            (fun p => p.2.start) with
        | nil =>
            rw [hms] at h
            exact Except.noConfusion h
        | cons s ss =>
            rw [hms] at h
            dsimp only at h
            cases hg : dictGetBy (fun a b : String => a == b) l.transcripts tid with
            | none =>
                rw [hg] at h
                exact Except.noConfusion h
            | some tr =>
                rw [hg] at h
                dsimp only at h
                injection h with h2
                subst h2
                refine ⟨?_, ?_, ?_⟩
                · intro s2 ss2 hmap
                  rw [hms] at hmap
                  injection hmap with ha hb
                  subst ha
                  subst hb
                  rfl
                · intro e2 es2 hmap
                  rw [hme] at hmap
                  injection hmap with ha hb
                  subst ha
                  subst hb
                  rfl
                · intro hemp
                  have hemp2 : l.transcripts.filter (fun p => !(p.1 == tid)) = [] := hemp
                  rw [hemp2] at hms
                  simp at hms

/-- The boundary invariant is preserved along any successful operation trace
whose adds use ids fresh at execution time and in-range coordinates. -/
theorem applyOps_bounds_aux :
    ∀ (ops : List LocusOp) (l0 l : Locus), LocusBounds l0 →
    (∀ (i : Nat) (hi : i < ops.length) (li : Locus) (t : Transcript) (ck : Bool),
      applyOps l0 (ops.take i) = Except.ok li →
      ops.get ⟨i, hi⟩ = LocusOp.add t ck →
      dictHasBy (fun a b : String => a == b) li.transcripts t.id = false ∧
      t.start ≤ maxsize ∧ -maxsize ≤ t.end_) →
    applyOps l0 ops = Except.ok l → LocusBounds l := by
  intro ops
  induction ops with
  | nil =>
      intro l0 l h0 _ h
      injection h with h2
      subst h2
      exact h0
  | cons op rest ih =>
      intro l0 l h0 hf h
      simp only [applyOps] at h
      obtain ⟨l1, h1, h⟩ := bind_ok h
      have hinv1 : LocusBounds l1 := by
        cases op with
        | add t ck =>
            obtain ⟨hfr, hc1, hc2⟩ := hf 0 (by simp) l0 t ck rfl rfl
            exact add_bounds l0 l1 t ck h1 h0 hfr hc1 hc2
        | remove tid =>
            exact remove_bounds l0 l1 tid h1 h0
      refine ih l1 l hinv1 ?_ h
      intro i hi li t ck htake hget
      refine hf (i + 1) (by simpa using hi) li t ck ?_ hget
      show applyOps l0 (op :: rest.take i) = Except.ok li
      simp only [applyOps]
      rw [h1]
      simp only [Bind.bind, Except.bind]
      exact htake

/-- C8 (amended): after any successful sequence of
`add_transcript_to_locus`/`remove_transcript_from_locus` operations in which
every add stores a transcript under an id not currently present (and with
genomic coordinates below the 64-bit sentinels), the locus start equals the
minimum of its transcripts' starts and the locus end the maximum of their
ends whenever at least one transcript remains.  Without the freshness
condition the invariant fails: an add that overwrites an existing id keeps
the old bounds (see the counterexample). -/
theorem locus_add_remove_bounds (ops : List LocusOp) (l : Locus)
    (hok : applyOps initialLocus ops = Except.ok l)
    (hfresh : ∀ (i : Nat) (hi : i < ops.length) (li : Locus) (t : Transcript)
      (ck : Bool),
      applyOps initialLocus (ops.take i) = Except.ok li →
      ops.get ⟨i, hi⟩ = LocusOp.add t ck →
      dictHasBy (fun a b : String => a == b) li.transcripts t.id = false ∧
      t.start ≤ maxsize ∧ -maxsize ≤ t.end_) :
    LocusBounds l := by
  refine applyOps_bounds_aux ops initialLocus l ?_ hfresh hok
  refine ⟨?_, ?_, ?_⟩
  · intro s ss hmap
    simp [initialLocus] at hmap
  · intro e es hmap
    simp [initialLocus] at hmap
  · intro _
    exact ⟨rfl, rfl⟩

set_option maxRecDepth 8000 in
/-- C8 counterexample: adding transcript "x" (1-10) and then another
transcript also named "x" (5-6) leaves the locus holding only the 5-6
transcript while its bounds remain 1-10, so `locus.start` differs from the
minimum (5) of the stored transcripts' starts and `locus.end` from their
maximum (6). -/
theorem locus_duplicate_add_breaks_bounds :
    (applyOps initialLocus [LocusOp.add locusT1 true,
        LocusOp.add locusT2 true]).map
      (fun l => (l.start, l.end_,
        l.transcripts.map (fun p => (p.2.start, p.2.end_)))) =
      Except.ok (1, 10, [(5, 6)]) := by
  rfl

set_option maxRecDepth 8000 in
/-- C8 witness: the amended theorem applied to the two-transcript fresh-id
trace adding "x" (1-10) and "y" (5-6). -/
theorem locus_add_remove_bounds_witness :
    (applyOps initialLocus [LocusOp.add locusT1 true, LocusOp.add locusT3 true] =
      Except.ok locusW) ∧ LocusBounds locusW := by
  refine ⟨rfl, ?_⟩
  refine locus_add_remove_bounds
    [LocusOp.add locusT1 true, LocusOp.add locusT3 true] locusW rfl ?_
  intro i hi li t ck htake hget
  rcases i with _ | i1
  · injection htake with h3
    subst h3
    injection hget with h4 h5
    subst h4
    exact ⟨rfl, by decide, by decide⟩
  rcases i1 with _ | i2
  · injection htake with h3
    subst h3
    injection hget with h4 h5
    subst h4
    exact ⟨by decide, by decide, by decide⟩
  · simp only [List.length_cons, List.length_nil] at hi
    omega

/-- Binding a ready value is application of the continuation. -/
theorem ok_bind {e a : Type} (x : a) {b : Type} (k : a → Except e b) :
    ((Except.ok x : Except e a) >>= k) = k x := rfl

/-- A non-empty list of well-formed intervals has positive summed length. -/
theorem sumLens_pos (l : List (Int × Int)) (hne : l ≠ [])
    (hwf : ∀ p ∈ l, p.1 ≤ p.2) : 0 < sumLens l := by
  cases l with
  | nil => exact absurd rfl hne
  | cons p ps =>
      have h1 : p.1 ≤ p.2 := hwf p (by simp)
      have h2 : 0 ≤ sumLens ps := by
        have hwf2 : ∀ r ∈ ps, r.1 ≤ r.2 := fun r hr => hwf r (by simp [hr])
        clear hne h1 hwf
        induction ps with
        | nil => simp [sumLens]
        | cons q qs ih =>
            have hq : q.1 ≤ q.2 := hwf2 q (by simp)
            have ihq : 0 ≤ sumLens qs := ih (fun r hr => hwf2 r (by simp [hr]))
            simp only [sumLens, List.map_cons, List.sum_cons] at ihq ⊢
            omega
      simp only [sumLens, List.map_cons, List.sum_cons] at h2 ⊢
      omega

/-- Soundness of the UTR-inference stage: on success with a non-empty
well-formed CDS, a missing UTR, and a CDS length bounded by the cDNA length,
the exon length equals the returned UTR plus CDS lengths, and the returned
CDS is non-empty with positive length. -/
theorem inferUtr_spec (exs cds : List (Int × Int))
    (cds1 utr1 : List (Int × Int))
    (h : Transcript.inferUtr exs cds [] = Except.ok (cds1, utr1))
    (hcds : cds ≠ []) (hwf : ∀ p ∈ cds, p.1 ≤ p.2)
    (hle : sumLens cds ≤ sumLens exs) :
    sumLens exs = sumLens utr1 + sumLens cds1 ∧ 0 < sumLens cds1 ∧ cds1 ≠ [] := by
  have hpos : 0 < sumLens cds := sumLens_pos cds hcds hwf
  unfold Transcript.inferUtr at h
  rcases ite_ok h with ⟨hgt, h⟩ | ⟨hngt, h⟩
  · rcases ite_ok h with ⟨_, h⟩ | ⟨hc, h⟩
    · cases hps : pySorted pairLt cds with
      | nil =>
          have hl := (pySorted_perm pairLt cds).length_eq
          rw [hps] at hl
          cases cds with
          | nil => exact absurd rfl hcds
          | cons c cs => simp at hl
      | cons c0 crest =>
          rw [hps] at h
          dsimp only at h
          obtain ⟨utr2, hfold, h⟩ := bind_ok h
          rcases ite_ok h with ⟨_, h⟩ | ⟨hchk, h⟩
          · exact Except.noConfusion h
          · injection h with h2
            injection h2 with ha hb
            subst ha
            subst hb
            have hsum : sumLens (c0 :: crest) = sumLens cds := by
              rw [← hps]
              exact sumLens_pySorted pairLt cds
            simp only [Bool.not_eq_true, Bool.not_eq_false',
              Bool.or_eq_true, Bool.and_eq_true, beq_iff_eq] at hchk
            rcases hchk with ⟨hz, _⟩ | heq
            · rw [hsum] at hz
              omega
            · refine ⟨by omega, by omega, ?_⟩
              intro hc3
              rw [hc3] at hsum
              have h0 : sumLens ([] : List (Int × Int)) = 0 := rfl
              omega
    · exfalso
      apply hc
      cases cds with
      | nil => exact absurd rfl hcds
      | cons c cs => simp
  · injection h with h2
    injection h2 with ha hb
    subst ha
    subst hb
    refine ⟨?_, hpos, hcds⟩
    have h0 : sumLens ([] : List (Int × Int)) = 0 := rfl
    omega

/-- `boundaryFix` never changes the CDS/UTR stores, the loaded BED12 list, or
the internal-ORF store. -/
theorem boundaryFix_ok_rest (t t' : Transcript)
    (h : Transcript.boundaryFix t = Except.ok t') :
    t'.combined_cds = t.combined_cds ∧ t'.combined_utr = t.combined_utr ∧
    t'.loaded_bed12 = t.loaded_bed12 ∧ t'.internal_orfs = t.internal_orfs := by
  unfold Transcript.boundaryFix at h
  cases hex : t.exons with
  | nil => rw [hex] at h; exact Except.noConfusion h
  | cons e0 erest =>
      rw [hex] at h
      dsimp only at h
      simp only [Bind.bind, Except.bind, pure_eq_ok] at h
      repeat' (first | split at h | dsimp only at h)
      all_goals try exact Except.noConfusion h
      all_goals
        (injection h with h2
         subst h2
         exact ⟨rfl, rfl, rfl, rfl⟩)

/-- `finalize` never changes the loaded BED12 list. -/
theorem finalize_ok_loaded (t t' : Transcript)
    (h : Transcript.finalize t = Except.ok t') :
    t'.loaded_bed12 = t.loaded_bed12 := by
  unfold Transcript.finalize at h
  rcases ite_ok h with ⟨_, h⟩ | ⟨_, h⟩
  · injection h with h2
    subst h2
    rfl
  · simp only [Bind.bind, Except.bind, pure_eq_ok] at h
    repeat' (first | split at h | dsimp only at h)
    all_goals try exact Except.noConfusion h
    all_goals
      (injection h with h2
       subst h2
       have hb := boundaryFix_ok_rest _ _ (by assumption)
       exact hb.2.2.1)

/-- A successful `finalize` either leaves the internal-ORF store untouched
(when the transcript was already finalized) or rebuilds it as the one-element
segment list. -/
theorem finalize_ok_orfcount (t t' : Transcript)
    (h : Transcript.finalize t = Except.ok t') :
    t'.internal_orfs = t.internal_orfs ∨ t'.internal_orfs.length = 1 := by
  unfold Transcript.finalize at h
  rcases ite_ok h with ⟨_, h⟩ | ⟨_, h⟩
  · injection h with h2
    subst h2
    exact Or.inl rfl
  · right
    simp only [Bind.bind, Except.bind, pure_eq_ok] at h
    repeat' (first | split at h | dsimp only at h)
    all_goals try exact Except.noConfusion h
    all_goals
      (injection h with h2
       subst h2
       have hb := boundaryFix_ok_rest _ _ (by assumption)
       rw [hb.2.2.2]
       rfl)


open Transcript in
/-- The internal-ORF consolidation and finalization tail of `load_orfs`
(lines 929-960), as a standalone fact: whenever it succeeds and the result
still carries at least two internal ORFs, the result came through the
multi-ORF branch, whose `assert` guarantees the cDNA length identity. -/
theorem load_orfs_tail_identity (t2 t' : Transcript)
    (horfs : 2 ≤ Transcript.number_internal_orfs t')
    (h : (do
      let t3 ←
        if t2.internal_orfs.length == 1 then
          match t2.internal_orfs with
          | [o] =>
              pure { t2 with
                combined_cds := pySorted pairLt
                  ((o.filter (fun s => s.kind == SegKind.cds)).map
                    (fun s => (s.start, s.end_))),
                combined_utr := pySorted pairLt
                  ((o.filter (fun s => s.kind == SegKind.utr)).map
                    (fun s => (s.start, s.end_))) }
          | _ => Except.error PyErr.indexError
        else if 1 < t2.internal_orfs.length then do
          let candidates := t2.internal_orfs.foldl (fun acc io =>
              acc ++ (io.filter (fun s => s.kind == SegKind.cds)).map
                (fun s => (s.start, s.end_))) []
          let comms ← Transcript.find_communities candidates
          let cds_spans ← pyMapM (fun mc =>
              match mc with
              | [] => Except.error PyErr.valueError
              | m0 :: _ => Except.ok
                  ((mc.map Prod.fst).foldl min m0.1, (mc.map Prod.snd).foldl max m0.2))
              comms
          let ccds := pySorted pairLt cds_spans
          let utr_pos := (coveredSorted t2.exons).filter (fun x => !coveredBy ccds x)
          let cutr := collapseRuns utr_pos none
          if cdna_length t2 == sumLens ccds + sumLens cutr then
            pure { t2 with combined_cds := ccds, combined_utr := cutr }
          else Except.error PyErr.assertionFailure
        else pure t2
      if t3.internal_orfs.isEmpty then Transcript.finalize t3
      else Except.ok { t3 with feature := "mRNA", finalized := true }) = Except.ok t') :
    Transcript.cdna_length t' =
      Transcript.combined_cds_length t' + Transcript.combined_utr_length t' := by
  rcases ite_ok h with ⟨hc1, h⟩ | ⟨hc1, h⟩
  · cases hio : t2.internal_orfs with
    | nil =>
        rw [hio] at h
        dsimp only at h
        obtain ⟨a, ha, _⟩ := bind_ok h
        exact Except.noConfusion ha
    | cons o1 orest =>
        cases orest with
        | nil =>
            rw [hio] at h
            dsimp only at h
            simp only [pure_eq_ok, ok_bind] at h
            rcases ite_ok h with ⟨hemp, h⟩ | ⟨_, h⟩
            · exfalso
              simp at hemp
            · exfalso
              injection h with h2
              subst h2
              have h3 : 2 ≤ ([o1] : List (List Segment)).length := horfs
              simp at h3
        | cons o2 orest2 =>
            rw [hio] at h
            dsimp only at h
            obtain ⟨a, ha, _⟩ := bind_ok h
            exact Except.noConfusion ha
  · rcases ite_ok h with ⟨hc2, h⟩ | ⟨hc2, h⟩
    · try dsimp only at h
      obtain ⟨comms, hcm, h⟩ := bind_ok h
      obtain ⟨spans, hsp, h⟩ := bind_ok h
      try dsimp only at h
      rcases ite_ok h with ⟨hchk, h⟩ | ⟨_, h⟩
      · simp only [pure_eq_ok, ok_bind] at h
        rcases ite_ok h with ⟨hemp, h⟩ | ⟨_, h⟩
        · exfalso
          have hemp2 : t2.internal_orfs.isEmpty = true := hemp
          cases hio2 : t2.internal_orfs with
          | nil =>
              rw [hio2] at hc2
              simp at hc2
          | cons a b =>
              rw [hio2] at hemp2
              simp at hemp2
        · injection h with h2
          subst h2
          exact eq_of_beq hchk
      · first
          | exact Except.noConfusion h
          | (obtain ⟨a, ha, _⟩ := bind_ok h
             exact Except.noConfusion ha)
    · simp only [pure_eq_ok, ok_bind] at h
      rcases ite_ok h with ⟨hemp, h⟩ | ⟨hnemp, h⟩
      · rcases finalize_ok_orfcount _ _ h with hsame | hone
        · exfalso
          have h3 : 2 ≤ t'.internal_orfs.length := horfs
          rw [hsame] at h3
          cases hio2 : t2.internal_orfs with
          | nil =>
              rw [hio2] at h3
              simp at h3
          | cons a b =>
              rw [hio2] at hemp
              simp at hemp
        · exfalso
          have h3 : 2 ≤ t'.internal_orfs.length := horfs
          omega
      · exfalso
        injection h with h2
        subst h2
        have h3 : 2 ≤ t2.internal_orfs.length := horfs
        omega

open Transcript in
/-- C1 (amended): the cDNA-length identity
`cdna_length = combined_cds_length + combined_utr_length` holds
(part 1) after a successful `finalize` of a not-yet-finalized transcript
whose CDS is present, well-formed and no longer than the cDNA, whose UTR was
NOT pre-supplied (the code infers it and enforces the identity, while a
pre-supplied UTR goes through the unchecked `pass` branch), and whose sorted
exons already meet the declared bounds; and (part 2) after a successful
`load_orfs` that actually loaded ORFs into a fresh transcript and left at
least two internal ORFs — the multi-ORF branch enforces the identity by a
fatal assert rather than accepting a violation. -/
theorem cdna_length_identity :
    (∀ (t t' : Transcript),
       t.finalized = false →
       t.combined_utr = [] →
       t.combined_cds ≠ [] →
       (∀ p ∈ t.combined_cds, p.1 ≤ p.2) →
       Transcript.combined_cds_length t ≤ Transcript.cdna_length t →
       (match pySorted pairLt t.exons with
        | [] => false
        | e0 :: erest =>
            e0.1 == t.start && ((e0 :: erest).getLastD e0).2 == t.end_) = true →
       Transcript.finalize t = Except.ok t' →
       Transcript.cdna_length t' =
         Transcript.combined_cds_length t' + Transcript.combined_utr_length t') ∧
    (∀ (t0 : Transcript) (m : Int) (orfs : List BED12) (t' : Transcript),
       t0.loaded_bed12 = [] →
       Transcript.load_orfs t0 m orfs = Except.ok t' →
       t'.loaded_bed12 ≠ [] →
       2 ≤ Transcript.number_internal_orfs t' →
       Transcript.cdna_length t' =
         Transcript.combined_cds_length t' + Transcript.combined_utr_length t') := by
  constructor
  · intro t t' hfin hutr hcds hwf hle hbound h
    unfold Transcript.finalize at h
    rw [hfin, if_neg (by simp)] at h
    rcases ite_ok h with ⟨_, h⟩ | ⟨_, h⟩
    · exact Except.noConfusion h
    rcases ite_ok h with ⟨_, h⟩ | ⟨_, h⟩
    · exact Except.noConfusion h
    rcases ite_ok h with ⟨_, h⟩ | ⟨_, h⟩
    · exact Except.noConfusion h
    obtain ⟨p1, hp1, h⟩ := bind_ok h
    obtain ⟨cds1, utr1⟩ := p1
    dsimp only at h
    rw [hutr] at hp1
    have hle2 : sumLens t.combined_cds ≤ sumLens (pySorted pairLt t.exons) := by
      rw [sumLens_pySorted]
      exact hle
    obtain ⟨hkey, hcpos, hcne⟩ := inferUtr_spec _ _ _ _ hp1 hcds hwf hle2
    obtain ⟨p2, hp2, h⟩ := bind_ok h
    obtain ⟨ins, sps⟩ := p2
    dsimp only at h
    obtain ⟨flags, hfl, h⟩ := bind_ok h
    rcases ite_ok h with ⟨hEmp, h⟩ | ⟨_, h⟩
    · exfalso
      cases hps2 : pySorted pairLt cds1 with
      | nil =>
          have hl := (pySorted_perm pairLt cds1).length_eq
          rw [hps2] at hl
          exact hcne (List.length_eq_zero.mp hl.symm)
      | cons a b =>
          have h5 : (pySorted pairLt cds1).isEmpty = true := hEmp
          rw [hps2] at h5
          simp at h5
    · have hpos2 : sumLens (pySorted pairLt cds1) > 0 := by
        rw [sumLens_pySorted]
        exact hcpos
      rw [if_pos hpos2] at h
      dsimp only at h
      rw [if_pos (by omega : (0 : Nat) < 1)] at h
      simp only [pure_eq_ok, ok_bind] at h
      obtain ⟨t2, hbf, h⟩ := bind_ok h
      cases hsort : pySorted pairLt t.exons with
      | nil =>
          rw [hsort] at hbound
          simp at hbound
      | cons e0 erest =>
          have hcnd : (e0.1 == t.start &&
              ((e0 :: erest).getLastD e0).2 == t.end_) = true := by
            rw [hsort] at hbound
            exact hbound
          rw [hsort] at hbf
          unfold Transcript.boundaryFix at hbf
          dsimp only at hbf
          rw [if_pos hcnd] at hbf
          injection hbf with hbf2
          subst hbf2
          injection h with h2
          subst h2
          show sumLens (e0 :: erest) =
            sumLens (pySorted pairLt cds1) + sumLens (pySorted pairLt utr1)
          rw [← hsort, sumLens_pySorted, sumLens_pySorted, sumLens_pySorted]
          rw [sumLens_pySorted] at hkey
          omega
  · intro t0 m orfs t' hload0 h hnl horfs
    unfold Transcript.load_orfs at h
    obtain ⟨ta, hfa, h⟩ := bind_ok h
    have hta : ta.loaded_bed12 = [] := by
      rw [finalize_ok_loaded _ _ hfa]
      exact hload0
    try dsimp only at h
    obtain ⟨cliques, hcl, h⟩ := bind_ok h
    try dsimp only at h
    obtain ⟨new_orfs, hno, h⟩ := bind_ok h
    try dsimp only at h
    rcases ite_ok h with ⟨_, h⟩ | ⟨_, h⟩
    · injection h with h2
      subst h2
      exact absurd hta hnl
    · rcases ite_ok h with ⟨_, h⟩ | ⟨_, h⟩
      · simp only [pure_eq_ok, ok_bind] at h
        exact load_orfs_tail_identity _ _ horfs h
      · cases hsf : Transcript.survivorFilter m new_orfs with
        | nil =>
            rw [hsf] at h
            dsimp only at h
            first
              | exact Except.noConfusion h
              | (obtain ⟨a, ha, _⟩ := bind_ok h
                 exact Except.noConfusion ha)
        | cons c0 cs =>
            rw [hsf] at h
            dsimp only at h
            simp only [pure_eq_ok, ok_bind] at h
            exact load_orfs_tail_identity _ _ horfs h

set_option maxRecDepth 8000 in
/-- C1 counterexample: two transcripts finalize successfully while violating
the length identity, one for each way the guarded inference-and-check block
(transcript.py lines 911-936, embedded as `inferUtr`) can be bypassed.  First,
a pre-supplied partial UTR (exon 1-100, CDS 10-20, UTR only 1-9) takes the
unchecked `else: pass` branch, yet `cdna_length` (100) differs from
`combined_cds_length + combined_utr_length` (11 + 9 = 20).  Second, a declared
CDS longer than the whole cDNA (exon 1-10, CDS 1-20, no UTR) fails the
`cdna_length > combined_utr_length + combined_cds_length` guard itself, so the
inference and its `InvalidCDS` check never run and finalize accepts
`cdna_length` 10 against 20 + 0.  Both refute the claim for all finalized
transcripts with a CDS. -/
theorem finalize_keeps_inconsistent_lengths :
    ((Transcript.finalize c1Bad).map (fun t' =>
      (t'.finalized, t'.combined_cds.isEmpty, Transcript.cdna_length t',
       Transcript.combined_cds_length t', Transcript.combined_utr_length t')) =
      Except.ok (true, false, 100, 11, 9)) ∧
    ((Transcript.finalize c1Bad2).map (fun t' =>
      (t'.finalized, t'.combined_cds.isEmpty, Transcript.cdna_length t',
       Transcript.combined_cds_length t', Transcript.combined_utr_length t')) =
      Except.ok (true, false, 10, 20, 0)) := by
  exact ⟨rfl, rfl⟩

set_option maxRecDepth 8000 in
set_option maxHeartbeats 1000000 in
/-- C1 witness: part 1 at the spec's concrete scenario transcript, part 2 at
the two-ORF monoexonic loading scenario. -/
theorem cdna_length_identity_witness :
    (Transcript.finalize scenarioTranscript = Except.ok c1FinW ∧
     Transcript.cdna_length c1FinW =
       Transcript.combined_cds_length c1FinW +
         Transcript.combined_utr_length c1FinW) ∧
    (Transcript.load_orfs monoTranscript 0 [orfOne, orfTwo] =
       Except.ok splitParent ∧
     Transcript.cdna_length splitParent =
       Transcript.combined_cds_length splitParent +
         Transcript.combined_utr_length splitParent) :=
  ⟨⟨rfl, cdna_length_identity.1 scenarioTranscript c1FinW rfl rfl (by decide)
      (by decide) (by decide) (by decide) rfl⟩,
   ⟨rfl, cdna_length_identity.2 monoTranscript 0 [orfOne, orfTwo] splitParent
      rfl rfl (by decide) (by decide)⟩⟩

theorem beqSet_mem {α : Type} [BEq α] [LawfulBEq α] {a b : List α}
    (h : beqSet a b = true) {x : α} : x ∈ a ↔ x ∈ b := by
  simp only [beqSet, Bool.and_eq_true, List.all_eq_true] at h
  constructor
  · intro hx
    have := h.1 x hx
    simpa [List.elem_iff] using this
  · intro hx
    have := h.2 x hx
    simpa [List.elem_iff] using this

theorem beqSet_refl {α : Type} [BEq α] [LawfulBEq α] (a : List α) :
    beqSet a a = true := by
  simp [beqSet, List.all_eq_true, List.elem_iff]

theorem beqSet_symm {α : Type} [BEq α] {a b : List α}
    (h : beqSet a b = true) : beqSet b a = true := by
  simp only [beqSet, Bool.and_eq_true] at h ⊢
  exact ⟨h.2, h.1⟩

theorem beqSet_trans {α : Type} [BEq α] [LawfulBEq α] {a b c : List α}
    (h1 : beqSet a b = true) (h2 : beqSet b c = true) : beqSet a c = true := by
  simp only [beqSet, Bool.and_eq_true, List.all_eq_true] at h1 h2 ⊢
  constructor
  · intro x hx
    have hb : x ∈ b := by simpa [List.elem_iff] using h1.1 x hx
    simpa [List.elem_iff] using h2.1 x hb
  · intro x hx
    have hb : x ∈ b := by simpa [List.elem_iff] using h2.2 x hx
    simpa [List.elem_iff] using h1.2 x hb

theorem mem_pyAddBy_of_mem {α : Type} (eqb : α → α → Bool) (l : List α)
    (x y : α) (h : y ∈ l) : y ∈ pyAddBy eqb l x := by
  unfold pyAddBy
  split
  · exact h
  · exact List.mem_append_left _ h

theorem mem_of_mem_pyAddBy {α : Type} (eqb : α → α → Bool) (l : List α)
    (x y : α) (h : y ∈ pyAddBy eqb l x) : y ∈ l ∨ y = x := by
  unfold pyAddBy at h
  split at h
  · exact Or.inl h
  · rcases List.mem_append.mp h with h2 | h2
    · exact Or.inl h2
    · exact Or.inr (by simpa using h2)

theorem pyAddBy_finds {α : Type} (eqb : α → α → Bool) (l : List α) (x : α)
    (hrefl : eqb x x = true) : ∃ y, y ∈ pyAddBy eqb l x ∧ eqb x y = true := by
  unfold pyAddBy
  split
  · rename_i hany
    obtain ⟨y, hy, hxy⟩ := List.any_eq_true.mp hany
    exact ⟨y, hy, hxy⟩
  · exact ⟨x, List.mem_append_right _ (by simp), hrefl⟩

theorem foldl_pyAddBy_acc_sub {α : Type} (eqb : α → α → Bool) :
    ∀ (l acc : List α) (y : α), y ∈ acc → y ∈ l.foldl (pyAddBy eqb) acc
  | [], _, _, h => h
  | x :: xs, acc, y, h =>
      foldl_pyAddBy_acc_sub eqb xs (pyAddBy eqb acc x) y
        (mem_pyAddBy_of_mem eqb acc x y h)

theorem mem_of_mem_foldl_pyAddBy {α : Type} (eqb : α → α → Bool) :
    ∀ (l acc : List α) (y : α), y ∈ l.foldl (pyAddBy eqb) acc →
      y ∈ acc ∨ y ∈ l := by
  intro l
  induction l with
  | nil => intro acc y h; exact Or.inl h
  | cons x xs ih =>
      intro acc y h
      rcases ih (pyAddBy eqb acc x) y h with h2 | h2
      · rcases mem_of_mem_pyAddBy eqb acc x y h2 with h3 | h3
        · exact Or.inl h3
        · exact Or.inr (by simp [h3])
      · exact Or.inr (List.mem_cons_of_mem _ h2)

theorem foldl_pyAddBy_finds {α : Type} (eqb : α → α → Bool)
    (hrefl : ∀ x, eqb x x = true) :
    ∀ (l acc : List α) (x : α), x ∈ l →
      ∃ y, y ∈ l.foldl (pyAddBy eqb) acc ∧ eqb x y = true := by
  intro l
  induction l with
  | nil => intro acc x h; exact absurd h (by simp)
  | cons z zs ih =>
      intro acc x h
      rcases List.mem_cons.mp h with rfl | h2
      · obtain ⟨y, hy, hxy⟩ := pyAddBy_finds eqb acc x (hrefl x)
        exact ⟨y, foldl_pyAddBy_acc_sub eqb zs _ y hy, hxy⟩
      · exact ih (pyAddBy eqb acc z) x h2

theorem reach_symm {α : Type} [BEq α] (G : Graph α) {u v : α}
    (h : Reach G u v) : Reach G v u := by
  induction h with
  | refl => exact Relation.ReflTransGen.refl
  | tail _ hstep ih =>
      rename_i b c
      refine Relation.ReflTransGen.trans ?_ ih
      refine Relation.ReflTransGen.single ?_
      rw [adjb_comm]
      exact hstep

theorem clique_reach {α : Type} [BEq α] [LawfulBEq α] (G : Graph α)
    {c : List α} (hc : isCliqueb G c = true) {u v : α}
    (hu : u ∈ c) (hv : v ∈ c) : Reach G u v := by
  rcases (isCliqueb_iff G c).mp hc |>.2 u hu v hv with rfl | hadj
  · exact Relation.ReflTransGen.refl
  · exact Relation.ReflTransGen.single hadj

theorem mem_dictSetBy {κ ν : Type} (eqb : κ → κ → Bool) (d : List (κ × ν))
    (k : κ) (v : ν) (p : κ × ν) (h : p ∈ dictSetBy eqb d k v) :
    p ∈ d ∨ p = (k, v) := by
  unfold dictSetBy at h
  split at h
  · obtain ⟨q, hq, hpq⟩ := List.mem_map.mp h
    by_cases he : eqb q.1 k = true
    · rw [if_pos he] at hpq
      exact Or.inr hpq.symm
    · rw [if_neg he] at hpq
      subst hpq
      exact Or.inl hq
  · rcases List.mem_append.mp h with h2 | h2
    · exact Or.inl h2
    · exact Or.inr (by simpa using h2)

theorem dictSetBy_self_mem {κ ν : Type} (eqb : κ → κ → Bool) (d : List (κ × ν))
    (k : κ) (v : ν) (hne : d ≠ [] ∨ True) : (k, v) ∈ dictSetBy eqb d k v ∨
      dictSetBy eqb d k v = d ++ [(k, v)] := by
  unfold dictSetBy
  split
  · rename_i hany
    obtain ⟨q, hq, hqk⟩ := List.any_eq_true.mp hany
    left
    refine List.mem_map.mpr ⟨q, hq, ?_⟩
    rw [if_pos hqk]
  · right
    rfl

theorem dictHasBy_setBy {κ ν : Type}
    (eqb : κ → κ → Bool) (d : List (κ × ν)) (k x : κ) (v : ν)
    (hsym : ∀ a b : κ, eqb a b = true → eqb b a = true)
    (htr : ∀ a b c2 : κ, eqb a b = true → eqb b c2 = true → eqb a c2 = true)
    (h : dictHasBy eqb d x = true) :
    dictHasBy eqb (dictSetBy eqb d k v) x = true := by
  unfold dictHasBy at h ⊢
  obtain ⟨q, hq, hqx⟩ := List.any_eq_true.mp h
  unfold dictSetBy
  split
  · refine List.any_eq_true.mpr ?_
    refine ⟨(if eqb q.1 k = true then (k, v) else q), List.mem_map_of_mem _ hq, ?_⟩
    by_cases he : eqb q.1 k = true
    · rw [if_pos he]
      exact htr k q.1 x (hsym q.1 k he) hqx
    · rw [if_neg he]
      exact hqx
  · exact List.any_eq_true.mpr ⟨q, List.mem_append_left _ hq, hqx⟩

theorem dictHasBy_setBy_self {κ ν : Type}
    (eqb : κ → κ → Bool) (d : List (κ × ν)) (k : κ) (v : ν)
    (hrefl : eqb k k = true) :
    dictHasBy eqb (dictSetBy eqb d k v) k = true := by
  unfold dictHasBy dictSetBy
  split
  · rename_i hany
    obtain ⟨q, hq, hqk⟩ := List.any_eq_true.mp hany
    refine List.any_eq_true.mpr ?_
    refine ⟨(if eqb q.1 k = true then (k, v) else q), List.mem_map_of_mem _ hq, ?_⟩
    rw [if_pos hqk]
    exact hrefl
  · exact List.any_eq_true.mpr ⟨(k, v), List.mem_append_right _ (by simp), hrefl⟩

theorem beqSet_symm' {α : Type} [BEq α] :
    ∀ a b : List α, beqSet a b = true → beqSet b a = true :=
  fun _ _ h => beqSet_symm h

theorem beqSet_trans' {α : Type} [BEq α] [LawfulBEq α] :
    ∀ a b c : List α, beqSet a b = true → beqSet b c = true → beqSet a c = true :=
  fun _ _ _ h1 h2 => beqSet_trans h1 h2

theorem rdhVisit_assign_mono {α : Type} [BEq α] [LawfulBEq α]
    (k comp : Nat) (current : List α) :
    ∀ (nbs : List (List α)) (st : RdhState α) (x : List α),
      dictHasBy beqSet st.assign x = true →
      dictHasBy beqSet (rdhVisit k comp current st nbs).assign x = true := by
  intro nbs
  induction nbs with
  | nil => intro st x h; exact h
  | cons nb rest ih =>
      intro st x h
      simp only [rdhVisit]
      split
      · exact ih _ x (dictHasBy_setBy beqSet _ _ _ _ beqSet_symm' beqSet_trans' h)
      · exact ih st x h

theorem rdhBFS_assign_mono {α : Type} [BEq α] [LawfulBEq α] (k comp : Nat) :
    ∀ (fuel : Nat) (st : RdhState α) (x : List α),
      dictHasBy beqSet st.assign x = true →
      dictHasBy beqSet (rdhBFS k comp fuel st).assign x = true := by
  intro fuel
  induction fuel with
  | zero => intro st x h; exact h
  | succ n ih =>
      intro st x h
      simp only [rdhBFS]
      split
      · exact h
      · exact ih _ x (rdhVisit_assign_mono k comp _ _ _ x h)

theorem rdhOuter_assign_mono {α : Type} [BEq α] [LawfulBEq α] (k : Nat) :
    ∀ (l : List (List α)) (st : RdhState α) (counter : Nat) (x : List α),
      dictHasBy beqSet st.assign x = true →
      dictHasBy beqSet (rdhOuter k l st counter) x = true := by
  intro l
  induction l with
  | nil => intro st counter x h; exact h
  | cons clique rest ih =>
      intro st counter x h
      simp only [rdhOuter]
      split
      · exact ih st counter x h
      · refine ih _ _ x ?_
        show dictHasBy beqSet (rdhBFS k (counter + 1) _ _).assign x = true
        refine rdhBFS_assign_mono k (counter + 1) _ _ x ?_
        exact dictHasBy_setBy beqSet _ _ _ _ beqSet_symm' beqSet_trans' h

theorem rdhOuter_covers {α : Type} [BEq α] [LawfulBEq α] (k : Nat) :
    ∀ (l : List (List α)) (st : RdhState α) (counter : Nat) (c : List α),
      c ∈ l → dictHasBy beqSet (rdhOuter k l st counter) c = true := by
  intro l
  induction l with
  | nil => intro st counter c h; exact absurd h (by simp)
  | cons clique rest ih =>
      intro st counter c h
      rcases List.mem_cons.mp h with rfl | h2
      · simp only [rdhOuter]
        split
        · exact rdhOuter_assign_mono k rest st counter c (by assumption)
        · refine rdhOuter_assign_mono k rest _ _ c ?_
          show dictHasBy beqSet (rdhBFS k (counter + 1) _ _).assign c = true
          refine rdhBFS_assign_mono k (counter + 1) _ _ c ?_
          exact dictHasBy_setBy_self beqSet _ _ _ (beqSet_refl c)
      · simp only [rdhOuter]
        split
        · exact ih st counter c h2
        · exact ih _ _ c h2

theorem dictGetBy_of_nodup {ν : Type} :
    ∀ (acc : List (Nat × ν)) (e0 : Nat × ν),
      (acc.map Prod.fst).Nodup → e0 ∈ acc →
      dictGetBy (fun a b : Nat => a == b) acc e0.1 = some e0.2 := by
  intro acc
  induction acc with
  | nil => intro e0 _ h; exact absurd h (by simp)
  | cons q rest ih =>
      intro e0 hnd h
      rcases List.mem_cons.mp h with rfl | h2
      · unfold dictGetBy
        simp [List.find?]
      · simp only [List.map_cons, List.nodup_cons, List.mem_map] at hnd
        have hqk : q.1 ≠ e0.1 := by
          intro hcon
          exact hnd.1 ⟨e0, h2, hcon.symm⟩
        unfold dictGetBy at ih ⊢
        rw [List.find?]
        have hf : ((fun a b : Nat => a == b) q.1 e0.1) = false := by simp [hqk]
        rw [hf]
        exact ih e0 hnd.2 h2

theorem dictSetBy_keys_nat {ν : Type} (d : List (Nat × ν)) (k : Nat) (v : ν)
    (hnd : (d.map Prod.fst).Nodup) :
    ((dictSetBy (fun a b : Nat => a == b) d k v).map Prod.fst).Nodup := by
  unfold dictSetBy
  split
  · have : (d.map (fun e => if e.1 == k then (k, v) else e)).map Prod.fst =
        d.map Prod.fst := by
      rw [List.map_map]
      refine List.map_congr_left ?_
      intro e _
      by_cases he : e.1 = k
      · simp [he]
      · simp [he]
    rw [this]
    exact hnd
  · rename_i hany
    rw [List.map_append]
    simp only [List.map_cons, List.map_nil]
    rw [List.nodup_append]
    refine ⟨hnd, by simp, ?_⟩
    intro a ha
    simp only [List.mem_singleton]
    intro hak
    subst hak
    apply hany
    obtain ⟨e, he, hek⟩ := List.mem_map.mp ha
    exact List.any_eq_true.mpr ⟨e, he, by simp [hek]⟩

theorem mem_dictSetBy_of_ne {κ ν : Type} (eqb : κ → κ → Bool) (d : List (κ × ν))
    (k : κ) (v : ν) (p : κ × ν) (hp : p ∈ d) (hne : eqb p.1 k = false) :
    p ∈ dictSetBy eqb d k v := by
  unfold dictSetBy
  split
  · exact List.mem_map.mpr ⟨p, hp, by simp [hne]⟩
  · exact List.mem_append_left _ hp

theorem dictSetBy_mem_self {κ ν : Type} (eqb : κ → κ → Bool) (d : List (κ × ν))
    (k : κ) (v : ν) : (k, v) ∈ dictSetBy eqb d k v := by
  unfold dictSetBy
  split
  · rename_i hany
    obtain ⟨q, hq, hqk⟩ := List.any_eq_true.mp hany
    exact List.mem_map.mpr ⟨q, hq, by simp [hqk]⟩
  · exact List.mem_append_right _ (by simp)

theorem dictGetBy_mem {κ ν : Type} (eqb : κ → κ → Bool) (d : List (κ × ν))
    (k : κ) (w : ν) (h : dictGetBy eqb d k = some w) :
    ∃ q ∈ d, q.2 = w ∧ eqb q.1 k = true := by
  unfold dictGetBy at h
  cases hf : d.find? (fun e => eqb e.1 k) with
  | none => rw [hf] at h; exact absurd h (by simp)
  | some q =>
      rw [hf] at h
      simp only [Option.map_some', Option.some.injEq] at h
      refine ⟨q, List.mem_of_find?_eq_some hf, h, ?_⟩
      have := List.find?_some hf
      simpa using this

theorem nodeDictGet_entry {α : Type} [BEq α] (d : NodeDict α) (node : α)
    (x : List α) (hx : x ∈ nodeDictGet d node) : ∃ e ∈ d, x ∈ e.2 := by
  unfold nodeDictGet at hx
  cases hg : dictGetBy (fun a b => a == b) d node with
  | none => rw [hg] at hx; simp at hx
  | some w =>
      rw [hg] at hx
      simp only [Option.getD_some] at hx
      obtain ⟨q, hq, hqw, _⟩ := dictGetBy_mem _ d node w hg
      exact ⟨q, hq, by rw [hqw]; exact hx⟩

theorem interLen_shared {α : Type} [BEq α] [LawfulBEq α] (a b : List α)
    (h : 1 ≤ interLen a b) : ∃ w, w ∈ a ∧ w ∈ b := by
  unfold interLen at h
  cases hf : a.filter (b.contains ·) with
  | nil => rw [hf] at h; simp at h
  | cons w ws =>
      have hw : w ∈ a.filter (b.contains ·) := by
        rw [hf]; exact List.mem_cons_self _ _
      have h2 := List.mem_filter.mp hw
      exact ⟨w, h2.1, by simpa [List.elem_iff] using h2.2⟩

theorem dictFrom_remove {α : Type} [BEq α] (S : List (List α)) (d : NodeDict α)
    (c : List α) (h : DictFrom S d) : DictFrom S (removeClique d c) := by
  intro e2 he2 c2 hc2
  unfold removeClique at he2
  obtain ⟨e, he, rfl⟩ := List.mem_map.mp he2
  exact h e he c2 (List.mem_of_mem_filter hc2)

theorem buildDict_inner_from {α : Type} [BEq α] (S : List (List α)) (c : List α)
    (hc : c ∈ S) :
    ∀ (ns : List α) (d : NodeDict α), DictFrom S d →
      DictFrom S (ns.foldl (fun d2 node =>
        dictSetBy (fun a b => a == b) d2 node
          (pyAddBy beqSet (nodeDictGet d2 node) c)) d) := by
  intro ns
  induction ns with
  | nil => intro d h; exact h
  | cons n rest ih =>
      intro d h
      refine ih _ ?_
      intro e2 he2 c2 hc2
      rcases mem_dictSetBy _ _ _ _ e2 he2 with he | he
      · exact h e2 he c2 hc2
      · subst he
        rcases mem_of_mem_pyAddBy beqSet _ _ _ hc2 with h2 | h2
        · obtain ⟨e, he3, hm⟩ := nodeDictGet_entry d n c2 h2
          exact h e he3 c2 hm
        · subst h2; exact hc

theorem buildDict_outer_from {α : Type} [BEq α] (S : List (List α)) :
    ∀ (cls : List (List α)), (∀ c ∈ cls, c ∈ S) →
    ∀ (d : NodeDict α), DictFrom S d →
      DictFrom S (cls.foldl (fun d c => c.foldl (fun d2 node =>
        dictSetBy (fun a b => a == b) d2 node
          (pyAddBy beqSet (nodeDictGet d2 node) c)) d) d) := by
  intro cls
  induction cls with
  | nil => intro _ d h; exact h
  | cons c rest ih =>
      intro hmem d h
      refine ih (fun x hx => hmem x (List.mem_cons_of_mem _ hx)) _ ?_
      exact buildDict_inner_from S c (hmem c (List.mem_cons_self _ _)) c d h

theorem buildNodeDict_from {α : Type} [BEq α] (cliques : List (List α)) :
    DictFrom cliques (buildNodeDict cliques) := by
  unfold buildNodeDict
  exact buildDict_outer_from cliques cliques (fun _ h => h) []
    (fun e he => absurd he (by simp))

theorem gun_from {α : Type} [BEq α] (d : NodeDict α) (current : List α) :
    ∀ nb ∈ get_unvisited_neighbours current d, ∃ e ∈ d, nb ∈ e.2 := by
  suffices h : ∀ (ns : List α) (acc : List (List α)),
      (∀ x ∈ acc, ∃ e ∈ d, x ∈ e.2) →
      ∀ nb ∈ ns.foldl (fun acc node =>
        ((nodeDictGet d node).filter (fun c => !beqSet c current)).foldl
          (pyAddBy beqSet) acc) acc, ∃ e ∈ d, nb ∈ e.2 by
    intro nb hnb
    unfold get_unvisited_neighbours at hnb
    exact h current [] (fun x hx => absurd hx (by simp)) nb hnb
  intro ns
  induction ns with
  | nil => intro acc h nb hnb; exact h nb hnb
  | cons n rest ih =>
      intro acc h nb hnb
      refine ih _ ?_ nb hnb
      intro x hx
      rcases mem_of_mem_foldl_pyAddBy beqSet _ _ x hx with h2 | h2
      · exact h x h2
      · exact nodeDictGet_entry d n x (List.mem_of_mem_filter h2)

theorem link_setBy {α : Type} [BEq α] [LawfulBEq α] (assign : List (List α × Nat))
    (nb : List α) (comp : Nat) (c : List α)
    (h : ∃ p ∈ assign, p.2 = comp ∧ beqSet c p.1 = true) :
    ∃ p ∈ dictSetBy beqSet assign nb comp, p.2 = comp ∧ beqSet c p.1 = true := by
  obtain ⟨p, hp, hcomp, hbeq⟩ := h
  cases hpn : beqSet p.1 nb with
  | false => exact ⟨p, mem_dictSetBy_of_ne beqSet assign nb comp p hp hpn, hcomp, hbeq⟩
  | true =>
      exact ⟨(nb, comp), dictSetBy_mem_self beqSet assign nb comp, rfl,
        beqSet_trans hbeq hpn⟩

theorem rdhVisit_inv {α : Type} [BEq α] [LawfulBEq α] (G : Graph α)
    (S : List (List α)) (k comp : Nat) (hk : 2 ≤ k) (current : List α) :
    ∀ (nbs : List (List α)) (st : RdhState α),
      (∀ nb ∈ nbs, isCliqueb G nb = true) →
      (∃ p ∈ st.assign, p.2 = comp ∧ beqSet current p.1 = true) →
      AssignConn G st.assign → AssignCliques G st.assign →
      CompBound comp st.assign → DictFrom S st.dict →
      FrontierLinked comp st.assign st.frontier →
      AssignConn G (rdhVisit k comp current st nbs).assign ∧
      AssignCliques G (rdhVisit k comp current st nbs).assign ∧
      CompBound comp (rdhVisit k comp current st nbs).assign ∧
      DictFrom S (rdhVisit k comp current st nbs).dict ∧
      FrontierLinked comp (rdhVisit k comp current st nbs).assign
        (rdhVisit k comp current st nbs).frontier := by
  intro nbs
  induction nbs with
  | nil => intro st _ _ hAC hACl hCB hDF hFL; exact ⟨hAC, hACl, hCB, hDF, hFL⟩
  | cons nb rest ih =>
      intro st hnbs hcur hAC hACl hCB hDF hFL
      simp only [rdhVisit]
      split
      · rename_i hguard
        have hnbclq : isCliqueb G nb = true := hnbs nb (List.mem_cons_self _ _)
        have hlen : k - 1 ≤ interLen current nb := by
          have h1 := ((Bool.and_eq_true _ _).mp hguard).1
          exact of_decide_eq_true h1
        obtain ⟨w, hwc, hwnb⟩ := interLen_shared current nb (by omega)
        obtain ⟨ps, hps, hpscomp, hpsbeq⟩ := hcur
        have hmemA2 : ∀ p ∈ dictSetBy beqSet st.assign nb comp,
            p ∈ st.assign ∨ p = (nb, comp) :=
          fun p hp => mem_dictSetBy beqSet st.assign nb comp p hp
        have hnbgroup : ∀ q ∈ st.assign, q.2 = comp →
            ∀ u ∈ nb, ∀ v ∈ q.1, Reach G u v := by
          intro q hq hqc u hu v hv
          have h1 : Reach G u w := clique_reach G hnbclq hu hwnb
          have h2 : w ∈ ps.1 := (beqSet_mem hpsbeq).mp hwc
          have h3 : Reach G w v := hAC ps hps q hq (by rw [hpscomp, hqc]) w h2 v hv
          exact Relation.ReflTransGen.trans h1 h3
        have hAC2 : AssignConn G (dictSetBy beqSet st.assign nb comp) := by
          intro p hp q hq hpq u hu v hv
          rcases hmemA2 p hp with hpo | hpe
          · rcases hmemA2 q hq with hqo | hqe
            · exact hAC p hpo q hqo hpq u hu v hv
            · subst hqe
              exact reach_symm G (hnbgroup p hpo hpq v hv u hu)
          · subst hpe
            rcases hmemA2 q hq with hqo | hqe
            · exact hnbgroup q hqo hpq.symm u hu v hv
            · subst hqe
              exact clique_reach G hnbclq hu hv
        have hACl2 : AssignCliques G (dictSetBy beqSet st.assign nb comp) := by
          intro p hp
          rcases hmemA2 p hp with hpo | hpe
          · exact hACl p hpo
          · subst hpe; exact hnbclq
        have hCB2 : CompBound comp (dictSetBy beqSet st.assign nb comp) := by
          intro p hp
          rcases hmemA2 p hp with hpo | hpe
          · exact hCB p hpo
          · subst hpe; exact le_refl comp
        have hFL2 : FrontierLinked comp (dictSetBy beqSet st.assign nb comp)
            (pyAddBy beqSet st.frontier nb) := by
          intro c hc
          rcases mem_of_mem_pyAddBy beqSet _ _ _ hc with h2 | h2
          · exact link_setBy st.assign nb comp c (hFL c h2)
          · subst h2
            exact ⟨(c, comp), dictSetBy_mem_self beqSet st.assign c comp, rfl,
              beqSet_refl c⟩
        have hcur2 : ∃ p ∈ dictSetBy beqSet st.assign nb comp,
            p.2 = comp ∧ beqSet current p.1 = true :=
          link_setBy st.assign nb comp current ⟨ps, hps, hpscomp, hpsbeq⟩
        exact ih _ (fun x hx => hnbs x (List.mem_cons_of_mem _ hx)) hcur2 hAC2 hACl2
          hCB2 (dictFrom_remove S st.dict nb hDF) hFL2
      · exact ih st (fun x hx => hnbs x (List.mem_cons_of_mem _ hx)) hcur hAC hACl
          hCB hDF hFL

theorem rdhBFS_inv {α : Type} [BEq α] [LawfulBEq α] (G : Graph α)
    (S : List (List α)) (hS : ∀ c ∈ S, isCliqueb G c = true)
    (k comp : Nat) (hk : 2 ≤ k) :
    ∀ (fuel : Nat) (st : RdhState α),
      AssignConn G st.assign → AssignCliques G st.assign →
      CompBound comp st.assign → DictFrom S st.dict →
      FrontierLinked comp st.assign st.frontier →
      AssignConn G (rdhBFS k comp fuel st).assign ∧
      AssignCliques G (rdhBFS k comp fuel st).assign ∧
      CompBound comp (rdhBFS k comp fuel st).assign ∧
      DictFrom S (rdhBFS k comp fuel st).dict := by
  intro fuel
  induction fuel with
  | zero => intro st hAC hACl hCB hDF _; exact ⟨hAC, hACl, hCB, hDF⟩
  | succ n ih =>
      intro st hAC hACl hCB hDF hFL
      simp only [rdhBFS]
      split
      · exact ⟨hAC, hACl, hCB, hDF⟩
      · rename_i current rest hfr
        have hnbs : ∀ nb ∈ get_unvisited_neighbours current st.dict,
            isCliqueb G nb = true := by
          intro nb hnb
          obtain ⟨e, he, hmem⟩ := gun_from st.dict current nb hnb
          exact hS _ (hDF e he nb hmem)
        have hcur : ∃ p ∈ st.assign, p.2 = comp ∧ beqSet current p.1 = true := by
          refine hFL current ?_
          rw [hfr]; exact List.mem_cons_self _ _
        have hFLrest : FrontierLinked comp st.assign rest := by
          intro c hc
          refine hFL c ?_
          rw [hfr]; exact List.mem_cons_of_mem _ hc
        have hv := rdhVisit_inv G S k comp hk current
          (get_unvisited_neighbours current st.dict)
          { st with frontier := rest } hnbs hcur hAC hACl hCB hDF hFLrest
        exact ih _ hv.1 hv.2.1 hv.2.2.1 hv.2.2.2.1 hv.2.2.2.2

theorem rdhOuter_inv {α : Type} [BEq α] [LawfulBEq α] (G : Graph α)
    (S : List (List α)) (hS : ∀ c ∈ S, isCliqueb G c = true) (k : Nat) (hk : 2 ≤ k) :
    ∀ (l : List (List α)) (st : RdhState α) (counter : Nat),
      (∀ c ∈ l, isCliqueb G c = true) →
      AssignConn G st.assign → AssignCliques G st.assign →
      CompBound counter st.assign → DictFrom S st.dict →
      AssignConn G (rdhOuter k l st counter) ∧
      AssignCliques G (rdhOuter k l st counter) := by
  intro l
  induction l with
  | nil => intro st counter _ hAC hACl _ _; exact ⟨hAC, hACl⟩
  | cons clique rest ih =>
      intro st counter hl hAC hACl hCB hDF
      simp only [rdhOuter]
      split
      · exact ih st counter (fun c hc => hl c (List.mem_cons_of_mem _ hc)) hAC hACl
          hCB hDF
      · have hclq : isCliqueb G clique = true := hl clique (List.mem_cons_self _ _)
        have hmemA1 : ∀ p ∈ dictSetBy beqSet st.assign clique (counter + 1),
            p ∈ st.assign ∨ p = (clique, counter + 1) :=
          fun p hp => mem_dictSetBy beqSet st.assign clique (counter + 1) p hp
        have hAC1 : AssignConn G (dictSetBy beqSet st.assign clique (counter + 1)) := by
          intro p hp q hq hpq u hu v hv
          rcases hmemA1 p hp with hpo | hpe
          · rcases hmemA1 q hq with hqo | hqe
            · exact hAC p hpo q hqo hpq u hu v hv
            · exfalso
              have h1 := hCB p hpo
              subst hqe
              have h2 : p.2 = counter + 1 := hpq
              omega
          · subst hpe
            rcases hmemA1 q hq with hqo | hqe
            · exfalso
              have h1 := hCB q hqo
              have h2 : counter + 1 = q.2 := hpq
              omega
            · subst hqe
              exact clique_reach G hclq hu hv
        have hACl1 : AssignCliques G (dictSetBy beqSet st.assign clique (counter + 1)) := by
          intro p hp
          rcases hmemA1 p hp with hpo | hpe
          · exact hACl p hpo
          · subst hpe; exact hclq
        have hCB1 : CompBound (counter + 1)
            (dictSetBy beqSet st.assign clique (counter + 1)) := by
          intro p hp
          rcases hmemA1 p hp with hpo | hpe
          · exact Nat.le_succ_of_le (hCB p hpo)
          · subst hpe; exact le_refl _
        have hFL1 : FrontierLinked (counter + 1)
            (dictSetBy beqSet st.assign clique (counter + 1)) [clique] := by
          intro c hc
          simp only [List.mem_singleton] at hc
          subst hc
          exact ⟨(c, counter + 1),
            dictSetBy_mem_self beqSet st.assign c (counter + 1), rfl,
            beqSet_refl c⟩
        have hb := rdhBFS_inv G S hS k (counter + 1) hk (2 * dictOcc st.dict + 1)
          { assign := dictSetBy beqSet st.assign clique (counter + 1),
            dict := st.dict, frontier := [clique] } hAC1 hACl1 hCB1 hDF hFL1
        exact ih _ (counter + 1) (fun c hc => hl c (List.mem_cons_of_mem _ hc))
          hb.1 hb.2.1 hb.2.2.1 hb.2.2.2

theorem collectFold_mono {α : Type} [BEq α] (s : List α) :
    ∀ (l : List (List α × Nat)) (acc : List (Nat × List α)),
      (acc.map Prod.fst).Nodup →
      (∃ q ∈ acc, ∀ x ∈ s, x ∈ q.2) →
      ∃ q ∈ l.foldl (fun acc e =>
          dictSetBy (fun a b : Nat => a == b) acc e.2
            (e.1.foldl (pyAddBy (fun a b : α => a == b))
              ((dictGetBy (fun a b : Nat => a == b) acc e.2).getD []))) acc,
        ∀ x ∈ s, x ∈ q.2 := by
  intro l
  induction l with
  | nil => intro acc _ h; exact h
  | cons e rest ih =>
      intro acc hnd h
      refine ih _ (dictSetBy_keys_nat _ _ _ hnd) ?_
      obtain ⟨q, hq, hsub⟩ := h
      by_cases hqe : q.1 = e.2
      · refine ⟨(e.2, e.1.foldl (pyAddBy (fun a b : α => a == b))
            ((dictGetBy (fun a b : Nat => a == b) acc e.2).getD [])),
          dictSetBy_mem_self _ _ _ _, ?_⟩
        intro x hx
        have hget : dictGetBy (fun a b : Nat => a == b) acc e.2 = some q.2 := by
          have h2 := dictGetBy_of_nodup acc q hnd hq
          rw [hqe] at h2
          exact h2
        show x ∈ e.1.foldl (pyAddBy (fun a b : α => a == b))
          ((dictGetBy (fun a b : Nat => a == b) acc e.2).getD [])
        rw [hget]
        simp only [Option.getD_some]
        exact foldl_pyAddBy_acc_sub _ _ _ x (hsub x hx)
      · exact ⟨q, mem_dictSetBy_of_ne _ _ _ _ q hq (by simp [hqe]), hsub⟩

theorem collectFold_hits {α : Type} [BEq α] [LawfulBEq α] :
    ∀ (l : List (List α × Nat)) (e : List α × Nat), e ∈ l →
    ∀ (acc : List (Nat × List α)), (acc.map Prod.fst).Nodup →
      ∃ q ∈ l.foldl (fun acc e =>
          dictSetBy (fun a b : Nat => a == b) acc e.2
            (e.1.foldl (pyAddBy (fun a b : α => a == b))
              ((dictGetBy (fun a b : Nat => a == b) acc e.2).getD []))) acc,
        ∀ x ∈ e.1, x ∈ q.2 := by
  intro l
  induction l with
  | nil => intro e he; exact absurd he (by simp)
  | cons e0 rest ih =>
      intro e he acc hnd
      rcases List.mem_cons.mp he with rfl | h2
      · refine collectFold_mono e.1 rest _ (dictSetBy_keys_nat _ _ _ hnd) ?_
        refine ⟨(e.2, e.1.foldl (pyAddBy (fun a b : α => a == b))
            ((dictGetBy (fun a b : Nat => a == b) acc e.2).getD [])),
          dictSetBy_mem_self _ _ _ _, ?_⟩
        intro x hx
        obtain ⟨y, hy, hxy⟩ := foldl_pyAddBy_finds (fun a b : α => a == b)
          (fun z => by simp) e.1
          ((dictGetBy (fun a b : Nat => a == b) acc e.2).getD []) x hx
        have hxy2 : x = y := by simpa using hxy
        subst hxy2
        exact hy
      · exact ih e h2 _ (dictSetBy_keys_nat _ _ _ hnd)

theorem rdhCollect_cover {α : Type} [BEq α] [LawfulBEq α]
    (assign : List (List α × Nat)) (p : List α × Nat) (hp : p ∈ assign) :
    ∃ comm ∈ rdhCollect assign, ∀ x ∈ p.1, x ∈ comm := by
  unfold rdhCollect
  obtain ⟨q, hq, hsub⟩ := collectFold_hits assign p hp [] (by simp)
  exact ⟨q.2, List.mem_map_of_mem Prod.snd hq, hsub⟩

theorem collectFold_sound {α : Type} [BEq α] (C : Nat → α → Prop) :
    ∀ (l : List (List α × Nat)) (acc : List (Nat × List α)),
      (∀ q ∈ acc, ∀ x ∈ q.2, C q.1 x) →
      (∀ e ∈ l, ∀ x ∈ e.1, C e.2 x) →
      ∀ q ∈ l.foldl (fun acc e =>
          dictSetBy (fun a b : Nat => a == b) acc e.2
            (e.1.foldl (pyAddBy (fun a b : α => a == b))
              ((dictGetBy (fun a b : Nat => a == b) acc e.2).getD []))) acc,
        ∀ x ∈ q.2, C q.1 x := by
  intro l
  induction l with
  | nil => intro acc hacc _ q hq; exact hacc q hq
  | cons e rest ih =>
      intro acc hacc hl
      refine ih _ ?_ (fun e2 he2 => hl e2 (List.mem_cons_of_mem _ he2))
      intro q hq x hx
      rcases mem_dictSetBy _ _ _ _ q hq with hqo | hqe
      · exact hacc q hqo x hx
      · subst hqe
        have hx2 : x ∈ e.1.foldl (pyAddBy (fun a b : α => a == b))
            ((dictGetBy (fun a b : Nat => a == b) acc e.2).getD []) := hx
        rcases mem_of_mem_foldl_pyAddBy _ _ _ x hx2 with h2 | h2
        · cases hg : dictGetBy (fun a b : Nat => a == b) acc e.2 with
          | none => rw [hg] at h2; simp at h2
          | some w =>
              rw [hg] at h2
              simp only [Option.getD_some] at h2
              obtain ⟨q0, hq0, hq0w, hq0k⟩ := dictGetBy_mem _ acc e.2 w hg
              have hk : q0.1 = e.2 := by simpa using hq0k
              have h3 : C q0.1 x := hacc q0 hq0 x (by rw [hq0w]; exact h2)
              rw [hk] at h3
              exact h3
        · exact hl e (List.mem_cons_self _ _) x h2

theorem rdhCollect_sound {α : Type} [BEq α]
    (assign : List (List α × Nat)) (comm : List α) (hc : comm ∈ rdhCollect assign) :
    ∃ n : Nat, ∀ x ∈ comm, ∃ p ∈ assign, p.2 = n ∧ x ∈ p.1 := by
  unfold rdhCollect at hc
  obtain ⟨q, hq, hq2⟩ := List.mem_map.mp hc
  refine ⟨q.1, ?_⟩
  intro x hx
  refine collectFold_sound (fun n y => ∃ p ∈ assign, p.2 = n ∧ y ∈ p.1) assign []
    (fun q2 hq2b => absurd hq2b (by simp))
    (fun e he y hy => ⟨e, he, rfl, hy⟩) q hq x ?_
  rw [hq2]
  exact hx

theorem clique_extend {α : Type} [BEq α] [LawfulBEq α] (G : Graph α)
    (hnodup : G.nodes.Nodup) :
    ∀ (n : Nat) (c : List α), c.Sublist G.nodes → isCliqueb G c = true →
      G.nodes.length ≤ c.length + n →
      ∃ m, m.Sublist G.nodes ∧ isMaximalCliqueb G m = true ∧ ∀ x ∈ c, x ∈ m := by
  intro n
  induction n with
  | zero =>
      intro c hsub hclq hlen
      have hceq : c = G.nodes :=
        hsub.eq_of_length (Nat.le_antisymm hsub.length_le (by omega))
      refine ⟨c, hsub, ?_, fun x hx => hx⟩
      rw [isMaximalCliqueb, Bool.and_eq_true]
      refine ⟨hclq, ?_⟩
      rw [List.all_eq_true]
      intro v hv
      have hcv : c.contains v = true := by
        rw [hceq]
        simpa [List.elem_iff] using hv
      rw [Bool.or_eq_true]
      exact Or.inl hcv
  | succ n ih =>
      intro c hsub hclq hlen
      by_cases hmax : isMaximalCliqueb G c = true
      · exact ⟨c, hsub, hmax, fun x hx => hx⟩
      · have hall : ¬(G.nodes.all
            (fun v => c.contains v || !(c.all (fun u => G.adjb u v))) = true) := by
          intro hcon
          rw [isMaximalCliqueb, Bool.and_eq_true] at hmax
          exact hmax ⟨hclq, hcon⟩
        rw [List.all_eq_true] at hall
        push_neg at hall
        obtain ⟨u, hu, hviol⟩ := hall
        have hnc : c.contains u = false := by
          rcases Bool.eq_false_or_eq_true (c.contains u) with hb | hb
          · exact absurd (by rw [Bool.or_eq_true]; exact Or.inl hb) hviol
          · exact hb
        have hadj2 : c.all (fun w => G.adjb w u) = true := by
          rcases Bool.eq_false_or_eq_true (c.all (fun w => G.adjb w u)) with hb | hb
          · exact hb
          · exact absurd (by rw [Bool.or_eq_true]; exact Or.inr (by rw [hb]; rfl)) hviol
        rw [List.all_eq_true] at hadj2
        have hunotin : u ∉ c := by
          intro hcon
          have h3 : c.contains u = true := by simpa [List.elem_iff] using hcon
          rw [h3] at hnc
          exact Bool.noConfusion hnc
        have hsubc2 : (G.nodes.filter (fun w => c.contains w || w == u)).Sublist
            G.nodes := List.filter_sublist _
        have hcc2 : c.Sublist (G.nodes.filter (fun w => c.contains w || w == u)) := by
          have h1 : c.filter (fun w => c.contains w || w == u) = c := by
            rw [List.filter_eq_self]
            intro w hw
            simp only [Bool.or_eq_true]
            exact Or.inl (by simpa [List.elem_iff] using hw)
          have h2 : (c.filter (fun w => c.contains w || w == u)).Sublist
              (G.nodes.filter (fun w => c.contains w || w == u)) := hsub.filter _
          rw [h1] at h2
          exact h2
        have huc2 : u ∈ G.nodes.filter (fun w => c.contains w || w == u) :=
          List.mem_filter.mpr ⟨hu, by simp⟩
        have hclq2 : isCliqueb G (G.nodes.filter
            (fun w => c.contains w || w == u)) = true := by
          rw [isCliqueb_iff]
          constructor
          · intro x hx
            exact (List.mem_filter.mp hx).1
          · intro x hx y hy
            have hx2 := (List.mem_filter.mp hx).2
            have hy2 := (List.mem_filter.mp hy).2
            rw [Bool.or_eq_true] at hx2 hy2
            have hx3 : x ∈ c ∨ x = u := by
              rcases hx2 with hb | hb
              · exact Or.inl (by simpa [List.elem_iff] using hb)
              · exact Or.inr (by simpa using hb)
            have hy3 : y ∈ c ∨ y = u := by
              rcases hy2 with hb | hb
              · exact Or.inl (by simpa [List.elem_iff] using hb)
              · exact Or.inr (by simpa using hb)
            rcases hx3 with hxc | hxu
            · rcases hy3 with hyc | hyu
              · exact (isCliqueb_iff G c).mp hclq |>.2 x hxc y hyc
              · subst hyu
                exact Or.inr (hadj2 x hxc)
            · subst hxu
              rcases hy3 with hyc | hyu
              · refine Or.inr ?_
                rw [adjb_comm]
                exact hadj2 y hyc
              · subst hyu
                exact Or.inl rfl
        have hlt : c.length <
            (G.nodes.filter (fun w => c.contains w || w == u)).length := by
          rcases Nat.lt_or_ge c.length
            (G.nodes.filter (fun w => c.contains w || w == u)).length with hb | hb
          · exact hb
          · exfalso
            have hce : c = G.nodes.filter (fun w => c.contains w || w == u) :=
              hcc2.eq_of_length (Nat.le_antisymm hcc2.length_le hb)
            rw [← hce] at huc2
            exact hunotin huc2
        obtain ⟨m, hm1, hm2, hm3⟩ := ih
          (G.nodes.filter (fun w => c.contains w || w == u)) hsubc2 hclq2 (by omega)
        exact ⟨m, hm1, hm2, fun x hx => hm3 x (hcc2.subset hx)⟩

theorem max_clique_containing {α : Type} [BEq α] [LawfulBEq α] (G : Graph α)
    (hnodup : G.nodes.Nodup) (v : α) (hv : v ∈ G.nodes) :
    ∃ m ∈ find_cliques_recursive G, v ∈ m := by
  have hsub : [v].Sublist G.nodes := List.singleton_sublist.mpr hv
  have hclq : isCliqueb G [v] = true := by
    rw [isCliqueb_iff]
    constructor
    · intro x hx
      simp only [List.mem_singleton] at hx
      subst hx
      exact hv
    · intro x hx y hy
      simp only [List.mem_singleton] at hx hy
      subst hx
      subst hy
      exact Or.inl rfl
  obtain ⟨m, hm1, hm2, hm3⟩ := clique_extend G hnodup G.nodes.length [v] hsub hclq
    (by omega)
  have hvm : v ∈ m := hm3 v (by simp)
  refine ⟨m, ?_, hvm⟩
  rw [find_cliques_recursive_iff]
  refine ⟨hm1, ?_, hm2⟩
  intro hcon
  rw [hcon] at hvm
  simp at hvm

theorem find_communities_eq {α : Type} [BEq α] (G : Graph α) :
    find_communities G = Except.ok
      ((if 200 < G.nodes.length then enumerate_all_cliques G
        else find_cliques_recursive G),
       (rdhCollect (rdhOuter 2
          ((if 200 < G.nodes.length then enumerate_all_cliques G
            else find_cliques_recursive G).filter (fun c => 2 ≤ c.length))
          { assign := [],
            dict := buildNodeDict ((if 200 < G.nodes.length then
              enumerate_all_cliques G else find_cliques_recursive G).filter
                (fun c => 2 ≤ c.length)),
            frontier := [] } 0)).foldl (pyAddBy beqSet)
         (((if 200 < G.nodes.length then enumerate_all_cliques G
            else find_cliques_recursive G).filter
              (fun c => c.length == 1)).foldl (pyAddBy beqSet) [])) := rfl

set_option maxHeartbeats 1000000 in
/-- C3 (amended): for every duplicate-free graph, a successful
`find_communities` run returns communities that lose no node (every node of
the graph lies in at least one community), contain only nodes of the graph,
and are each contained in a single connected component (any two members of
one community are connected in the graph).  The original claim's "no node
present in two communities" is refuted by `find_communities_duplicates_node`:
above 200 nodes the fallback clique enumerator emits every singleton clique,
each of which is added as its own community next to the percolation
community of the same node. -/
theorem find_communities_cover_connected {α : Type} [BEq α] [LawfulBEq α]
    (G : Graph α) (hnodup : G.nodes.Nodup) (cliques comms : List (List α))
    (h : find_communities G = Except.ok (cliques, comms)) :
    (∀ v ∈ G.nodes, ∃ c ∈ comms, v ∈ c) ∧
    (∀ c ∈ comms, ∀ u ∈ c, u ∈ G.nodes) ∧
    (∀ c ∈ comms, ∀ u ∈ c, ∀ v ∈ c, Reach G u v) := by
  rw [find_communities_eq] at h
  injection h with h2
  injection h2 with hcl hcm
  subst hcl
  subst hcm
  set CQ := if 200 < G.nodes.length then enumerate_all_cliques G
    else find_cliques_recursive G with hCQdef
  have hclqs : ∀ c ∈ CQ, isCliqueb G c = true := by
    intro c hc
    rw [hCQdef] at hc
    by_cases h200 : 200 < G.nodes.length
    · rw [if_pos h200] at hc
      exact ((enumerate_all_cliques_iff G hnodup c).mp hc).2.2
    · rw [if_neg h200] at hc
      have h3 := ((find_cliques_recursive_iff G c).mp hc).2.2
      rw [isMaximalCliqueb, Bool.and_eq_true] at h3
      exact h3.1
  have hcover0 : ∀ v ∈ G.nodes, ∃ c ∈ CQ, v ∈ c := by
    intro v hv
    rw [hCQdef]
    by_cases h200 : 200 < G.nodes.length
    · rw [if_pos h200]
      refine ⟨[v], ?_, by simp⟩
      rw [enumerate_all_cliques_iff G hnodup]
      refine ⟨by simp, List.pairwise_singleton _ _, ?_⟩
      rw [isCliqueb_iff]
      constructor
      · intro x hx
        simp only [List.mem_singleton] at hx
        subst hx
        exact hv
      · intro x hx y hy
        simp only [List.mem_singleton] at hx hy
        subst hx
        subst hy
        exact Or.inl rfl
    · rw [if_neg h200]
      exact max_clique_containing G hnodup v hv
  set CF := CQ.filter (fun c => 2 ≤ c.length) with hCFdef
  have hcf : ∀ c ∈ CF, isCliqueb G c = true := by
    intro c hc
    rw [hCFdef] at hc
    exact hclqs c (List.mem_of_mem_filter hc)
  obtain ⟨hAC, hACl⟩ := rdhOuter_inv G CF hcf 2 (le_refl 2) CF
    { assign := [], dict := buildNodeDict CF, frontier := [] } 0 hcf
    (fun p hp => absurd hp (by simp))
    (fun p hp => absurd hp (by simp))
    (fun p hp => absurd hp (by simp))
    (buildNodeDict_from CF)
  set AS := rdhOuter 2 CF
    { assign := [], dict := buildNodeDict CF, frontier := [] } 0 with hASdef
  set RD := rdhCollect AS with hRDdef
  set C0 := (CQ.filter (fun c => c.length == 1)).foldl (pyAddBy beqSet) []
    with hC0def
  have hmain : ∀ c2 ∈ RD.foldl (pyAddBy beqSet) C0,
      (∀ u ∈ c2, u ∈ G.nodes) ∧ (∀ u ∈ c2, ∀ v ∈ c2, Reach G u v) := by
    intro c2 hc2
    rcases mem_of_mem_foldl_pyAddBy beqSet RD C0 c2 hc2 with h0 | hR
    · rw [hC0def] at h0
      rcases mem_of_mem_foldl_pyAddBy beqSet _ [] c2 h0 with he | hf
      · exact absurd he (by simp)
      · have hcQ : c2 ∈ CQ := List.mem_of_mem_filter hf
        have hlen1 : c2.length = 1 := by
          have h4 := (List.mem_filter.mp hf).2
          simpa using h4
        have hclq2 := hclqs c2 hcQ
        constructor
        · intro u hu
          exact ((isCliqueb_iff G c2).mp hclq2).1 u hu
        · intro u hu v hv
          cases c2 with
          | nil => simp at hu
          | cons a rest =>
              have hrest : rest = [] := by
                simp only [List.length_cons] at hlen1
                exact List.length_eq_zero.mp (by omega)
              subst hrest
              simp only [List.mem_singleton] at hu hv
              subst hu
              subst hv
              exact Relation.ReflTransGen.refl
    · obtain ⟨n, hsound⟩ := rdhCollect_sound AS c2 hR
      constructor
      · intro u hu
        obtain ⟨p, hp, hpn, hup⟩ := hsound u hu
        exact ((isCliqueb_iff G p.1).mp (hACl p hp)).1 u hup
      · intro u hu v hv
        obtain ⟨p, hp, hpn, hup⟩ := hsound u hu
        obtain ⟨q, hq, hqn, hvq⟩ := hsound v hv
        exact hAC p hp q hq (by rw [hpn, hqn]) u hup v hvq
  have hcov : ∀ v ∈ G.nodes, ∃ c ∈ RD.foldl (pyAddBy beqSet) C0, v ∈ c := by
    intro v hv
    obtain ⟨c, hcQ, hvc⟩ := hcover0 v hv
    by_cases hlen : 2 ≤ c.length
    · have hcF : c ∈ CF := by
        rw [hCFdef]
        exact List.mem_filter.mpr ⟨hcQ, by simpa using hlen⟩
      have hhas := rdhOuter_covers 2 CF
        { assign := [], dict := buildNodeDict CF, frontier := [] } 0 c hcF
      unfold dictHasBy at hhas
      obtain ⟨p, hp, hbeq⟩ := List.any_eq_true.mp hhas
      have hvp : v ∈ p.1 := (beqSet_mem hbeq).mpr hvc
      obtain ⟨comm, hcomm, hsub⟩ := rdhCollect_cover AS p hp
      obtain ⟨y, hy, hby⟩ := foldl_pyAddBy_finds beqSet (fun z => beqSet_refl z)
        RD C0 comm hcomm
      exact ⟨y, hy, (beqSet_mem hby).mp (hsub v hvp)⟩
    · have hne : c ≠ [] := by
        intro hcon
        rw [hcon] at hvc
        simp at hvc
      have hl1 : c.length = 1 := by
        have h5 := List.length_pos.mpr hne
        omega
      have hc1 : c ∈ CQ.filter (fun c => c.length == 1) :=
        List.mem_filter.mpr ⟨hcQ, by simp [hl1]⟩
      obtain ⟨y, hy, hby⟩ := foldl_pyAddBy_finds beqSet (fun z => beqSet_refl z)
        (CQ.filter (fun c => c.length == 1)) [] c hc1
      refine ⟨y, ?_, (beqSet_mem hby).mp hvc⟩
      refine foldl_pyAddBy_acc_sub beqSet RD C0 y ?_
      rw [hC0def]
      exact hy
  exact ⟨hcov, fun c hc u hu => (hmain c hc).1 u hu, fun c hc => (hmain c hc).2⟩

/-- C3 counterexample: on the 201-node single-edge graph `G201` (nodes 0-200,
one edge 0-1) `find_communities` takes the over-200-nodes fallback, whose
clique list contains every singleton clique; the singletons all become
communities next to the percolation communities.  Nodes 0 and 1 lie in the
same connected component (they are adjacent), yet node 0 appears both in a
community not containing 1 (its singleton) and in a community containing 1
(its percolation community): the flattened communities duplicate node 0 and
are not the connected components of the graph. -/
theorem find_communities_duplicates_node :
    ∃ cliques comms, find_communities G201 = Except.ok (cliques, comms) ∧
      Reach G201 0 1 ∧
      (∃ c1 ∈ comms, 0 ∈ c1 ∧ 1 ∉ c1) ∧
      (∃ c2 ∈ comms, 0 ∈ c2 ∧ 1 ∈ c2) := by
  have hgt : 200 < G201.nodes.length := by
    show 200 < (List.range 201).length
    rw [List.length_range]
    omega
  have hnodup : G201.nodes.Nodup := by
    show (List.range 201).Nodup
    exact List.nodup_range _
  have heq := find_communities_eq G201
  rw [if_pos hgt] at heq
  refine ⟨_, _, heq, ?_, ?_, ?_⟩
  · have hstep : G201.adjb 0 1 = true := by decide
    exact Relation.ReflTransGen.single hstep
  · have h0clq : isCliqueb G201 [0] = true := by decide
    have h0E : [0] ∈ enumerate_all_cliques G201 := by
      rw [enumerate_all_cliques_iff G201 hnodup]
      exact ⟨by simp, List.pairwise_singleton _ _, h0clq⟩
    have hm1 : [0] ∈ (enumerate_all_cliques G201).filter
        (fun c => c.length == 1) :=
      List.mem_filter.mpr ⟨h0E, by decide⟩
    obtain ⟨y, hy, hby⟩ := foldl_pyAddBy_finds beqSet (fun z => beqSet_refl z)
      ((enumerate_all_cliques G201).filter (fun c => c.length == 1)) [] [0] hm1
    refine ⟨y, foldl_pyAddBy_acc_sub beqSet _ _ y hy, ?_, ?_⟩
    · exact (beqSet_mem hby).mp (by simp)
    · intro hcon
      have h2 : (1 : Nat) ∈ [0] := (beqSet_mem hby).mpr hcon
      simp at h2
  · have h01clq : isCliqueb G201 [0, 1] = true := by decide
    have h01asc : AscList G201 [0, 1] := by
      refine List.pairwise_cons.mpr ⟨?_, List.pairwise_singleton _ _⟩
      intro v hv
      simp only [List.mem_singleton] at hv
      subst hv
      show nodeIdx G201 0 < nodeIdx G201 1
      decide
    have h01E : [0, 1] ∈ enumerate_all_cliques G201 := by
      rw [enumerate_all_cliques_iff G201 hnodup]
      exact ⟨by simp, h01asc, h01clq⟩
    have hm2 : [0, 1] ∈ (enumerate_all_cliques G201).filter
        (fun c => 2 ≤ c.length) :=
      List.mem_filter.mpr ⟨h01E, by decide⟩
    have hhas := rdhOuter_covers 2
      ((enumerate_all_cliques G201).filter (fun c => 2 ≤ c.length))
      { assign := [],
        dict := buildNodeDict ((enumerate_all_cliques G201).filter
          (fun c => 2 ≤ c.length)),
        frontier := [] } 0 [0, 1] hm2
    unfold dictHasBy at hhas
    obtain ⟨p, hp, hbeq⟩ := List.any_eq_true.mp hhas
    have h0p : (0 : Nat) ∈ p.1 := (beqSet_mem hbeq).mpr (by simp)
    have h1p : (1 : Nat) ∈ p.1 := (beqSet_mem hbeq).mpr (by simp)
    obtain ⟨comm, hcomm, hsub⟩ := rdhCollect_cover _ p hp
    obtain ⟨y, hy, hby⟩ := foldl_pyAddBy_finds beqSet (fun z => beqSet_refl z)
      _ _ comm hcomm
    exact ⟨y, hy, (beqSet_mem hby).mp (hsub 0 h0p), (beqSet_mem hby).mp (hsub 1 h1p)⟩

set_option maxRecDepth 4000 in
/-- C3 witness: the amended theorem instantiated on the concrete 5-node
sample graph (triangle 0-1-2, edge 2-3, isolated node 4), whose communities
are the singleton of the isolated node 4 and the connected chunk 0-3: every
node is covered, all community members are nodes, and each community is
mutually connected. -/
theorem find_communities_cover_connected_witness :
    (sampleGraph.nodes.Nodup ∧
     find_communities sampleGraph =
       Except.ok ([[0, 1, 2], [2, 3], [4]], [[4], [0, 1, 2, 3]])) ∧
    ((∀ v ∈ sampleGraph.nodes, ∃ c ∈ [[4], [0, 1, 2, 3]], v ∈ c) ∧
     (∀ c ∈ ([[4], [0, 1, 2, 3]] : List (List Nat)), ∀ u ∈ c,
        u ∈ sampleGraph.nodes) ∧
     (∀ c ∈ ([[4], [0, 1, 2, 3]] : List (List Nat)), ∀ u ∈ c, ∀ v ∈ c,
        Reach sampleGraph u v)) :=
  ⟨⟨by decide, by rfl⟩,
   find_communities_cover_connected sampleGraph (by decide)
     [[0, 1, 2], [2, 3], [4]] [[4], [0, 1, 2, 3]] (by rfl)⟩

end Mikado
